import Mathlib

/-!
Verification of the maze data structure repository: the bitmask grid model,
the three maze generators (recursive backtracker, randomized Prim, Wilson's
loop-erased random walk) from `backup/maze copy.py`, and the two Dijkstra
solvers from `solve_maze.py` and `backup/solve_maze copy.py`.

Python's global `random` source is modelled by an abstract stream
`r : Nat -> Nat` together with a running index: each call of
`random.randrange(n)` / `random.choice(seq)` consumes one stream value and
reduces it modulo the required range, so every realisable decision sequence
of the seeded Mersenne twister corresponds to some stream.  Loops whose
termination is data dependent take a fuel argument; exhausted fuel is
reported as the distinguished outcome `MazeErr.fuelOut`, which no Python
code path produces.

`heapq` is modelled by its contract: a priority queue of
`(distance, (x, y))` tuples ordered lexicographically, `heappush` inserting
in order and `heappop` removing the least element.  All entries that ever
coexist in a queue of either solver are pairwise distinct tuples, so every
conforming binary-heap implementation pops the same value sequence as this
sorted-list model.
-/

/-- The four compass directions of `class Dir(IntFlag)`. -/
inductive Dir
  | N
  | S
  | W
  | E
deriving DecidableEq, Repr

/-- Bit flag values: `N = 1, S = 2, W = 4, E = 8`. -/
def dirInt : Dir → Nat
  | .N => 1
  | .S => 2
  | .W => 4
  | .E => 8

/-- Exponent of each flag: `dirInt d = 2 ^ dirBit d`. -/
def dirBit : Dir → Nat
  | .N => 0
  | .S => 1
  | .W => 2
  | .E => 3

/-- The `DX` offset table. -/
def DX : Dir → Int
  | .E => 1
  | .W => -1
  | .N => 0
  | .S => 0

/-- The `DY` offset table. -/
def DY : Dir → Int
  | .E => 0
  | .W => 0
  | .N => -1
  | .S => 1

/-- The `OPPOSITE` lookup table. -/
def OPPOSITE : Dir → Dir
  | .E => .W
  | .W => .E
  | .N => .S
  | .S => .N

/-- The key set of the `OPPOSITE` dictionary, used by the carving guardrail
`if d not in OPPOSITE`. -/
def oppositeKeys : List Dir := [.E, .W, .N, .S]

/-- Error outcomes of the embedded code.  `invalidDimension` is the
`ValueError` of the generators' dimension check, `programDefect` the
`RuntimeError` of the direction guardrail, `indexError` / `keyError` the
corresponding Python exceptions, `invalidCoordinate` the error class the
specification postulates for the solver (produced nowhere by the code), and
`fuelOut` the fuel-exhaustion artefact of the embedding. -/
inductive MazeErr
  | invalidDimension
  | invalidCoordinate
  | programDefect
  | indexError
  | keyError
  | fuelOut
deriving DecidableEq, Repr

/-- Cell coordinates used by the generators (always in bounds). -/
abbrev Cell := Nat × Nat

/-- A maze grid: `height` rows of `width` bitmasks, `grid[y][x]`. -/
abbrev Grid := List (List Nat)

/-- Abstract stream of pseudo-random values; index `k` is the next draw. -/
abbrev RS := Nat → Nat

/-- `grid[y][x]` for in-bounds generator accesses. -/
def getCell (g : Grid) (x y : Nat) : Nat := (g.getD y []).getD x 0

/-- `grid[y][x] = v` for in-bounds generator accesses. -/
def setCell (g : Grid) (x y v : Nat) : Grid := g.set y ((g.getD y []).set x v)

/-- `grid[y][x] |= b`. -/
def orCell (g : Grid) (x y b : Nat) : Grid := setCell g x y (getCell g x y ||| b)

/-- `flags[y][x]` on a boolean matrix (`visited` / `in_maze`). -/
def getB (m : List (List Bool)) (x y : Nat) : Bool := (m.getD y []).getD x false

/-- `flags[y][x] = True` on a boolean matrix. -/
def setB (m : List (List Bool)) (x y : Nat) : List (List Bool) :=
  m.set y ((m.getD y []).set x true)

/-- `random.randrange(n)`: one stream draw reduced modulo `n`. -/
def randrange (r : RS) (k n : Nat) : Nat := r k % n

/-- `random.choice(seq)`: raises `IndexError` on an empty sequence,
otherwise picks the element at one uniformly drawn index. -/
def pyChoice (r : RS) (k : Nat) (l : List α) : Except MazeErr α :=
  match l with
  | [] => .error .indexError
  | a :: _ => .ok (l.getD (randrange r k l.length) a)

/-- `_neighbors(x, y, w, h)`: in-bounds neighbours with their directions,
in source order N, S, W, E. -/
def neighborsFn (x y w h : Nat) : List (Nat × Nat × Dir) :=
  (if 0 < y then [(x, y - 1, Dir.N)] else []) ++
  (if y < h - 1 then [(x, y + 1, Dir.S)] else []) ++
  (if 0 < x then [(x - 1, y, Dir.W)] else []) ++
  (if x < w - 1 then [(x + 1, y, Dir.E)] else [])

/-- Loop body of `generate_maze_dfs`: the iterative backtracker.  The list
`stack` has its top at the head (Python appends and pops at the end). -/
def dfsLoop (w h : Nat) (r : RS) :
    Nat → Grid → List (List Bool) → List Cell → Nat → Except MazeErr Grid
  | 0, _, _, _, _ => .error .fuelOut
  | fuel + 1, grid, visited, stack, k =>
    match stack with
    | [] => .ok grid
    | (x, y) :: rest =>
      let options := (neighborsFn x y w h).filter fun t => ! getB visited t.1 t.2.1
      match options with
      | [] => dfsLoop w h r fuel grid visited rest k
      | o :: _ =>
        let c := options.getD (randrange r k options.length) o
        let nx := c.1
        let ny := c.2.1
        let d := c.2.2
        if d ∈ oppositeKeys then
          dfsLoop w h r fuel
            (orCell (orCell grid x y (dirInt d)) nx ny (dirInt (OPPOSITE d)))
            (setB visited nx ny) ((nx, ny) :: (x, y) :: rest) (k + 1)
        else .error .programDefect

/-- `generate_maze_dfs(width, height, seed)`.  The stream `r` stands for the
decision sequence of the seeded global RNG. -/
def generate_maze_dfs (width height : Int) (r : RS) (fuel : Nat) : Except MazeErr Grid :=
  if width ≤ 0 ∨ height ≤ 0 then .error .invalidDimension
  else
    let w := width.toNat
    let h := height.toNat
    let grid : Grid := List.replicate h (List.replicate w 0)
    let visited : List (List Bool) := List.replicate h (List.replicate w false)
    let x := randrange r 0 w
    let y := randrange r 1 h
    dfsLoop w h r fuel grid (setB visited x y) [(x, y)] 2

/-- One frontier record `(x, y, nx, ny, d)` of randomized Prim. -/
abbrev FrontierE := Nat × Nat × Nat × Nat × Dir

/-- Loop body of `generate_maze_prim`. -/
def primLoop (w h : Nat) (r : RS) :
    Nat → Grid → List (List Bool) → List FrontierE → Nat → Except MazeErr Grid
  | 0, _, _, _, _ => .error .fuelOut
  | fuel + 1, grid, in_maze, frontier, k =>
    match frontier with
    | [] => .ok grid
    | e :: _ =>
      let i := randrange r k frontier.length
      let f := frontier.getD i e
      let x := f.1
      let y := f.2.1
      let nx := f.2.2.1
      let ny := f.2.2.2.1
      let d := f.2.2.2.2
      let frontier1 := frontier.eraseIdx i
      if getB in_maze nx ny then primLoop w h r fuel grid in_maze frontier1 (k + 1)
      else if d ∈ oppositeKeys then
        let in_maze1 := setB in_maze nx ny
        let grid1 := orCell (orCell grid x y (dirInt d)) nx ny (dirInt (OPPOSITE d))
        let adds := ((neighborsFn nx ny w h).filter fun t => ! getB in_maze1 t.1 t.2.1).map
          fun t => (nx, ny, t.1, t.2.1, t.2.2)
        primLoop w h r fuel grid1 in_maze1 (frontier1 ++ adds) (k + 1)
      else .error .programDefect

/-- `generate_maze_prim(width, height, seed)`. -/
def generate_maze_prim (width height : Int) (r : RS) (fuel : Nat) : Except MazeErr Grid :=
  if width ≤ 0 ∨ height ≤ 0 then .error .invalidDimension
  else
    let w := width.toNat
    let h := height.toNat
    let grid : Grid := List.replicate h (List.replicate w 0)
    let in_maze : List (List Bool) := List.replicate h (List.replicate w false)
    let x := randrange r 0 w
    let y := randrange r 1 h
    let frontier := (neighborsFn x y w h).map fun t => (x, y, t.1, t.2.1, t.2.2)
    primLoop w h r fuel grid (setB in_maze x y) frontier 2

/-- Association-map update (`m[key] = value`): the newest binding shadows
older ones under `List.lookup`. -/
def alSet (m : List (α × β)) (key : α) (v : β) : List (α × β) := (key, v) :: m

/-- Association-map removal (`m.pop(key, None)`). -/
def alRemove [DecidableEq α] (m : List (α × β)) (key : α) : List (α × β) :=
  m.filter fun p => decide (p.1 ≠ key)

/-- `remaining_cells()` of Wilson: not-in-maze cells in row-major order. -/
def remaining_cells (w h : Nat) (in_maze : List (List Bool)) : List Cell :=
  (List.range h).flatMap fun yy =>
    (List.range w).filterMap fun xx =>
      if getB in_maze xx yy then none else some (xx, yy)

/-- The random-walk loop of Wilson's algorithm.  `path_order` lists the
loop-erased walk so far (append at the tail), `visited_in_walk` maps each
walk cell to its index in `path_order`, `path_next` records the successor
cell and direction taken from each cell. -/
def wilsonWalk (w h : Nat) (r : RS) :
    Nat → List (List Bool) → List Cell → List (Cell × Nat) →
    List (Cell × (Cell × Dir)) → Cell → Nat →
    Except MazeErr (List Cell × List (Cell × (Cell × Dir)) × Nat)
  | 0, _, _, _, _, _, _ => .error .fuelOut
  | fuel + 1, in_maze, path_order, visited_in_walk, path_next, cur, k =>
    if getB in_maze cur.1 cur.2 then .ok (path_order, path_next, k)
    else
      match pyChoice r k (neighborsFn cur.1 cur.2 w h) with
      | .error e => .error e
      | .ok step =>
        let nxy := (step.1, step.2.1)
        let d := step.2.2
        match visited_in_walk.lookup nxy with
        | some loop_start_idx =>
          let dropped := path_order.drop (loop_start_idx + 1)
          let vw := dropped.foldl (fun m c => alRemove m c) visited_in_walk
          wilsonWalk w h r fuel in_maze (path_order.take (loop_start_idx + 1)) vw
            (alSet path_next cur (nxy, d)) nxy (k + 1)
        | none =>
          wilsonWalk w h r fuel in_maze (path_order ++ [nxy])
            (alSet visited_in_walk nxy path_order.length)
            (alSet path_next cur (nxy, d)) nxy (k + 1)

/-- The carving loop of Wilson: carve every step of the loop-erased path and
mark its cells in-maze. -/
def wilsonCarve :
    Grid → List (List Bool) → List Cell → List (Cell × (Cell × Dir)) →
    Except MazeErr (Grid × List (List Bool))
  | grid, in_maze, [], _ => .ok (grid, in_maze)
  | grid, in_maze, [_], _ => .ok (grid, in_maze)
  | grid, in_maze, c0 :: c1 :: rest, path_next =>
    match path_next.lookup c0 with
    | none => .error .keyError
    | some s =>
      let d := s.2
      wilsonCarve (orCell (orCell grid c0.1 c0.2 (dirInt d)) c1.1 c1.2 (dirInt (OPPOSITE d)))
        (setB (setB in_maze c0.1 c0.2) c1.1 c1.2) (c1 :: rest) path_next

/-- Outer `while True` loop of Wilson's algorithm. -/
def wilsonOuter (w h : Nat) (r : RS) :
    Nat → Grid → List (List Bool) → Nat → Except MazeErr Grid
  | 0, _, _, _ => .error .fuelOut
  | fuel + 1, grid, in_maze, k =>
    match remaining_cells w h in_maze with
    | [] => .ok grid
    | pool0 :: poolRest =>
      match pyChoice r k (pool0 :: poolRest) with
      | .error e => .error e
      | .ok start =>
        match wilsonWalk w h r fuel in_maze [start] [(start, 0)] [] start (k + 1) with
        | .error e => .error e
        | .ok res =>
          match wilsonCarve grid in_maze res.1 res.2.1 with
          | .error e => .error e
          | .ok gi => wilsonOuter w h r fuel gi.1 gi.2 res.2.2

/-- `generate_maze_wilson(width, height, seed)`. -/
def generate_maze_wilson (width height : Int) (r : RS) (fuel : Nat) : Except MazeErr Grid :=
  if width ≤ 0 ∨ height ≤ 0 then .error .invalidDimension
  else
    let w := width.toNat
    let h := height.toNat
    let grid : Grid := List.replicate h (List.replicate w 0)
    let in_maze : List (List Bool) := List.replicate h (List.replicate w false)
    let start_x := randrange r 0 w
    let start_y := randrange r 1 h
    wilsonOuter w h r fuel grid (setB in_maze start_x start_y) 2

/-- `to_edges(grid)`: the carved edges `((x, y), (nx, ny))` with
`(x, y) < (nx, ny)` in Python tuple order, from `maze copy.py`. -/
def to_edges (grid : Grid) : List ((Int × Int) × (Int × Int)) :=
  let h := grid.length
  let w := (grid.headD []).length
  (List.range h).flatMap fun y =>
    (List.range w).flatMap fun x =>
      ([Dir.N, Dir.E, Dir.S, Dir.W].filterMap fun d =>
        if getCell grid x y &&& dirInt d ≠ 0 then
          let nx : Int := (x : Int) + DX d
          let ny : Int := (y : Int) + DY d
          if 0 ≤ nx ∧ nx < (w : Int) ∧ 0 ≤ ny ∧ ny < (h : Int) ∧
              ((x : Int) < nx ∨ ((x : Int) = nx ∧ (y : Int) < ny)) then
            some (((x : Int), (y : Int)), (nx, ny))
          else none
        else none)

/-! ## The solvers -/

/-- Solver-side coordinates: arbitrary integers (possibly out of bounds). -/
abbrev ICell := Int × Int

/-- A priority-queue entry `(distance, (x, y))`. -/
abbrev PQE := Nat × ICell

/-- Python tuple order on queue entries. -/
def pqLeB (a b : PQE) : Bool :=
  a.1 < b.1 ∨ (a.1 = b.1 ∧ (a.2.1 < b.2.1 ∨ (a.2.1 = b.2.1 ∧ a.2.2 ≤ b.2.2)))

/-- `heapq.heappush`: ordered insertion (see the header comment). -/
def heappush (pq : List PQE) (e : PQE) : List PQE :=
  match pq with
  | [] => [e]
  | a :: rest => if pqLeB e a then e :: a :: rest else a :: heappush rest e

/-- Python list subscripting `l[i]`: negative indices wrap once, anything
else out of `[-len, len)` raises `IndexError`. -/
def pyGet (l : List α) (i : Int) : Except MazeErr α :=
  if h : 0 ≤ i ∧ i < (l.length : Int) then
    .ok (l.get ⟨i.toNat, by
      have := h.2
      omega⟩)
  else if h2 : -(l.length : Int) ≤ i ∧ i < 0 then
    .ok (l.get ⟨(i + l.length).toNat, by
      have := h2.1
      have := h2.2
      omega⟩)
  else .error .indexError

/-- `grid[y][x]` with Python subscript semantics. -/
def pyGet2 (g : Grid) (x y : Int) : Except MazeErr Nat :=
  match pyGet g y with
  | .error e => .error e
  | .ok row => pyGet row x

/-- One relaxation step of the inner `for d in (Dir.N, Dir.S, Dir.E, Dir.W)`
loop, shared verbatim by both solvers. -/
def relaxDir (grid : Grid) (w h : Nat) (x y : Int) (current_dist : Nat)
    (st : List (ICell × Nat) × List (ICell × Option ICell) × List PQE) (d : Dir) :
    Except MazeErr (List (ICell × Nat) × List (ICell × Option ICell) × List PQE) :=
  match pyGet2 grid x y with
  | .error e => .error e
  | .ok cell =>
    if cell &&& dirInt d ≠ 0 then
      let nx := x + DX d
      let ny := y + DY d
      if 0 ≤ nx ∧ nx < (w : Int) ∧ 0 ≤ ny ∧ ny < (h : Int) then
        let new_dist := current_dist + 1
        let dist := st.1
        let prev := st.2.1
        let pq := st.2.2
        match dist.lookup (nx, ny) with
        | none =>
          .ok (alSet dist (nx, ny) new_dist, alSet prev (nx, ny) (some (x, y)),
            heappush pq (new_dist, (nx, ny)))
        | some v =>
          if new_dist < v then
            .ok (alSet dist (nx, ny) new_dist, alSet prev (nx, ny) (some (x, y)),
              heappush pq (new_dist, (nx, ny)))
          else .ok st
      else .ok st
    else .ok st

/-- Main loop of `dijkstra_solve` (the `visited`-set solver of
`solve_maze.py`).  Returns the final `dist`, `prev`, `visited`. -/
def dijkstraLoop (grid : Grid) (w h : Nat) (endc : ICell) :
    Nat → List PQE → List (ICell × Nat) → List (ICell × Option ICell) → List ICell →
    Except MazeErr (List (ICell × Nat) × List (ICell × Option ICell) × List ICell)
  | 0, _, _, _, _ => .error .fuelOut
  | fuel + 1, pq, dist, prev, visited =>
    match pq with
    | [] => .ok (dist, prev, visited)
    | (current_dist, xy) :: pqRest =>
      if xy = endc then .ok (dist, prev, visited)
      else if xy ∈ visited then dijkstraLoop grid w h endc fuel pqRest dist prev visited
      else
        match [Dir.N, Dir.S, Dir.E, Dir.W].foldlM
            (relaxDir grid w h xy.1 xy.2 current_dist) (dist, prev, pqRest) with
        | .error e => .error e
        | .ok st =>
          dijkstraLoop grid w h endc fuel st.2.2 st.1 st.2.1 (xy :: visited)

/-- Path reconstruction of `dijkstra_solve`: follow `prev.get(cur)` links,
which yield `None` (stop) on an absent key. -/
def reconstructGet (prev : List (ICell × Option ICell)) :
    Nat → ICell → List ICell → Except MazeErr (List ICell)
  | 0, _, _ => .error .fuelOut
  | f + 1, cur, acc =>
    match prev.lookup cur with
    | none => .ok (cur :: acc)
    | some none => .ok (cur :: acc)
    | some (some c) => reconstructGet prev f c (cur :: acc)

/-- `dijkstra_solve(grid, start, end)` from `solve_maze.py`. -/
def dijkstra_solve (grid : Grid) (start endc : ICell) (fuel : Nat) :
    Except MazeErr (List ICell) :=
  match pyGet grid 0 with
  | .error e => .error e
  | .ok row0 =>
    let h := grid.length
    let w := row0.length
    match dijkstraLoop grid w h endc fuel [(0, start)] [(start, 0)] [(start, none)] [] with
    | .error e => .error e
    | .ok st => reconstructGet st.2.1 (st.2.1.length + 1) endc []

/-- Main loop of `solve_maze_dijkstra` (the staleness-by-distance solver of
`backup/solve_maze copy.py`). -/
def solveLoop (grid : Grid) (w h : Nat) (endc : ICell) :
    Nat → List PQE → List (ICell × Nat) → List (ICell × Option ICell) →
    Except MazeErr (List (ICell × Nat) × List (ICell × Option ICell))
  | 0, _, _, _ => .error .fuelOut
  | fuel + 1, pq, dist, prev =>
    match pq with
    | [] => .ok (dist, prev)
    | (current_dist, xy) :: pqRest =>
      if xy = endc then .ok (dist, prev)
      else
        match dist.lookup xy with
        | none => .error .keyError
        | some dv =>
          if dv < current_dist then solveLoop grid w h endc fuel pqRest dist prev
          else
            match [Dir.N, Dir.S, Dir.E, Dir.W].foldlM
                (relaxDir grid w h xy.1 xy.2 current_dist) (dist, prev, pqRest) with
            | .error e => .error e
            | .ok st => solveLoop grid w h endc fuel st.2.2 st.1 st.2.1

/-- Path reconstruction of `solve_maze_dijkstra`: `cur = prev[cur]` raises
`KeyError` on an absent key. -/
def reconstructIdx (prev : List (ICell × Option ICell)) :
    Nat → ICell → List ICell → Except MazeErr (List ICell)
  | 0, _, _ => .error .fuelOut
  | f + 1, cur, acc =>
    match prev.lookup cur with
    | none => .error .keyError
    | some none => .ok (cur :: acc)
    | some (some c) => reconstructIdx prev f c (cur :: acc)

/-- `solve_maze_dijkstra(grid, start, end)` from `backup/solve_maze copy.py`;
`none` is the `return None` "no path" outcome. -/
def solve_maze_dijkstra (grid : Grid) (start endc : ICell) (fuel : Nat) :
    Except MazeErr (Option (List ICell)) :=
  match pyGet grid 0 with
  | .error e => .error e
  | .ok row0 =>
    let h := grid.length
    let w := row0.length
    match solveLoop grid w h endc fuel [(0, start)] [(start, 0)] [(start, none)] with
    | .error e => .error e
    | .ok st =>
      if (st.2.lookup endc).isNone then .ok none
      else
        match reconstructIdx st.2 (st.2.length + 1) endc [] with
        | .error e => .error e
        | .ok p => .ok (some p)

/-! ## Graph-side specification definitions -/

/-- A `height`-row, `width`-column rectangular matrix. -/
def Rect {α : Type} (g : List (List α)) (w h : Nat) : Prop :=
  g.length = h ∧ ∀ row ∈ g, row.length = w

/-- In-bounds generator coordinates. -/
def inBounds (w h : Nat) (c : Cell) : Prop := c.1 < w ∧ c.2 < h

/-- The neighbouring cell one step in direction `d`, if it stays inside a
`w x h` grid (the geometric content of `_neighbors` and of the solver's
bounds check). -/
def dirNext (w h : Nat) (c : Cell) (d : Dir) : Option Cell :=
  match d with
  | .N => if 0 < c.2 then some (c.1, c.2 - 1) else none
  | .S => if c.2 + 1 < h then some (c.1, c.2 + 1) else none
  | .W => if 0 < c.1 then some (c.1 - 1, c.2) else none
  | .E => if c.1 + 1 < w then some (c.1 + 1, c.2) else none

/-- Direction bit `d` is set in the mask of cell `c`. -/
def bitSet (g : Grid) (c : Cell) (d : Dir) : Prop :=
  getCell g c.1 c.2 &&& dirInt d ≠ 0

/-- One edge of the passage graph: a set direction bit towards an in-bounds
neighbour. -/
def passAdj (g : Grid) (w h : Nat) (c c2 : Cell) : Prop :=
  ∃ d, dirNext w h c d = some c2 ∧ bitSet g c d

/-- Reachability in the passage graph. -/
def passReach (g : Grid) (w h : Nat) : Cell → Cell → Prop :=
  Relation.ReflTransGen (passAdj g w h)

/-- A spanning tree grown by leaf additions: a vertex list together with
(child, parent) edges, each new vertex attached to an existing one.  Every
generator's partial state grows such a tree. -/
inductive IsGrown : List Cell → List (Cell × Cell) → Prop
  | root (c : Cell) : IsGrown [c] []
  | step {V : List Cell} {E : List (Cell × Cell)} (c p : Cell) (hg : IsGrown V E)
      (hp : p ∈ V) (hc : c ∉ V) : IsGrown (c :: V) ((c, p) :: E)

/-- Reachability through an undirected edge list. -/
def ReachPairs (E : List (Cell × Cell)) : Cell → Cell → Prop :=
  Relation.ReflTransGen (fun u v => (u, v) ∈ E ∨ (v, u) ∈ E)

/-- The (child, parent) edges of a carved walk path. -/
def pathEdges : List Cell → List (Cell × Cell)
  | [] => []
  | [_] => []
  | a :: b :: t => (a, b) :: pathEdges (b :: t)

/-- The `path_next` bookkeeping of Wilson's walk is consistent along a
path: each cell maps to the following cell with a valid direction. -/
def ChainNext (w h : Nat) (pn : List (Cell × (Cell × Dir))) : List Cell → Prop
  | [] => True
  | [_] => True
  | a :: b :: t =>
    (∃ d, pn.lookup a = some (b, d) ∧ dirNext w h a d = some b) ∧
      ChainNext w h pn (b :: t)

/-- The direction bits carved along a walk path: `chainBit w h path c d`
says that carving every consecutive pair of `path` sets bit `d` of cell
`c`. -/
def chainBit (w h : Nat) : List Cell → Cell → Dir → Prop
  | [], _, _ => False
  | [_], _, _ => False
  | a :: b :: t, c, d =>
    (c = a ∧ dirNext w h c d = some b) ∨ (c = b ∧ dirNext w h c d = some a) ∨
      chainBit w h (b :: t) c d

/-- All cells of a `w x h` grid, row-major. -/
def allCells (w h : Nat) : List Cell :=
  (List.range h).flatMap fun y => (List.range w).map fun x => (x, y)

/-- Python tuple order `(x, y) < (nx, ny)` used by `to_edges`. -/
def pyLt (a b : Int × Int) : Prop := a.1 < b.1 ∨ (a.1 = b.1 ∧ a.2 < b.2)

/-- Generator coordinates as solver/`to_edges` coordinates. -/
def iCell (c : Cell) : Int × Int := ((c.1 : Int), (c.2 : Int))

/-- The shared state invariant of all three generators: the boolean matrix
marks exactly the vertex list `V` of a grown tree, and the grid's direction
bits encode exactly its edge list `E`. -/
structure GInv (w h : Nat) (g : Grid) (flags : List (List Bool)) (V : List Cell)
    (E : List (Cell × Cell)) : Prop where
  rectG : Rect g w h
  rectF : Rect flags w h
  grown : IsGrown V E
  vbound : ∀ c ∈ V, inBounds w h c
  brep : ∀ c : Cell, getB flags c.1 c.2 = true ↔ c ∈ V
  erep : ∀ (c : Cell) (d : Dir), bitSet g c d ↔
    ∃ c2, dirNext w h c d = some c2 ∧ ((c, c2) ∈ E ∨ (c2, c) ∈ E)
  eok : ∀ e ∈ E, ∃ d, dirNext w h e.1 d = some e.2

/-- The perfect-maze outcome: symmetric passages, a connected passage graph
and exactly `w*h - 1` carved edges. -/
def PerfectOut (w h : Nat) (g : Grid) : Prop :=
  Rect g w h ∧
  (∀ c d, bitSet g c d →
    ∃ c2, dirNext w h c d = some c2 ∧ inBounds w h c2 ∧ bitSet g c2 (OPPOSITE d)) ∧
  (∀ a b, inBounds w h a → inBounds w h b → passReach g w h a b) ∧
  (to_edges g).length + 1 = w * h

/-! ## Solver-side graph definitions -/

/-- In-bounds solver coordinates. -/
def inBI (w h : Nat) (c : ICell) : Prop :=
  0 ≤ c.1 ∧ c.1 < (w : Int) ∧ 0 ≤ c.2 ∧ c.2 < (h : Int)

/-- One step of the solver's expansion: the direction bit is set in the
current cell's mask and the target passes the bounds check. -/
def sAdj (grid : Grid) (w h : Nat) (c c2 : ICell) : Prop :=
  inBI w h c ∧ inBI w h c2 ∧
    ∃ d : Dir, getCell grid c.1.toNat c.2.toNat &&& dirInt d ≠ 0 ∧
      c2 = (c.1 + DX d, c.2 + DY d)

/-- `n`-step reachability in the solver's graph. -/
inductive SReachN (grid : Grid) (w h : Nat) : ICell → ICell → Nat → Prop
  | refl (c : ICell) : SReachN grid w h c c 0
  | step {a b c : ICell} {n : Nat} : SReachN grid w h a b n → sAdj grid w h b c →
      SReachN grid w h a c (n + 1)

/-- Consecutive cells of the list are joined by carved passages. -/
def sChain (grid : Grid) (w h : Nat) : List ICell → Prop
  | [] => True
  | [_] => True
  | a :: b :: t => sAdj grid w h a b ∧ sChain grid w h (b :: t)

/-- The glossary's perfect-maze characterisation: exactly one simple path
between any two in-bounds cells. -/
def UniquePathProp (grid : Grid) (w h : Nat) : Prop :=
  ∀ a b : ICell, inBI w h a → inBI w h b →
    ∃ p, (sChain grid w h p ∧ p.head? = some a ∧ p.getLast? = some b ∧ p.Nodup) ∧
      ∀ q, (sChain grid w h q ∧ q.head? = some a ∧ q.getLast? = some b ∧ q.Nodup) → q = p

/-- The priority queue is sorted by the Python tuple order. -/
def pqSorted (pq : List PQE) : Prop := pq.Pairwise (fun a b => pqLeB a b = true)

/-- The loop invariant shared by `dijkstra_solve` and `solve_maze_dijkstra`:
settled distances are shortest, every recorded distance is attained by a
real path and (for unsettled cells) represented in the queue, every edge out
of the settled region has been relaxed, queue entries never dip below the
recorded distance of their cell, and predecessor links rebuild a path. -/
structure DCore (grid : Grid) (w h : Nat) (start endc : ICell) (pq : List PQE)
    (dist : List (ICell × Nat)) (prev : List (ICell × Option ICell))
    (visited : List ICell) : Prop where
  sorted : pqSorted pq
  pqNodup : pq.Nodup
  distStart : List.lookup start dist = some 0
  distInB : ∀ c dv, List.lookup c dist = some dv → inBI w h c
  reached : ∀ c dv, List.lookup c dist = some dv → SReachN grid w h start c dv
  inQueue : ∀ e ∈ pq, ∃ dv, List.lookup e.2 dist = some dv ∧ dv ≤ e.1
  represented : ∀ c dv, List.lookup c dist = some dv → c ∉ visited → (dv, c) ∈ pq
  settled : ∀ c ∈ visited, ∃ dv, List.lookup c dist = some dv ∧
    ∀ m, SReachN grid w h start c m → dv ≤ m
  stale : ∀ e ∈ pq, e.2 ∈ visited → ∃ dv, List.lookup e.2 dist = some dv ∧ dv < e.1
  prevLink : ∀ c dv, List.lookup c dist = some dv →
    (c = start ∧ dv = 0 ∧ List.lookup c prev = some none) ∨
    (∃ p dp, List.lookup c prev = some (some p) ∧ sAdj grid w h p c ∧
      List.lookup p dist = some dp ∧ dv = dp + 1 ∧ p ∈ visited)
  prevKeys : ∀ c, (List.lookup c prev).isSome ↔ (List.lookup c dist).isSome
  visNodup : visited.Nodup
  visDist : ∀ c ∈ visited, (List.lookup c dist).isSome
  endNotVis : endc ∉ visited

/-- The full loop invariant: the core plus the relaxed-frontier property
(every passage out of a settled cell has already been offered its
distance). -/
structure DInv (grid : Grid) (w h : Nat) (start endc : ICell) (pq : List PQE)
    (dist : List (ICell × Nat)) (prev : List (ICell × Option ICell))
    (visited : List ICell) extends
    DCore grid w h start endc pq dist prev visited : Prop where
  frontier : ∀ u ∈ visited, ∀ v, sAdj grid w h u v →
    ∃ dv du, List.lookup v dist = some dv ∧ List.lookup u dist = some du ∧ dv ≤ du + 1

/-! ## Theorems -/

/-! ## Matrix access lemmas -/

theorem rect_row {α : Type} {m : List (List α)} {w h : Nat} (hm : Rect m w h) {y : Nat}
    (hy : y < h) : m.get? y = some (m.getD y []) ∧ (m.getD y []).length = w := by
  have hylen : y < m.length := by rw [hm.1]; exact hy
  have hget : m.get? y = some (m.get ⟨y, hylen⟩) := List.get?_eq_get hylen
  have hmem : m.get ⟨y, hylen⟩ ∈ m := m.get_mem _ hylen
  have hgd : m.getD y [] = m.get ⟨y, hylen⟩ := by
    show (m.get? y).getD [] = _
    rw [hget]
    rfl
  refine ⟨by rw [hget, hgd], ?_⟩
  rw [hgd]
  exact hm.2 _ hmem

theorem rect_setRow {α : Type} {m : List (List α)} {w h : Nat} (hm : Rect m w h)
    {y : Nat} {row : List α} (hrow : row.length = w) : Rect (m.set y row) w h := by
  refine ⟨by rw [List.length_set]; exact hm.1, ?_⟩
  intro r hr
  rcases List.mem_or_eq_of_mem_set hr with h1 | h1
  · exact hm.2 _ h1
  · rw [h1]; exact hrow

theorem Rect_setB {m : List (List Bool)} {w h : Nat} (hm : Rect m w h) (x y : Nat) :
    Rect (setB m x y) w h := by
  unfold setB
  by_cases hy : y < h
  · exact rect_setRow hm (by rw [List.length_set]; exact (rect_row hm hy).2)
  · have h1 : m.set y ((m.getD y []).set x true) = m := by
      apply List.set_eq_of_length_le
      rw [hm.1]
      omega
    rw [h1]
    exact hm

theorem getB_setB_self {m : List (List Bool)} {w h : Nat} (hm : Rect m w h) {x y : Nat}
    (hx : x < w) (hy : y < h) : getB (setB m x y) x y = true := by
  obtain ⟨hget, hlen⟩ := rect_row hm hy
  have hylen : y < m.length := by rw [hm.1]; exact hy
  show (((m.set y ((m.getD y []).set x true)).get? y).getD []).getD x false = true
  rw [List.get?_set_eq_of_lt _ hylen]
  show (((m.getD y []).set x true).get? x).getD false = true
  rw [List.get?_set_eq_of_lt _ (by rw [hlen]; exact hx)]
  rfl

theorem getB_setB_ne (m : List (List Bool)) (x y x2 y2 : Nat)
    (hne : (x2, y2) ≠ (x, y)) : getB (setB m x2 y2) x y = getB m x y := by
  by_cases hyy : y = y2
  · subst hyy
    have hxx : x ≠ x2 := by
      intro h
      exact hne (by rw [h])
    show (((m.set y ((m.getD y []).set x2 true)).get? y).getD []).getD x false = _
    by_cases hylen : y < m.length
    · rw [List.get?_set_eq_of_lt _ hylen]
      show (((m.getD y []).set x2 true).get? x).getD false = _
      rw [List.get?_set_ne _ _ (fun h => hxx h.symm)]
      rfl
    · have h1 : (m.set y ((m.getD y []).set x2 true)) = m := by
        apply List.set_eq_of_length_le
        omega
      rw [h1]
      rfl
  · show (((m.set y2 ((m.getD y2 []).set x2 true)).get? y).getD []).getD x false = _
    rw [List.get?_set_ne _ _ (fun h => hyy h.symm)]
    rfl

theorem getB_oob {m : List (List Bool)} {w h : Nat} (hm : Rect m w h) {x y : Nat}
    (hxy : ¬ (x < w ∧ y < h)) : getB m x y = false := by
  by_cases hy : y < h
  · obtain ⟨hget, hlen⟩ := rect_row hm hy
    show ((m.get? y).getD []).getD x false = false
    rw [hget]
    show ((m.getD y []).get? x).getD false = false
    rw [List.get?_eq_none.2 (by omega)]
    rfl
  · show ((m.get? y).getD []).getD x false = false
    rw [List.get?_eq_none.2 (by rw [hm.1]; omega)]
    rfl

theorem getB_replicate (w h x y : Nat) :
    getB (List.replicate h (List.replicate w false)) x y = false := by
  show (((List.replicate h (List.replicate w false)).get? y).getD []).getD x false = false
  rw [List.get?_eq_getElem?, List.getElem?_replicate]
  by_cases hy : y < h
  · rw [if_pos hy]
    show ((List.replicate w false).get? x).getD false = false
    rw [List.get?_eq_getElem?, List.getElem?_replicate]
    by_cases hx : x < w
    · rw [if_pos hx]
      rfl
    · rw [if_neg hx]
      rfl
  · rw [if_neg hy]
    rfl

theorem Rect_replicate {α : Type} (a : α) (w h : Nat) :
    Rect (List.replicate h (List.replicate w a)) w h := by
  refine ⟨List.length_replicate .., ?_⟩
  intro r hr
  rw [List.eq_of_mem_replicate hr]
  exact List.length_replicate ..


/-! ## Basic facts about the direction system -/

theorem mem_oppositeKeys (d : Dir) : d ∈ oppositeKeys := by
  cases d <;> decide

theorem dirInt_and_dirInt (d e : Dir) :
    dirInt d &&& dirInt e = if d = e then dirInt d else 0 := by
  cases d <;> cases e <;> decide

theorem dirInt_eq_two_pow (d : Dir) : dirInt d = 2 ^ (dirBit d) := by
  cases d <;> rfl

theorem and_dirInt_ne (m : Nat) (d : Dir) :
    (m &&& dirInt d ≠ 0) ↔ m.testBit (dirBit d) = true := by
  rw [dirInt_eq_two_pow, Nat.and_two_pow]
  cases h : m.testBit (dirBit d) <;> simp [h]

theorem or_flag_test (m : Nat) (d e : Dir) :
    ((m ||| dirInt e) &&& dirInt d ≠ 0) ↔ ((m &&& dirInt d ≠ 0) ∨ d = e) := by
  rw [and_dirInt_ne, and_dirInt_ne, Nat.testBit_lor]
  have hbit : (dirInt e).testBit (dirBit d) = decide (d = e) := by
    cases d <;> cases e <;> rfl
  rw [hbit]
  cases hde : decide (d = e) with
  | false =>
    have : d ≠ e := of_decide_eq_false hde
    simp [this]
  | true =>
    have : d = e := of_decide_eq_true hde
    simp [this]

/-! ## C6: dimension validation -/

/-- C6: for `width ≤ 0` or `height ≤ 0` each of the three generators fails
with the `InvalidDimension` error, for every stream and even for zero fuel
(the check precedes the allocation of `grid` and all generation work), and
the error is an ordinary return value the caller can recover from. -/
theorem C6_invalid_dimension (width height : Int) (r : RS) (fuel : Nat)
    (h : width ≤ 0 ∨ height ≤ 0) :
    generate_maze_dfs width height r fuel = .error .invalidDimension ∧
    generate_maze_prim width height r fuel = .error .invalidDimension ∧
    generate_maze_wilson width height r fuel = .error .invalidDimension := by
  unfold generate_maze_dfs generate_maze_prim generate_maze_wilson
  rw [if_pos h, if_pos h, if_pos h]
  exact ⟨rfl, rfl, rfl⟩

theorem C6_invalid_dimension_witness :
    ((0 : Int) ≤ 0 ∨ (5 : Int) ≤ 0) ∧
    generate_maze_dfs 0 5 (fun _ => 0) 0 = .error .invalidDimension ∧
    generate_maze_prim 0 5 (fun _ => 0) 0 = .error .invalidDimension ∧
    generate_maze_wilson 0 5 (fun _ => 0) 0 = .error .invalidDimension :=
  ⟨Or.inl le_rfl, C6_invalid_dimension 0 5 (fun _ => 0) 0 (Or.inl le_rfl)⟩

/-! ## C7: determinism -/

/-- C7: each generator is a pure function of `(width, height, fuel)` and the
decision stream of the seeded RNG: two calls whose seeded streams agree
pointwise (as the reseeded global RNG guarantees for equal seeds) return
bitwise-identical results. -/
theorem C7_determinism (width height : Int) (fuel : Nat) (r r2 : RS)
    (h : ∀ k, r k = r2 k) :
    generate_maze_dfs width height r fuel = generate_maze_dfs width height r2 fuel ∧
    generate_maze_prim width height r fuel = generate_maze_prim width height r2 fuel ∧
    generate_maze_wilson width height r fuel = generate_maze_wilson width height r2 fuel := by
  have hr : r = r2 := funext h
  rw [hr]
  exact ⟨rfl, rfl, rfl⟩

theorem C7_determinism_witness :
    (∀ k : Nat, k % 5 = k % 5) ∧
    generate_maze_dfs 2 2 (fun k => k % 5) 100
      = generate_maze_dfs 2 2 (fun k => k % 5) 100 ∧
    generate_maze_prim 2 2 (fun k => k % 5) 100
      = generate_maze_prim 2 2 (fun k => k % 5) 100 ∧
    generate_maze_wilson 2 2 (fun k => k % 5) 100
      = generate_maze_wilson 2 2 (fun k => k % 5) 100 :=
  ⟨fun _ => rfl, C7_determinism 2 2 100 (fun k => k % 5) (fun k => k % 5) (fun _ => rfl)⟩

/-! ## C9: the trivial 1x1 solve -/

/-- C9: on a 1x1 grid with `start = end = (0,0)`, both solvers pop the start
entry, hit the `end` break at once and return the single-element path
`[(0,0)]`, whatever the cell's mask is. -/
theorem C9_trivial_1x1 (m : Nat) (fuel : Nat) (hf : 1 ≤ fuel) :
    dijkstra_solve [[m]] (0, 0) (0, 0) fuel = .ok [(0, 0)] ∧
    solve_maze_dijkstra [[m]] (0, 0) (0, 0) fuel = .ok (some [(0, 0)]) := by
  obtain ⟨f, rfl⟩ : ∃ f, fuel = f + 1 := ⟨fuel - 1, by omega⟩
  exact ⟨rfl, rfl⟩

theorem C9_trivial_1x1_witness :
    1 ≤ 7 ∧ dijkstra_solve [[9]] (0, 0) (0, 0) 7 = .ok [(0, 0)] ∧
    solve_maze_dijkstra [[9]] (0, 0) (0, 0) 7 = .ok (some [(0, 0)]) :=
  ⟨by omega, C9_trivial_1x1 9 7 (by omega)⟩

/-! ## C8: the direction guardrail never fires -/

theorem pyChoice_error_eq {α : Type} (r : RS) (k : Nat) (l : List α) (e : MazeErr)
    (h : pyChoice r k l = .error e) : e = .indexError := by
  cases l with
  | nil =>
    simp only [pyChoice] at h
    exact (Except.error.inj h).symm
  | cons a t => simp [pyChoice] at h

theorem dfsLoop_no_defect (w h : Nat) (r : RS) :
    ∀ (fuel k : Nat) (grid : Grid) (visited : List (List Bool)) (stack : List Cell),
    dfsLoop w h r fuel grid visited stack k ≠ .error .programDefect := by
  intro fuel
  induction fuel with
  | zero =>
    intro k grid visited stack
    simp [dfsLoop]
  | succ n ih =>
    intro k grid visited stack
    match stack with
    | [] => simp [dfsLoop]
    | (x, y) :: rest =>
      intro hcon
      simp only [dfsLoop] at hcon
      split at hcon
      · exact ih _ _ _ _ hcon
      · split at hcon
        · exact ih _ _ _ _ hcon
        · rename_i hmem
          exact hmem (mem_oppositeKeys _)

theorem primLoop_no_defect (w h : Nat) (r : RS) :
    ∀ (fuel k : Nat) (grid : Grid) (in_maze : List (List Bool)) (frontier : List FrontierE),
    primLoop w h r fuel grid in_maze frontier k ≠ .error .programDefect := by
  intro fuel
  induction fuel with
  | zero =>
    intro k grid in_maze frontier
    simp [primLoop]
  | succ n ih =>
    intro k grid in_maze frontier
    match frontier with
    | [] => simp [primLoop]
    | e :: t =>
      intro hcon
      simp only [primLoop] at hcon
      split at hcon
      · exact ih _ _ _ _ hcon
      · split at hcon
        · exact ih _ _ _ _ hcon
        · rename_i hmem
          exact hmem (mem_oppositeKeys _)

theorem wilsonWalk_error_eq (w h : Nat) (r : RS) :
    ∀ (fuel : Nat) (in_maze : List (List Bool)) (path_order : List Cell)
      (vw : List (Cell × Nat)) (pn : List (Cell × (Cell × Dir))) (cur : Cell) (k : Nat)
      (e : MazeErr),
    wilsonWalk w h r fuel in_maze path_order vw pn cur k = .error e →
    e = .indexError ∨ e = .fuelOut := by
  intro fuel
  induction fuel with
  | zero =>
    intro in_maze path_order vw pn cur k e he
    simp only [wilsonWalk] at he
    exact Or.inr (Except.error.inj he).symm
  | succ n ih =>
    intro in_maze path_order vw pn cur k e he
    simp only [wilsonWalk] at he
    split at he
    · simp at he
    · split at he
      · rename_i e2 heq
        cases Except.error.inj he
        exact Or.inl (pyChoice_error_eq _ _ _ _ heq)
      · split at he
        · exact ih _ _ _ _ _ _ _ he
        · exact ih _ _ _ _ _ _ _ he

theorem wilsonCarve_error_eq :
    ∀ (path_order : List Cell) (grid : Grid) (in_maze : List (List Bool))
      (pn : List (Cell × (Cell × Dir))) (e : MazeErr),
    wilsonCarve grid in_maze path_order pn = .error e → e = .keyError := by
  intro path_order
  induction path_order with
  | nil =>
    intro grid in_maze pn e he
    simp [wilsonCarve] at he
  | cons c0 t ih =>
    intro grid in_maze pn e he
    match t with
    | [] => simp [wilsonCarve] at he
    | c1 :: rest =>
      simp only [wilsonCarve] at he
      split at he
      · exact (Except.error.inj he).symm
      · exact ih _ _ _ _ he

theorem wilsonOuter_no_defect (w h : Nat) (r : RS) :
    ∀ (fuel k : Nat) (grid : Grid) (in_maze : List (List Bool)),
    wilsonOuter w h r fuel grid in_maze k ≠ .error .programDefect := by
  intro fuel
  induction fuel with
  | zero =>
    intro k grid in_maze
    simp [wilsonOuter]
  | succ n ih =>
    intro k grid in_maze
    intro hcon
    simp only [wilsonOuter] at hcon
    split at hcon
    · simp at hcon
    · split at hcon
      · rename_i e2 heq
        cases Except.error.inj hcon
        have := pyChoice_error_eq _ _ _ _ heq
        simp at this
      · split at hcon
        · rename_i e2 heq
          cases Except.error.inj hcon
          rcases wilsonWalk_error_eq w h r _ _ _ _ _ _ _ _ heq with h1 | h1 <;> simp at h1
        · split at hcon
          · rename_i e2 heq
            cases Except.error.inj hcon
            have := wilsonCarve_error_eq _ _ _ _ _ heq
            simp at this
          · exact ih _ _ _ hcon

/-- C8: the `if d not in OPPOSITE: raise RuntimeError` guardrail of the
carving code is unreachable: no input whatsoever (any dimensions, stream and
fuel) makes any of the three generators return the `ProgramDefect` error,
because every carved direction is a `Dir` member enumerated by
`_neighbors` and all four members are keys of `OPPOSITE`. -/
theorem C8_guardrail_unreachable (width height : Int) (r : RS) (fuel : Nat) :
    generate_maze_dfs width height r fuel ≠ .error .programDefect ∧
    generate_maze_prim width height r fuel ≠ .error .programDefect ∧
    generate_maze_wilson width height r fuel ≠ .error .programDefect := by
  unfold generate_maze_dfs generate_maze_prim generate_maze_wilson
  refine ⟨?_, ?_, ?_⟩ <;> split
  · simp
  · exact dfsLoop_no_defect _ _ _ _ _ _ _ _
  · simp
  · exact primLoop_no_defect _ _ _ _ _ _ _ _
  · simp
  · exact wilsonOuter_no_defect _ _ _ _ _ _ _

/-! ## C4: the solvers perform no coordinate validation -/

theorem pyGet_error_eq {α : Type} (l : List α) (i : Int) (e : MazeErr)
    (h : pyGet l i = .error e) : e = .indexError := by
  unfold pyGet at h
  split at h
  · cases h
  · split at h
    · cases h
    · exact (Except.error.inj h).symm

theorem pyGet2_error_eq (g : Grid) (x y : Int) (e : MazeErr)
    (h : pyGet2 g x y = .error e) : e = .indexError := by
  unfold pyGet2 at h
  split at h
  · rename_i e2 heq
    cases Except.error.inj h
    exact pyGet_error_eq _ _ _ heq
  · exact pyGet_error_eq _ _ _ h

theorem relaxDir_error_eq (grid : Grid) (w h : Nat) (x y : Int) (cd : Nat)
    (st : List (ICell × Nat) × List (ICell × Option ICell) × List PQE) (d : Dir)
    (e : MazeErr) (he : relaxDir grid w h x y cd st d = .error e) : e = .indexError := by
  unfold relaxDir at he
  split at he
  · rename_i e2 heq
    cases Except.error.inj he
    exact pyGet2_error_eq _ _ _ _ heq
  · dsimp only at he
    split at he
    · split at he
      · split at he
        · cases he
        · split at he
          · cases he
          · cases he
      · cases he
    · cases he

theorem foldl_relax_error_eq (grid : Grid) (w h : Nat) (x y : Int) (cd : Nat) :
    ∀ (ds : List Dir) (st : List (ICell × Nat) × List (ICell × Option ICell) × List PQE)
      (e : MazeErr),
    List.foldlM (relaxDir grid w h x y cd) st ds = .error e → e = .indexError := by
  intro ds
  induction ds with
  | nil =>
    intro st e hcon
    cases hcon
  | cons d t ih =>
    intro st e hcon
    cases hrd : relaxDir grid w h x y cd st d with
    | error e2 =>
      have h2 : List.foldlM (relaxDir grid w h x y cd) st (d :: t)
          = Except.error e2 := by
        show relaxDir grid w h x y cd st d >>= _ = _
        rw [hrd]
        rfl
      cases Except.error.inj (h2.symm.trans hcon)
      exact relaxDir_error_eq _ _ _ _ _ _ _ _ _ hrd
    | ok st2 =>
      have h2 : List.foldlM (relaxDir grid w h x y cd) st (d :: t)
          = List.foldlM (relaxDir grid w h x y cd) st2 t := by
        show relaxDir grid w h x y cd st d >>= _ = _
        rw [hrd]
        rfl
      exact ih _ _ (h2.symm.trans hcon)

theorem dijkstraLoop_error_eq (grid : Grid) (w h : Nat) (endc : ICell) :
    ∀ (fuel : Nat) (pq : List PQE) (dist : List (ICell × Nat))
      (prev : List (ICell × Option ICell)) (visited : List ICell) (e : MazeErr),
    dijkstraLoop grid w h endc fuel pq dist prev visited = .error e →
    e = .indexError ∨ e = .fuelOut := by
  intro fuel
  induction fuel with
  | zero =>
    intro pq dist prev visited e he
    simp only [dijkstraLoop] at he
    exact Or.inr (Except.error.inj he).symm
  | succ n ih =>
    intro pq dist prev visited e he
    simp only [dijkstraLoop] at he
    split at he
    · cases he
    · split at he
      · cases he
      · split at he
        · exact ih _ _ _ _ _ he
        · split at he
          · rename_i e2 heq
            cases Except.error.inj he
            exact Or.inl (foldl_relax_error_eq _ _ _ _ _ _ _ _ _ heq)
          · exact ih _ _ _ _ _ he

theorem reconstructGet_error_eq (prev : List (ICell × Option ICell)) :
    ∀ (f : Nat) (cur : ICell) (acc : List ICell) (e : MazeErr),
    reconstructGet prev f cur acc = .error e → e = .fuelOut := by
  intro f
  induction f with
  | zero =>
    intro cur acc e he
    exact (Except.error.inj he).symm
  | succ n ih =>
    intro cur acc e he
    simp only [reconstructGet] at he
    split at he
    · cases he
    · cases he
    · exact ih _ _ _ he

theorem dijkstra_solve_error_eq (grid : Grid) (start endc : ICell) (fuel : Nat)
    (e : MazeErr) (he : dijkstra_solve grid start endc fuel = .error e) :
    e = .indexError ∨ e = .fuelOut := by
  unfold dijkstra_solve at he
  split at he
  · rename_i e2 heq
    cases Except.error.inj he
    exact Or.inl (pyGet_error_eq _ _ _ heq)
  · dsimp only at he
    split at he
    · rename_i e2 heq
      cases Except.error.inj he
      exact dijkstraLoop_error_eq _ _ _ _ _ _ _ _ _ _ heq
    · exact Or.inr (reconstructGet_error_eq _ _ _ _ _ he)

theorem solveLoop_error_eq (grid : Grid) (w h : Nat) (endc : ICell) :
    ∀ (fuel : Nat) (pq : List PQE) (dist : List (ICell × Nat))
      (prev : List (ICell × Option ICell)) (e : MazeErr),
    solveLoop grid w h endc fuel pq dist prev = .error e →
    e = .indexError ∨ e = .keyError ∨ e = .fuelOut := by
  intro fuel
  induction fuel with
  | zero =>
    intro pq dist prev e he
    simp only [solveLoop] at he
    exact Or.inr (Or.inr (Except.error.inj he).symm)
  | succ n ih =>
    intro pq dist prev e he
    simp only [solveLoop] at he
    split at he
    · cases he
    · split at he
      · cases he
      · split at he
        · cases Except.error.inj he
          exact Or.inr (Or.inl rfl)
        · split at he
          · exact ih _ _ _ _ he
          · split at he
            · rename_i e2 heq
              cases Except.error.inj he
              exact Or.inl (foldl_relax_error_eq _ _ _ _ _ _ _ _ _ heq)
            · exact ih _ _ _ _ he

theorem reconstructIdx_error_eq (prev : List (ICell × Option ICell)) :
    ∀ (f : Nat) (cur : ICell) (acc : List ICell) (e : MazeErr),
    reconstructIdx prev f cur acc = .error e → e = .keyError ∨ e = .fuelOut := by
  intro f
  induction f with
  | zero =>
    intro cur acc e he
    exact Or.inr (Except.error.inj he).symm
  | succ n ih =>
    intro cur acc e he
    simp only [reconstructIdx] at he
    split at he
    · exact Or.inl (Except.error.inj he).symm
    · cases he
    · exact ih _ _ _ he

theorem solve_maze_dijkstra_error_eq (grid : Grid) (start endc : ICell) (fuel : Nat)
    (e : MazeErr) (he : solve_maze_dijkstra grid start endc fuel = .error e) :
    e = .indexError ∨ e = .keyError ∨ e = .fuelOut := by
  unfold solve_maze_dijkstra at he
  split at he
  · rename_i e2 heq
    cases Except.error.inj he
    exact Or.inl (pyGet_error_eq _ _ _ heq)
  · dsimp only at he
    split at he
    · rename_i e2 heq
      cases Except.error.inj he
      exact solveLoop_error_eq _ _ _ _ _ _ _ _ _ heq
    · split at he
      · cases he
      · split at he
        · rename_i e2 heq
          cases Except.error.inj he
          exact Or.inr (reconstructIdx_error_eq _ _ _ _ _ heq)
        · cases he

/-- C4 counterexample: the solvers validate nothing.  On the 1x1 all-walls
grid with the out-of-bounds start `(2,0)`, both solvers run the ordinary
algorithm until the grid read `grid[0][2]` raises `IndexError` — not
`InvalidCoordinate` — and with an out-of-bounds end such as `(0,5)` on a
1x2 grid they complete without any error at all. -/
theorem C4_counterexample :
    dijkstra_solve [[0]] (2, 0) (0, 0) 10 = .error .indexError ∧
    MazeErr.indexError ≠ MazeErr.invalidCoordinate ∧
    solve_maze_dijkstra [[0]] (2, 0) (0, 0) 10 = .error .indexError ∧
    dijkstra_solve [[2], [1]] (0, 0) (0, 5) 10 = .ok [(0, 5)] ∧
    solve_maze_dijkstra [[2], [1]] (0, 0) (0, 5) 10 = .ok none :=
  ⟨rfl, by simp, rfl, rfl, rfl⟩

/-- C4 amended: the solvers perform no coordinate validation at all.  No
input ever produces an `InvalidCoordinate` failure; an out-of-bounds start
surfaces as an uncaught `IndexError` from the raw grid access (e.g. start
`(2,0)` on a 1x1 grid), while an out-of-bounds end is searched for normally
and merely ends up unreached (e.g. end `(0,5)`: `dijkstra_solve` returns
`[end]` and `solve_maze_dijkstra` returns the no-path result), and a
negative coordinate silently reads a wrapped-around grid cell under
Python's negative indexing. -/
theorem C4_amended (grid : Grid) (start endc : ICell) (fuel : Nat) :
    dijkstra_solve grid start endc fuel ≠ .error .invalidCoordinate ∧
    solve_maze_dijkstra grid start endc fuel ≠ .error .invalidCoordinate ∧
    dijkstra_solve [[0]] (2, 0) (0, 0) 10 = .error .indexError ∧
    dijkstra_solve [[2], [1]] (0, 0) (0, 5) 10 = .ok [(0, 5)] ∧
    dijkstra_solve [[2], [1]] (0, -1) (0, 0) 10 = .ok [(0, 0)] := by
  refine ⟨?_, ?_, rfl, rfl, rfl⟩
  · intro hcon
    rcases dijkstra_solve_error_eq _ _ _ _ _ hcon with h1 | h1 <;> cases h1
  · intro hcon
    rcases solve_maze_dijkstra_error_eq _ _ _ _ _ hcon with h1 | h1 | h1 <;> cases h1

/-- C3 counterexample: on the 1x2 all-walls grid the end `(0,1)` is never
reached, yet `dijkstra_solve` does not return a defined "no path" result:
it returns the malformed single-element list `[(0,1)]`, which does not
begin at the start `(0,0)`.  (The backup `solve_maze_dijkstra` does return
the defined no-path value `None`.) -/
theorem C3_counterexample :
    dijkstra_solve [[0], [0]] (0, 0) (0, 1) 10 = .ok [(0, 1)] ∧
    [((0 : Int), (1 : Int))].head? ≠ some ((0 : Int), (0 : Int)) ∧
    solve_maze_dijkstra [[0], [0]] (0, 0) (0, 1) 10 = .ok none :=
  ⟨rfl, by simp, rfl⟩

theorem Rect_orCell {g : Grid} {w h : Nat} (hg : Rect g w h) (x y b : Nat) :
    Rect (orCell g x y b) w h := by
  unfold orCell setCell
  by_cases hy : y < h
  · exact rect_setRow hg (by rw [List.length_set]; exact (rect_row hg hy).2)
  · have h1 : g.set y ((g.getD y []).set x (getCell g x y ||| b)) = g := by
      apply List.set_eq_of_length_le
      rw [hg.1]
      omega
    rw [h1]
    exact hg

theorem getCell_orCell_self {g : Grid} {w h : Nat} (hg : Rect g w h) {x y : Nat} (b : Nat)
    (hx : x < w) (hy : y < h) : getCell (orCell g x y b) x y = getCell g x y ||| b := by
  obtain ⟨hget, hlen⟩ := rect_row hg hy
  have hylen : y < g.length := by rw [hg.1]; exact hy
  show (((g.set y ((g.getD y []).set x (getCell g x y ||| b))).get? y).getD []).getD x 0 = _
  rw [List.get?_set_eq_of_lt _ hylen]
  show (((g.getD y []).set x (getCell g x y ||| b)).get? x).getD 0 = _
  rw [List.get?_set_eq_of_lt _ (by rw [hlen]; exact hx)]
  rfl

theorem getCell_orCell_ne (g : Grid) (x y x2 y2 b : Nat)
    (hne : (x2, y2) ≠ (x, y)) : getCell (orCell g x2 y2 b) x y = getCell g x y := by
  by_cases hyy : y = y2
  · subst hyy
    have hxx : x ≠ x2 := by
      intro h
      exact hne (by rw [h])
    show (((g.set y ((g.getD y []).set x2 _)).get? y).getD []).getD x 0 = _
    by_cases hylen : y < g.length
    · rw [List.get?_set_eq_of_lt _ hylen]
      show (((g.getD y []).set x2 _).get? x).getD 0 = _
      rw [List.get?_set_ne _ _ (fun h => hxx h.symm)]
      rfl
    · have h1 : (g.set y ((g.getD y []).set x2 (getCell g x2 y ||| b))) = g := by
        apply List.set_eq_of_length_le
        omega
      rw [h1]
      rfl
  · show (((g.set y2 ((g.getD y2 []).set x2 _)).get? y).getD []).getD x 0 = _
    rw [List.get?_set_ne _ _ (fun h => hyy h.symm)]
    rfl

theorem getCell_oob {g : Grid} {w h : Nat} (hg : Rect g w h) {x y : Nat}
    (hxy : ¬ (x < w ∧ y < h)) : getCell g x y = 0 := by
  by_cases hy : y < h
  · obtain ⟨hget, hlen⟩ := rect_row hg hy
    show ((g.get? y).getD []).getD x 0 = 0
    rw [hget]
    show ((g.getD y []).get? x).getD 0 = 0
    rw [List.get?_eq_none.2 (by omega)]
    rfl
  · show ((g.get? y).getD []).getD x 0 = 0
    rw [List.get?_eq_none.2 (by rw [hg.1]; omega)]
    rfl

theorem getCell_replicate (w h x y : Nat) :
    getCell (List.replicate h (List.replicate w 0)) x y = 0 := by
  show (((List.replicate h (List.replicate w (0 : Nat))).get? y).getD []).getD x 0 = 0
  rw [List.get?_eq_getElem?, List.getElem?_replicate]
  by_cases hy : y < h
  · rw [if_pos hy]
    show ((List.replicate w (0 : Nat)).get? x).getD 0 = 0
    rw [List.get?_eq_getElem?, List.getElem?_replicate]
    by_cases hx : x < w
    · rw [if_pos hx]
      rfl
    · rw [if_neg hx]
      rfl
  · rw [if_neg hy]
    rfl

theorem bitSet_inBounds {g : Grid} {w h : Nat} (hg : Rect g w h) {c : Cell} {d : Dir}
    (hb : bitSet g c d) : inBounds w h c := by
  by_contra hcon
  apply hb
  rw [getCell_oob hg (by unfold inBounds at hcon; omega)]
  simp

theorem bitSet_orCell_self {g : Grid} {w h : Nat} (hg : Rect g w h) {c : Cell}
    (hc : inBounds w h c) (e d : Dir) :
    bitSet (orCell g c.1 c.2 (dirInt e)) c d ↔ (bitSet g c d ∨ d = e) := by
  unfold bitSet
  rw [getCell_orCell_self hg _ hc.1 hc.2]
  exact or_flag_test _ _ _

theorem bitSet_orCell_ne {g : Grid} {c c2 : Cell} (hne : c2 ≠ c) (b : Nat) (d : Dir) :
    bitSet (orCell g c.1 c.2 b) c2 d ↔ bitSet g c2 d := by
  unfold bitSet
  rw [getCell_orCell_ne g c2.1 c2.2 c.1 c.2 b (by
    intro hcon
    rw [Prod.mk.injEq] at hcon
    exact hne (Prod.ext hcon.1.symm hcon.2.symm))]

theorem dirNext_inBounds {w h : Nat} {c c2 : Cell} {d : Dir} (hc : inBounds w h c)
    (hd : dirNext w h c d = some c2) : inBounds w h c2 := by
  obtain ⟨hx, hy⟩ := hc
  cases d <;> simp only [dirNext] at hd <;> split at hd <;> rename_i hcond <;>
    cases hd <;> exact ⟨by omega, by omega⟩

theorem dirNext_symm {w h : Nat} {c c2 : Cell} {d : Dir} (hc : inBounds w h c)
    (hd : dirNext w h c d = some c2) : dirNext w h c2 (OPPOSITE d) = some c := by
  obtain ⟨hx, hy⟩ := hc
  cases d <;> simp only [dirNext] at hd <;> split at hd <;> rename_i hcond <;> cases hd
  · show (if c.2 - 1 + 1 < h then some (c.1, c.2 - 1 + 1) else none) = some c
    have he : c.2 - 1 + 1 = c.2 := by omega
    rw [he, if_pos hy]
  · show (if 0 < c.2 + 1 then some (c.1, c.2 + 1 - 1) else none) = some c
    have he : c.2 + 1 - 1 = c.2 := by omega
    rw [he, if_pos (by omega)]
  · show (if c.1 - 1 + 1 < w then some (c.1 - 1 + 1, c.2) else none) = some c
    have he : c.1 - 1 + 1 = c.1 := by omega
    rw [he, if_pos hx]
  · show (if 0 < c.1 + 1 then some (c.1 + 1 - 1, c.2) else none) = some c
    have he : c.1 + 1 - 1 = c.1 := by omega
    rw [he, if_pos (by omega)]

theorem dirNext_ne {w h : Nat} {c c2 : Cell} {d : Dir}
    (hd : dirNext w h c d = some c2) : c2 ≠ c := by
  cases d <;> simp only [dirNext] at hd <;> split at hd <;> rename_i hcond <;> cases hd <;>
    intro hcon <;> rw [Prod.mk.injEq] at hcon <;> omega

theorem dirNext_inj_dir {w h : Nat} {c c2 : Cell} {d d2 : Dir}
    (hd : dirNext w h c d = some c2) (hd2 : dirNext w h c d2 = some c2) : d = d2 := by
  cases d <;> cases d2 <;> try rfl
  all_goals (
    simp only [dirNext] at hd hd2
    split at hd <;> rename_i hcond
    · cases hd
      split at hd2 <;> rename_i hcond2
      · have hxy := Option.some.inj hd2
        rw [Prod.mk.injEq] at hxy
        omega
      · cases hd2
    · cases hd)

theorem getD_mem {α : Type} (l : List α) (i : Nat) (a : α) (ha : a ∈ l) : l.getD i a ∈ l := by
  show (l.get? i).getD a ∈ l
  cases hi : l.get? i with
  | none => exact ha
  | some b => exact List.get?_mem hi

theorem mem_neighborsFn {w h x y nx ny : Nat} {d : Dir} :
    (nx, ny, d) ∈ neighborsFn x y w h ↔ dirNext w h (x, y) d = some (nx, ny) := by
  cases d <;> simp [neighborsFn, dirNext] <;> omega

theorem mem_neighborsFn_t {w h x y : Nat} {t : Nat × Nat × Dir}
    (ht : t ∈ neighborsFn x y w h) : dirNext w h (x, y) t.2.2 = some (t.1, t.2.1) :=
  mem_neighborsFn.1 (by
    have : t = (t.1, t.2.1, t.2.2) := rfl
    rw [this] at ht
    exact ht)

/-! ## Grown-tree lemmas -/

theorem IsGrown.nodupV {V : List Cell} {E : List (Cell × Cell)} (hg : IsGrown V E) :
    V.Nodup := by
  induction hg with
  | root c => exact List.nodup_singleton c
  | step c p hg hp hc ih => exact List.nodup_cons.2 ⟨hc, ih⟩

theorem IsGrown.ne_nil {V : List Cell} {E : List (Cell × Cell)} (hg : IsGrown V E) :
    V ≠ [] := by
  cases hg <;> simp

theorem IsGrown.length_eq {V : List Cell} {E : List (Cell × Cell)} (hg : IsGrown V E) :
    V.length = E.length + 1 := by
  induction hg with
  | root c => rfl
  | step c p hg hp hc ih => simp [ih]

theorem IsGrown.edge_mem {V : List Cell} {E : List (Cell × Cell)} (hg : IsGrown V E) :
    ∀ e ∈ E, e.1 ∈ V ∧ e.2 ∈ V := by
  induction hg with
  | root c => simp
  | step c p hg hp hc ih =>
    intro e he
    rcases List.mem_cons.1 he with rfl | he2
    · exact ⟨List.mem_cons_self .., List.mem_cons_of_mem _ hp⟩
    · exact ⟨List.mem_cons_of_mem _ (ih e he2).1, List.mem_cons_of_mem _ (ih e he2).2⟩

theorem ReachPairs_mono {E E2 : List (Cell × Cell)} (hsub : ∀ e ∈ E, e ∈ E2) {a b : Cell}
    (hr : ReachPairs E a b) : ReachPairs E2 a b := by
  refine Relation.ReflTransGen.mono ?_ hr
  intro u v huv
  rcases huv with h1 | h1
  · exact Or.inl (hsub _ h1)
  · exact Or.inr (hsub _ h1)

theorem IsGrown.connected {V : List Cell} {E : List (Cell × Cell)} (hg : IsGrown V E) :
    ∀ a ∈ V, ∀ b ∈ V, ReachPairs E a b := by
  induction hg with
  | root c =>
    intro a ha b hb
    rw [List.mem_singleton.1 ha, List.mem_singleton.1 hb]
    exact Relation.ReflTransGen.refl
  | step c p hg hp hc ih =>
    rename_i V0 E0
    intro a ha b hb
    have hsub : ∀ e ∈ E0, e ∈ (c, p) :: E0 := fun e he => List.mem_cons_of_mem _ he
    rcases List.mem_cons.1 ha with rfl | ha2
    · rcases List.mem_cons.1 hb with rfl | hb2
      · exact Relation.ReflTransGen.refl
      · exact Relation.ReflTransGen.head (Or.inl (List.mem_cons_self ..))
          (ReachPairs_mono hsub (ih p hp b hb2))
    · rcases List.mem_cons.1 hb with rfl | hb2
      · exact Relation.ReflTransGen.tail (ReachPairs_mono hsub (ih a ha2 p hp))
          (Or.inr (List.mem_cons_self ..))
      · exact ReachPairs_mono hsub (ih a ha2 b hb2)

theorem IsGrown.sym2_nodup {V : List Cell} {E : List (Cell × Cell)} (hg : IsGrown V E) :
    (E.map Sym2.mk).Nodup := by
  induction hg with
  | root c => exact List.nodup_nil
  | step c p hg hp hc ih =>
    refine List.nodup_cons.2 ⟨?_, ih⟩
    intro hmem
    rcases List.mem_map.1 hmem with ⟨e, he, heq⟩
    rcases Sym2.eq_iff.1 heq with ⟨h1, h2⟩ | ⟨h1, h2⟩
    · exact hc (h1 ▸ (hg.edge_mem e he).1)
    · exact hc (h2 ▸ (hg.edge_mem e he).2)

theorem closed_all {w h : Nat} {V : List Cell} {v0 : Cell}
    (hcl : ∀ c ∈ V, ∀ t ∈ neighborsFn c.1 c.2 w h, (t.1, t.2.1) ∈ V)
    (hv0 : v0 ∈ V) (hv0b : inBounds w h v0) :
    ∀ c, inBounds w h c → c ∈ V := by
  suffices H : ∀ n c, inBounds w h c →
      (c.1 - v0.1) + (v0.1 - c.1) + ((c.2 - v0.2) + (v0.2 - c.2)) = n → c ∈ V by
    intro c hc
    exact H _ c hc rfl
  intro n
  induction n using Nat.strong_induction_on with
  | _ n ih =>
    intro c hc hdist
    rcases Nat.lt_trichotomy c.1 v0.1 with hx | hx | hx
    · have hc2 : inBounds w h (c.1 + 1, c.2) := ⟨by have := hv0b.1; omega, hc.2⟩
      have hmem : (c.1 + 1, c.2) ∈ V := ih _ (by omega) _ hc2 rfl
      have hstep : dirNext w h (c.1 + 1, c.2) Dir.W = some (c.1, c.2) := by
        simp [dirNext]
      exact hcl _ hmem (c.1, c.2, Dir.W) (mem_neighborsFn.2 hstep)
    · rcases Nat.lt_trichotomy c.2 v0.2 with hy | hy | hy
      · have hc2 : inBounds w h (c.1, c.2 + 1) := ⟨hc.1, by have := hv0b.2; omega⟩
        have hmem : (c.1, c.2 + 1) ∈ V := ih _ (by omega) _ hc2 rfl
        have hstep : dirNext w h (c.1, c.2 + 1) Dir.N = some (c.1, c.2) := by
          simp [dirNext]
        exact hcl _ hmem (c.1, c.2, Dir.N) (mem_neighborsFn.2 hstep)
      · have : c = v0 := Prod.ext hx hy
        rw [this]
        exact hv0
      · have hc2 : inBounds w h (c.1, c.2 - 1) := ⟨hc.1, by have := hc.2; omega⟩
        have hmem : (c.1, c.2 - 1) ∈ V := ih _ (by omega) _ hc2 rfl
        have he2 : c.2 - 1 + 1 = c.2 := by omega
        have hstep : dirNext w h (c.1, c.2 - 1) Dir.S = some (c.1, c.2) := by
          simp only [dirNext]
          rw [he2, if_pos hc.2]
        exact hcl _ hmem (c.1, c.2, Dir.S) (mem_neighborsFn.2 hstep)
    · have hc2 : inBounds w h (c.1 - 1, c.2) := ⟨by have := hc.1; omega, hc.2⟩
      have hmem : (c.1 - 1, c.2) ∈ V := ih _ (by omega) _ hc2 rfl
      have he2 : c.1 - 1 + 1 = c.1 := by omega
      have hstep : dirNext w h (c.1 - 1, c.2) Dir.E = some (c.1, c.2) := by
        simp only [dirNext]
        rw [he2, if_pos hc.1]
      exact hcl _ hmem (c.1, c.2, Dir.E) (mem_neighborsFn.2 hstep)

/-! ## Edge counting via `to_edges` -/

theorem pyLt_asymm {a b : Int × Int} (h1 : pyLt a b) (h2 : pyLt b a) : False := by
  unfold pyLt at h1 h2
  omega

theorem pyLt_total {a b : Int × Int} (hne : a ≠ b) : pyLt a b ∨ pyLt b a := by
  unfold pyLt
  by_cases h1 : a.1 = b.1
  · by_cases h2 : a.2 = b.2
    · exact absurd (Prod.ext h1 h2) hne
    · omega
  · omega

theorem iCell_inj : Function.Injective iCell := by
  intro a b hab
  unfold iCell at hab
  rw [Prod.mk.injEq] at hab
  exact Prod.ext (by exact_mod_cast hab.1) (by exact_mod_cast hab.2)

theorem dirNext_int_of {w h : Nat} {c c2 : Cell} {d : Dir}
    (hd : dirNext w h c d = some c2) (hc : inBounds w h c) :
    (0 : Int) ≤ (c.1 : Int) + DX d ∧ (c.1 : Int) + DX d < (w : Int) ∧
      (0 : Int) ≤ (c.2 : Int) + DY d ∧ (c.2 : Int) + DY d < (h : Int) ∧
      iCell c2 = ((c.1 : Int) + DX d, (c.2 : Int) + DY d) := by
  obtain ⟨hx, hy⟩ := hc
  cases d <;> simp only [dirNext] at hd <;> split at hd <;> rename_i hcond <;> cases hd <;>
    simp [DX, DY, iCell] <;> omega

theorem dirNext_int_to {w h : Nat} {c : Cell} {d : Dir}
    (hcond : (0 : Int) ≤ (c.1 : Int) + DX d ∧ (c.1 : Int) + DX d < (w : Int) ∧
      (0 : Int) ≤ (c.2 : Int) + DY d ∧ (c.2 : Int) + DY d < (h : Int)) :
    ∃ c2, dirNext w h c d = some c2 := by
  cases d <;> simp only [DX, DY] at hcond <;> simp only [dirNext] <;>
    rw [if_pos (by omega)] <;> exact ⟨_, rfl⟩

theorem rect_head {g : Grid} {w h : Nat} (hg : Rect g w h) (hh : 0 < h) :
    (g.headD []).length = w := by
  have h0 : 0 < g.length := by rw [hg.1]; exact hh
  cases g with
  | nil => simp at h0
  | cons r t => exact hg.2 r (List.mem_cons_self ..)

theorem mem_to_edges {g : Grid} {w h : Nat} (hg : Rect g w h) (hh : 0 < h)
    {e : (Int × Int) × (Int × Int)} :
    e ∈ to_edges g ↔ ∃ (c c2 : Cell) (d : Dir), inBounds w h c ∧ bitSet g c d ∧
      dirNext w h c d = some c2 ∧ pyLt (iCell c) (iCell c2) ∧ e = (iCell c, iCell c2) := by
  unfold to_edges
  rw [rect_head hg hh, hg.1]
  simp only [List.mem_flatMap, List.mem_filterMap, List.mem_range]
  constructor
  · rintro ⟨y, hy, x, hx, d, hd, hsome⟩
    split at hsome
    · rename_i hbit
      split at hsome
      · rename_i hconds
        cases Option.some.inj hsome
        obtain ⟨h1, h2, h3, h4, h5⟩ := hconds
        obtain ⟨c2, hc2⟩ := dirNext_int_to (c := (x, y)) (d := d) ⟨h1, h2, h3, h4⟩
        obtain ⟨_, _, _, _, hicell⟩ := dirNext_int_of hc2 ⟨hx, hy⟩
        refine ⟨(x, y), c2, d, ⟨hx, hy⟩, hbit, hc2, ?_, ?_⟩
        · rw [hicell]
          unfold pyLt iCell
          rcases h5 with h5 | h5
          · exact Or.inl h5
          · exact Or.inr ⟨h5.1, h5.2⟩
        · rw [hicell]
          rfl
      · cases hsome
    · cases hsome
  · rintro ⟨c, c2, d, hcb, hbit, hstep, hlt, rfl⟩
    obtain ⟨h1, h2, h3, h4, hicell⟩ := dirNext_int_of hstep hcb
    refine ⟨c.2, hcb.2, c.1, hcb.1, d, ?_, ?_⟩
    · cases d <;> simp
    · unfold bitSet at hbit
      rw [if_pos hbit]
      rw [if_pos ?_]
      · rw [hicell]
        rfl
      · refine ⟨h1, h2, h3, h4, ?_⟩
        rw [hicell] at hlt
        unfold pyLt iCell at hlt
        simp only at hlt
        rcases hlt with h5 | h5
        · exact Or.inl h5
        · exact Or.inr ⟨h5.1, h5.2⟩

theorem to_edges_nodup {g : Grid} : (to_edges g).Nodup := by
  unfold to_edges
  rw [List.nodup_flatMap]
  constructor
  · intro y hy
    rw [List.nodup_flatMap]
    constructor
    · intro x hx
      refine List.Nodup.filterMap ?_ (by decide)
      intro d d2 e he1 he2
      rw [Option.mem_def] at he1 he2
      split at he1
      · try dsimp only at he1
        split at he1
        · cases Option.some.inj he1
          split at he2
          · try dsimp only at he2
            split at he2
            · have hee := Option.some.inj he2
              rw [Prod.mk.injEq] at hee
              have h2 := hee.2
              rw [Prod.mk.injEq] at h2
              cases d <;> cases d2 <;>
                first
                  | rfl
                  | (exfalso; simp [DX, DY] at h2 <;> omega)
            · cases he2
          · cases he2
        · cases he1
      · cases he1
    · refine (List.pairwise_lt_range _).imp ?_
      intro x1 x2 hlt
      intro e he1 he2
      try dsimp only at he1 he2
      rcases List.mem_filterMap.1 he1 with ⟨d1, _, hs1⟩
      rcases List.mem_filterMap.1 he2 with ⟨d2, _, hs2⟩
      have hfst1 : e.1.1 = (x1 : Int) := by
        split at hs1
        · try dsimp only at hs1
          split at hs1
          · cases Option.some.inj hs1
            rfl
          · cases hs1
        · cases hs1
      have hfst2 : e.1.1 = (x2 : Int) := by
        split at hs2
        · try dsimp only at hs2
          split at hs2
          · cases Option.some.inj hs2
            rfl
          · cases hs2
        · cases hs2
      rw [hfst1] at hfst2
      have : x1 = x2 := by exact_mod_cast hfst2
      omega
  · refine (List.pairwise_lt_range _).imp ?_
    intro y1 y2 hlt
    intro e he1 he2
    try dsimp only at he1 he2
    rcases List.mem_flatMap.1 he1 with ⟨x1, _, hin1⟩
    rcases List.mem_flatMap.1 he2 with ⟨x2, _, hin2⟩
    rcases List.mem_filterMap.1 hin1 with ⟨d1, _, hs1⟩
    rcases List.mem_filterMap.1 hin2 with ⟨d2, _, hs2⟩
    have hsnd1 : e.1.2 = (y1 : Int) := by
      split at hs1
      · split at hs1
        · cases Option.some.inj hs1
          rfl
        · cases hs1
      · cases hs1
    have hsnd2 : e.1.2 = (y2 : Int) := by
      split at hs2
      · split at hs2
        · cases Option.some.inj hs2
          rfl
        · cases hs2
      · cases hs2
    rw [hsnd1] at hsnd2
    have : y1 = y2 := by exact_mod_cast hsnd2
    omega

theorem mem_allCells {w h : Nat} {c : Cell} : c ∈ allCells w h ↔ inBounds w h c := by
  unfold allCells inBounds
  simp only [List.mem_flatMap, List.mem_map, List.mem_range]
  constructor
  · rintro ⟨y, hy, x, hx, rfl⟩
    exact ⟨hx, hy⟩
  · rintro ⟨hx, hy⟩
    exact ⟨c.2, hy, c.1, hx, rfl⟩

theorem allCells_nodup (w h : Nat) : (allCells w h).Nodup := by
  unfold allCells
  rw [List.nodup_flatMap]
  constructor
  · intro y hy
    refine List.Nodup.map ?_ (List.nodup_range ..)
    intro a b hab
    rw [Prod.mk.injEq] at hab
    exact hab.1
  · refine (List.pairwise_lt_range _).imp ?_
    intro y1 y2 hlt
    intro c hc1 hc2
    rcases List.mem_map.1 hc1 with ⟨x1, _, rfl⟩
    rcases List.mem_map.1 hc2 with ⟨x2, _, heq⟩
    rw [Prod.mk.injEq] at heq
    omega

theorem allCells_length (w h : Nat) : (allCells w h).length = w * h := by
  unfold allCells
  rw [List.length_flatMap]
  rw [show (List.length ∘ fun y => (List.range w).map fun x => (x, y))
      = fun _ : Nat => w from funext fun y => by simp]
  rw [List.map_const', List.sum_replicate, List.length_range, smul_eq_mul, Nat.mul_comm]

theorem grown_count {w h : Nat} {g : Grid} {flags : List (List Bool)} {V : List Cell}
    {E : List (Cell × Cell)} (inv : GInv w h g flags V E)
    (hall : ∀ c, inBounds w h c → c ∈ V) (hh : 0 < h) :
    (to_edges g).length + 1 = w * h := by
  have hL1 : ((to_edges g).map Sym2.mk).Nodup := by
    refine (List.nodup_map_iff_inj_on to_edges_nodup).2 ?_
    intro e1 h1 e2 h2 heq
    obtain ⟨c, c2, d, _, _, _, hlt1, rfl⟩ := (mem_to_edges inv.rectG hh).1 h1
    obtain ⟨c3, c4, d2, _, _, _, hlt2, rfl⟩ := (mem_to_edges inv.rectG hh).1 h2
    rcases Sym2.eq_iff.1 heq with ⟨ha, hb⟩ | ⟨ha, hb⟩
    · rw [ha, hb]
    · exact absurd hlt1 (fun hc => pyLt_asymm hc (ha ▸ hb ▸ hlt2))
  have hL2 : (E.map fun e => Sym2.mk (iCell e.1, iCell e.2)).Nodup := by
    have h0 := inv.grown.sym2_nodup
    have heq : (E.map fun e => Sym2.mk (iCell e.1, iCell e.2))
        = (E.map Sym2.mk).map (Sym2.map iCell) := by
      rw [List.map_map]
      rfl
    rw [heq]
    exact h0.map (Sym2.map.injective iCell_inj)
  have hmem : ∀ z, z ∈ (to_edges g).map Sym2.mk ↔
      z ∈ E.map fun e => Sym2.mk (iCell e.1, iCell e.2) := by
    intro z
    constructor
    · intro hz
      rcases List.mem_map.1 hz with ⟨e, he, rfl⟩
      obtain ⟨c, c2, d, hcb, hbit, hstep, hlt, rfl⟩ := (mem_to_edges inv.rectG hh).1 he
      obtain ⟨c5, hstep2, hedge⟩ := (inv.erep c d).1 hbit
      rw [hstep2] at hstep
      cases Option.some.inj hstep
      rcases hedge with hedge | hedge
      · exact List.mem_map.2 ⟨(c, c2), hedge, rfl⟩
      · refine List.mem_map.2 ⟨(c2, c), hedge, ?_⟩
        exact Sym2.eq_swap
    · intro hz
      rcases List.mem_map.1 hz with ⟨e, he, rfl⟩
      have hends := inv.grown.edge_mem e he
      have hb1 : inBounds w h e.1 := inv.vbound _ hends.1
      have hb2 : inBounds w h e.2 := inv.vbound _ hends.2
      obtain ⟨d, hd⟩ := inv.eok e he
      have hne : e.2 ≠ e.1 := dirNext_ne hd
      have hine : iCell e.1 ≠ iCell e.2 := fun hcon => hne (iCell_inj hcon).symm
      rcases pyLt_total hine with hlt | hlt
      · refine List.mem_map.2 ⟨(iCell e.1, iCell e.2), ?_, rfl⟩
        refine (mem_to_edges inv.rectG hh).2 ⟨e.1, e.2, d, hb1, ?_, hd, hlt, rfl⟩
        rw [inv.erep]
        exact ⟨e.2, hd, Or.inl (by
          have : (e.1, e.2) = e := rfl
          rw [this]
          exact he)⟩
      · refine List.mem_map.2 ⟨(iCell e.2, iCell e.1), ?_, Sym2.eq_swap⟩
        refine (mem_to_edges inv.rectG hh).2
          ⟨e.2, e.1, OPPOSITE d, hb2, ?_, dirNext_symm hb1 hd, hlt, rfl⟩
        rw [inv.erep]
        exact ⟨e.1, dirNext_symm hb1 hd, Or.inr (by
          have : (e.1, e.2) = e := rfl
          rw [this]
          exact he)⟩
  have hlen : (to_edges g).length = E.length := by
    have h1 := (List.subperm_of_subset hL1 (fun z hz => (hmem z).1 hz)).length_le
    have h2 := (List.subperm_of_subset hL2 (fun z hz => (hmem z).2 hz)).length_le
    rw [List.length_map] at h1 h2
    rw [List.length_map] at h1 h2
    omega
  have hVlen : V.length = w * h := by
    have h1 := (List.subperm_of_subset inv.grown.nodupV
      (fun c hc => mem_allCells.2 (inv.vbound c hc))).length_le
    have h2 := (List.subperm_of_subset (allCells_nodup w h)
      (fun c hc => hall c (mem_allCells.1 hc))).length_le
    rw [allCells_length] at h1 h2
    omega
  have := inv.grown.length_eq
  omega

theorem GInv.sym {w h : Nat} {g : Grid} {flags : List (List Bool)} {V : List Cell}
    {E : List (Cell × Cell)} (inv : GInv w h g flags V E) :
    ∀ c d, bitSet g c d →
      ∃ c2, dirNext w h c d = some c2 ∧ inBounds w h c2 ∧ bitSet g c2 (OPPOSITE d) := by
  intro c d hb
  obtain ⟨c2, hstep, hedge⟩ := (inv.erep c d).1 hb
  have hc : inBounds w h c := bitSet_inBounds inv.rectG hb
  have hc2 : inBounds w h c2 := dirNext_inBounds hc hstep
  refine ⟨c2, hstep, hc2, ?_⟩
  rw [inv.erep]
  refine ⟨c, dirNext_symm hc hstep, ?_⟩
  tauto

theorem GInv.adj_of_edge {w h : Nat} {g : Grid} {flags : List (List Bool)} {V : List Cell}
    {E : List (Cell × Cell)} (inv : GInv w h g flags V E) {u v : Cell}
    (he : (u, v) ∈ E ∨ (v, u) ∈ E) : passAdj g w h u v := by
  rcases he with he | he
  · obtain ⟨d, hd⟩ := inv.eok (u, v) he
    refine ⟨d, hd, ?_⟩
    rw [inv.erep]
    exact ⟨v, hd, Or.inl he⟩
  · obtain ⟨d, hd⟩ := inv.eok (v, u) he
    have hvb : inBounds w h v := inv.vbound _ (inv.grown.edge_mem _ he).1
    refine ⟨OPPOSITE d, dirNext_symm hvb hd, ?_⟩
    rw [inv.erep]
    exact ⟨v, dirNext_symm hvb hd, Or.inr he⟩

theorem GInv.reach {w h : Nat} {g : Grid} {flags : List (List Bool)} {V : List Cell}
    {E : List (Cell × Cell)} (inv : GInv w h g flags V E) {a b : Cell}
    (ha : a ∈ V) (hb : b ∈ V) : passReach g w h a b := by
  refine Relation.ReflTransGen.mono ?_ (inv.grown.connected a ha b hb)
  intro u v huv
  exact inv.adj_of_edge huv

/-- Closing lemma: a full generator invariant whose vertex set covers the
grid is a perfect maze. -/
theorem GInv.perfect {w h : Nat} {g : Grid} {flags : List (List Bool)} {V : List Cell}
    {E : List (Cell × Cell)} (inv : GInv w h g flags V E)
    (hall : ∀ c, inBounds w h c → c ∈ V) (hh : 0 < h) : PerfectOut w h g :=
  ⟨inv.rectG, inv.sym, fun a b ha hb => inv.reach (hall a ha) (hall b hb),
    grown_count inv hall hh⟩

/-- The carve step shared by the generators: `grid[y][x] |= d;`
`grid[ny][nx] |= OPPOSITE[d]` together with marking the fresh cell
preserves the invariant. -/
theorem GInv.carve {w h : Nat} {g : Grid} {flags : List (List Bool)} {V : List Cell}
    {E : List (Cell × Cell)} (inv : GInv w h g flags V E) {c cn : Cell} {d : Dir}
    (hc : c ∈ V) (hn : cn ∉ V) (hd : dirNext w h c d = some cn) :
    GInv w h (orCell (orCell g c.1 c.2 (dirInt d)) cn.1 cn.2 (dirInt (OPPOSITE d)))
      (setB flags cn.1 cn.2) (cn :: V) ((cn, c) :: E) := by
  have hcb : inBounds w h c := inv.vbound _ hc
  have hnb : inBounds w h cn := dirNext_inBounds hcb hd
  have hne : cn ≠ c := dirNext_ne hd
  have hg1 : Rect (orCell g c.1 c.2 (dirInt d)) w h := Rect_orCell inv.rectG ..
  have hg2 : Rect (orCell (orCell g c.1 c.2 (dirInt d)) cn.1 cn.2 (dirInt (OPPOSITE d))) w h :=
    Rect_orCell hg1 ..
  refine ⟨hg2, Rect_setB inv.rectF .., IsGrown.step cn c inv.grown hc hn, ?_, ?_, ?_, ?_⟩
  · intro a ha
    rcases List.mem_cons.1 ha with rfl | ha2
    · exact hnb
    · exact inv.vbound _ ha2
  · intro a
    by_cases hacn : a = cn
    · subst hacn
      rw [getB_setB_self inv.rectF hnb.1 hnb.2]
      simp
    · have hnea : (cn.1, cn.2) ≠ (a.1, a.2) := by
        intro hcon
        rw [Prod.mk.injEq] at hcon
        exact hacn (Prod.ext hcon.1.symm hcon.2.symm)
      rw [getB_setB_ne _ _ _ _ _ hnea, inv.brep]
      constructor
      · intro ha
        exact List.mem_cons_of_mem _ ha
      · intro ha
        rcases List.mem_cons.1 ha with rfl | ha2
        · exact absurd rfl hacn
        · exact ha2
  · intro a e
    by_cases hac : a = c
    · subst hac
      have h1 : bitSet (orCell (orCell g a.1 a.2 (dirInt d)) cn.1 cn.2 (dirInt (OPPOSITE d))) a e
          ↔ bitSet (orCell g a.1 a.2 (dirInt d)) a e :=
        bitSet_orCell_ne (fun hcon => hne hcon.symm) _ _
      rw [h1, bitSet_orCell_self inv.rectG hcb, inv.erep]
      constructor
      · rintro (⟨c2, hc2, hedge⟩ | rfl)
        · refine ⟨c2, hc2, ?_⟩
          rcases hedge with hh1 | hh1
          · exact Or.inl (List.mem_cons_of_mem _ hh1)
          · exact Or.inr (List.mem_cons_of_mem _ hh1)
        · exact ⟨cn, hd, Or.inr (List.mem_cons_self ..)⟩
      · rintro ⟨c2, hc2, hedge⟩
        rcases hedge with hh1 | hh1
        · rcases List.mem_cons.1 hh1 with heq | hh2
          · rw [Prod.mk.injEq] at heq
            exact absurd (heq.1 ▸ hc) hn
          · exact Or.inl ⟨c2, hc2, Or.inl hh2⟩
        · rcases List.mem_cons.1 hh1 with heq | hh2
          · rw [Prod.mk.injEq] at heq
            have hc2n : c2 = cn := heq.1
            subst hc2n
            exact Or.inr (dirNext_inj_dir hc2 hd)
          · exact Or.inl ⟨c2, hc2, Or.inr hh2⟩
    · by_cases hacn : a = cn
      · subst hacn
        rw [bitSet_orCell_self hg1 hnb, bitSet_orCell_ne hac, inv.erep]
        constructor
        · rintro (⟨c2, hc2, hedge⟩ | rfl)
          · exfalso
            rcases hedge with hh1 | hh1
            · exact hn (inv.grown.edge_mem _ hh1).1
            · exact hn (inv.grown.edge_mem _ hh1).2
          · exact ⟨c, dirNext_symm hcb hd, Or.inl (List.mem_cons_self ..)⟩
        · rintro ⟨c2, hc2, hedge⟩
          rcases hedge with hh1 | hh1
          · rcases List.mem_cons.1 hh1 with heq | hh2
            · rw [Prod.mk.injEq] at heq
              have hc2c : c2 = c := heq.2
              subst hc2c
              exact Or.inr (dirNext_inj_dir hc2 (dirNext_symm hcb hd))
            · exact absurd (inv.grown.edge_mem _ hh2).1 hn
          · rcases List.mem_cons.1 hh1 with heq | hh2
            · rw [Prod.mk.injEq] at heq
              exact absurd heq.1 (dirNext_ne hc2)
            · exact absurd (inv.grown.edge_mem _ hh2).2 hn
      · rw [bitSet_orCell_ne hacn, bitSet_orCell_ne hac, inv.erep]
        constructor
        · rintro ⟨c2, hc2, hedge⟩
          refine ⟨c2, hc2, ?_⟩
          rcases hedge with hh1 | hh1
          · exact Or.inl (List.mem_cons_of_mem _ hh1)
          · exact Or.inr (List.mem_cons_of_mem _ hh1)
        · rintro ⟨c2, hc2, hedge⟩
          refine ⟨c2, hc2, ?_⟩
          rcases hedge with hh1 | hh1
          · rcases List.mem_cons.1 hh1 with heq | hh2
            · rw [Prod.mk.injEq] at heq
              exact absurd heq.1 hacn
            · exact Or.inl hh2
          · rcases List.mem_cons.1 hh1 with heq | hh2
            · rw [Prod.mk.injEq] at heq
              exact absurd heq.2 hac
            · exact Or.inr hh2
  · intro e he
    rcases List.mem_cons.1 he with rfl | he2
    · exact ⟨OPPOSITE d, dirNext_symm hcb hd⟩
    · exact inv.eok _ he2

/-! ## C1 and C5 for the backtracker -/

theorem dfsLoop_master (w h : Nat) (r : RS) :
    ∀ (fuel k : Nat) (grid : Grid) (visited : List (List Bool)) (stack : List Cell)
      (V : List Cell) (E : List (Cell × Cell)) (g2 : Grid),
    GInv w h grid visited V E →
    (∀ c ∈ stack, c ∈ V) →
    (∀ c ∈ V, c ∉ stack → ∀ t ∈ neighborsFn c.1 c.2 w h, (t.1, t.2.1) ∈ V) →
    0 < h →
    dfsLoop w h r fuel grid visited stack k = .ok g2 →
    PerfectOut w h g2 := by
  intro fuel
  induction fuel with
  | zero =>
    intro k grid visited stack V E g2 _ _ _ _ he
    cases he
  | succ n ih =>
    intro k grid visited stack V E g2 inv hsub hcl hh he
    match stack with
    | [] =>
      simp only [dfsLoop] at he
      cases Except.ok.inj he
      obtain ⟨v0, hv0⟩ := List.exists_mem_of_ne_nil V inv.grown.ne_nil
      have hall := closed_all (fun c hc t ht => hcl c hc (by simp) t ht) hv0 (inv.vbound _ hv0)
      exact inv.perfect hall hh
    | (x, y) :: rest =>
      simp only [dfsLoop] at he
      try dsimp only at he
      split at he
      · rename_i hopts
        refine ih k grid visited rest V E g2 inv (fun c hc => hsub c (List.mem_cons_of_mem _ hc))
          ?_ hh he
        intro c hc hcr t ht
        by_cases hcxy : c = (x, y)
        · subst hcxy
          have hf := List.filter_eq_nil.1 hopts t ht
          simp only [Bool.not_eq_true', Bool.not_eq_false] at hf
          exact (inv.brep (t.1, t.2.1)).1 hf
        · exact hcl c hc (by
            intro hmem
            rcases List.mem_cons.1 hmem with h1 | h1
            · exact hcxy h1
            · exact hcr h1) t ht
      · rename_i o rest2 hopts
        split at he
        · rename_i hmemkeys
          have hom : o ∈ (neighborsFn x y w h).filter fun t => ! getB visited t.1 t.2.1 := by
            rw [hopts]
            exact List.mem_cons_self ..
          set ch := ((neighborsFn x y w h).filter fun t => ! getB visited t.1 t.2.1).getD
            (randrange r k ((neighborsFn x y w h).filter
              fun t => ! getB visited t.1 t.2.1).length) o with hchdef
          have hchosen : ch ∈ (neighborsFn x y w h).filter
              fun t => ! getB visited t.1 t.2.1 := by
            rw [hchdef]
            exact getD_mem _ _ _ hom
          have hchmem := List.mem_filter.1 hchosen
          have hfresh : (ch.1, ch.2.1) ∉ V := by
            rw [← inv.brep]
            simp only [Bool.not_eq_true', Bool.not_eq_false] at hchmem
            intro hcon
            rw [hchmem.2] at hcon
            cases hcon
          have hhead : (x, y) ∈ V := hsub _ (List.mem_cons_self ..)
          have hstep : dirNext w h (x, y) ch.2.2 = some (ch.1, ch.2.1) :=
            mem_neighborsFn_t hchmem.1
          have inv2 := inv.carve hhead hfresh hstep
          refine ih (k + 1) _ _ _ _ _ g2 inv2 ?_ ?_ hh he
          · intro c hc
            rcases List.mem_cons.1 hc with rfl | hc2
            · exact List.mem_cons_self ..
            · exact List.mem_cons_of_mem _ (hsub c hc2)
          · intro c hc hcs t ht
            have hcV : c ∈ V := by
              rcases List.mem_cons.1 hc with rfl | hc2
              · exact absurd (List.mem_cons_self ..) hcs
              · exact hc2
            have hcold : c ∉ (x, y) :: rest := by
              intro hmem
              exact hcs (List.mem_cons_of_mem _ hmem)
            exact List.mem_cons_of_mem _ (hcl c hcV hcold t ht)
        · cases he

/-- C1/C5 workhorse for `generate_maze_dfs`: a successful run yields a
perfect maze. -/
theorem generate_maze_dfs_perfect (width height : Int) (r : RS) (fuel : Nat) (g : Grid)
    (hw : 1 ≤ width) (hh : 1 ≤ height)
    (hres : generate_maze_dfs width height r fuel = .ok g) :
    PerfectOut width.toNat height.toNat g := by
  unfold generate_maze_dfs at hres
  rw [if_neg (by omega)] at hres
  set w := width.toNat with hwdef
  set h := height.toNat with hhdef
  have hw0 : 0 < w := by omega
  have hh0 : 0 < h := by omega
  set x0 := randrange r 0 w with hx0
  set y0 := randrange r 1 h with hy0
  have hx0b : x0 < w := Nat.mod_lt _ hw0
  have hy0b : y0 < h := Nat.mod_lt _ hh0
  have hinv : GInv w h (List.replicate h (List.replicate w 0))
      (setB (List.replicate h (List.replicate w false)) x0 y0) [(x0, y0)] [] := by
    refine ⟨Rect_replicate 0 w h, Rect_setB (Rect_replicate false w h) x0 y0,
      IsGrown.root _, ?_, ?_, ?_, ?_⟩
    · intro c hc
      rw [List.mem_singleton.1 hc]
      exact ⟨hx0b, hy0b⟩
    · intro c
      by_cases hcx : c = (x0, y0)
      · subst hcx
        rw [getB_setB_self (Rect_replicate false w h) hx0b hy0b]
        simp
      · have hnea : ((x0, y0) : Cell).1 ≠ c.1 ∨ ((x0, y0) : Cell).2 ≠ c.2 := by
          by_contra hcon
          push_neg at hcon
          exact hcx (Prod.ext hcon.1.symm hcon.2.symm)
        rw [getB_setB_ne _ c.1 c.2 x0 y0 (by
          intro hcon
          rw [Prod.mk.injEq] at hcon
          rcases hnea with h1 | h1
          · exact h1 hcon.1
          · exact h1 hcon.2)]
        rw [getB_replicate]
        simp only [List.mem_singleton]
        constructor
        · intro hcon
          cases hcon
        · intro hcon
          exact absurd hcon hcx
    · intro c d
      unfold bitSet
      rw [getCell_replicate]
      simp
    · intro e he
      cases he
  exact dfsLoop_master w h r fuel 2 _ _ _ _ _ g hinv
    (fun c hc => hc) (fun c hc hcs => absurd hc hcs) hh0 hres

/-! ## C1 and C5 for randomized Prim -/

theorem getD_eq_get {α : Type} (l : List α) (i : Nat) (a : α) (hi : i < l.length) :
    l.getD i a = l.get ⟨i, hi⟩ := by
  show (l.get? i).getD a = _
  rw [List.get?_eq_get hi]
  rfl

theorem mem_eraseIdx_or {α : Type} :
    ∀ (l : List α) (i : Nat) (hi : i < l.length) (a : α), a ∈ l →
      a ∈ l.eraseIdx i ∨ a = l.get ⟨i, hi⟩ := by
  intro l
  induction l with
  | nil => intro i hi a ha; cases ha
  | cons b t ih =>
    intro i hi a ha
    cases i with
    | zero =>
      rcases List.mem_cons.1 ha with rfl | ha2
      · exact Or.inr rfl
      · exact Or.inl ha2
    | succ j =>
      rcases List.mem_cons.1 ha with rfl | ha2
      · exact Or.inl (List.mem_cons_self ..)
      · rcases ih j (by simp at hi; omega) a ha2 with h1 | h1
        · exact Or.inl (List.mem_cons_of_mem _ h1)
        · exact Or.inr h1

theorem primLoop_master (w h : Nat) (r : RS) :
    ∀ (fuel k : Nat) (grid : Grid) (in_maze : List (List Bool)) (frontier : List FrontierE)
      (V : List Cell) (E : List (Cell × Cell)) (g2 : Grid),
    GInv w h grid in_maze V E →
    (∀ f ∈ frontier, (f.1, f.2.1) ∈ V ∧
      dirNext w h (f.1, f.2.1) f.2.2.2.2 = some (f.2.2.1, f.2.2.2.1)) →
    (∀ c ∈ V, ∀ t ∈ neighborsFn c.1 c.2 w h,
      (t.1, t.2.1) ∈ V ∨ (c.1, c.2, t.1, t.2.1, t.2.2) ∈ frontier) →
    0 < h →
    primLoop w h r fuel grid in_maze frontier k = .ok g2 →
    PerfectOut w h g2 := by
  intro fuel
  induction fuel with
  | zero =>
    intro k grid in_maze frontier V E g2 _ _ _ _ he
    cases he
  | succ n ih =>
    intro k grid in_maze frontier V E g2 inv hwf hcov hh he
    match frontier with
    | [] =>
      simp only [primLoop] at he
      cases Except.ok.inj he
      obtain ⟨v0, hv0⟩ := List.exists_mem_of_ne_nil V inv.grown.ne_nil
      have hcl : ∀ c ∈ V, ∀ t ∈ neighborsFn c.1 c.2 w h, (t.1, t.2.1) ∈ V := by
        intro c hc t ht
        rcases hcov c hc t ht with h1 | h1
        · exact h1
        · cases h1
      exact inv.perfect (closed_all hcl hv0 (inv.vbound _ hv0)) hh
    | e :: t =>
      have hlen : randrange r k (e :: t).length < (e :: t).length :=
        Nat.mod_lt _ (by simp)
      have hfmem : (e :: t).getD (randrange r k (e :: t).length) e ∈ e :: t :=
        getD_mem _ _ _ (List.mem_cons_self ..)
      set f := (e :: t).getD (randrange r k (e :: t).length) e with hfdef
      have hfget : f = (e :: t).get ⟨randrange r k (e :: t).length, hlen⟩ := by
        rw [hfdef]
        exact getD_eq_get _ _ _ hlen
      obtain ⟨hfpar, hfstep⟩ := hwf f hfmem
      simp only [primLoop] at he
      try dsimp only at he
      split at he
      · rename_i hflag
        refine ih (k + 1) grid in_maze _ V E g2 inv ?_ ?_ hh he
        · intro f2 hf2
          exact hwf f2 (List.mem_of_mem_eraseIdx hf2)
        · intro c hc t2 ht2
          rcases hcov c hc t2 ht2 with h1 | h1
          · exact Or.inl h1
          · rcases mem_eraseIdx_or (e :: t) _ hlen _ h1 with h2 | h2
            · exact Or.inr h2
            · rw [← hfget] at h2
              have hnx := congrArg (fun z : FrontierE => z.2.2.1) h2
              have hny := congrArg (fun z : FrontierE => z.2.2.2.1) h2
              simp only at hnx hny
              refine Or.inl ?_
              rw [hnx, hny]
              exact (inv.brep _).1 hflag
      · rename_i hflag
        split at he
        · rename_i hmemkeys
          have hfresh : ((f.2.2.1, f.2.2.2.1) : Cell) ∉ V := by
            intro hcon
            rw [← inv.brep] at hcon
            exact hflag hcon
          have inv2 := inv.carve hfpar hfresh hfstep
          refine ih (k + 1) _ _ _ _ _ g2 inv2 ?_ ?_ hh he
          · intro f2 hf2
            rcases List.mem_append.1 hf2 with h1 | h1
            · obtain ⟨hp, hs⟩ := hwf f2 (List.mem_of_mem_eraseIdx h1)
              exact ⟨List.mem_cons_of_mem _ hp, hs⟩
            · rcases List.mem_map.1 h1 with ⟨t2, ht2, rfl⟩
              have ht2n := List.mem_filter.1 ht2
              refine ⟨List.mem_cons_self .., ?_⟩
              exact mem_neighborsFn_t ht2n.1
          · intro c hc t2 ht2
            rcases List.mem_cons.1 hc with rfl | hcV
            · by_cases hflag2 : getB (setB in_maze f.2.2.1 f.2.2.2.1) t2.1 t2.2.1 = true
              · exact Or.inl ((inv2.brep _).1 hflag2)
              · refine Or.inr (List.mem_append.2 (Or.inr ?_))
                refine List.mem_map.2 ⟨t2, List.mem_filter.2 ⟨ht2, ?_⟩, rfl⟩
                show (! getB (setB in_maze f.2.2.1 f.2.2.2.1) t2.1 t2.2.1) = true
                cases hb : getB (setB in_maze f.2.2.1 f.2.2.2.1) t2.1 t2.2.1
                · rfl
                · exact absurd hb hflag2
            · rcases hcov c hcV t2 ht2 with h1 | h1
              · exact Or.inl (List.mem_cons_of_mem _ h1)
              · rcases mem_eraseIdx_or (e :: t) _ hlen _ h1 with h2 | h2
                · exact Or.inr (List.mem_append.2 (Or.inl h2))
                · rw [← hfget] at h2
                  have hnx := congrArg (fun z : FrontierE => z.2.2.1) h2
                  have hny := congrArg (fun z : FrontierE => z.2.2.2.1) h2
                  simp only at hnx hny
                  refine Or.inl ?_
                  rw [hnx, hny]
                  exact List.mem_cons_self ..
        · cases he

/-- C1/C5 workhorse for `generate_maze_prim`. -/
theorem generate_maze_prim_perfect (width height : Int) (r : RS) (fuel : Nat) (g : Grid)
    (hw : 1 ≤ width) (hh : 1 ≤ height)
    (hres : generate_maze_prim width height r fuel = .ok g) :
    PerfectOut width.toNat height.toNat g := by
  unfold generate_maze_prim at hres
  rw [if_neg (by omega)] at hres
  set w := width.toNat with hwdef
  set h := height.toNat with hhdef
  have hw0 : 0 < w := by omega
  have hh0 : 0 < h := by omega
  set x0 := randrange r 0 w with hx0
  set y0 := randrange r 1 h with hy0
  have hx0b : x0 < w := Nat.mod_lt _ hw0
  have hy0b : y0 < h := Nat.mod_lt _ hh0
  have hinv : GInv w h (List.replicate h (List.replicate w 0))
      (setB (List.replicate h (List.replicate w false)) x0 y0) [(x0, y0)] [] := by
    refine ⟨Rect_replicate 0 w h, Rect_setB (Rect_replicate false w h) x0 y0,
      IsGrown.root _, ?_, ?_, ?_, ?_⟩
    · intro c hc
      rw [List.mem_singleton.1 hc]
      exact ⟨hx0b, hy0b⟩
    · intro c
      by_cases hcx : c = (x0, y0)
      · subst hcx
        rw [getB_setB_self (Rect_replicate false w h) hx0b hy0b]
        simp
      · rw [getB_setB_ne _ c.1 c.2 x0 y0 (by
          intro hcon
          rw [Prod.mk.injEq] at hcon
          exact hcx (Prod.ext hcon.1.symm hcon.2.symm))]
        rw [getB_replicate]
        simp only [List.mem_singleton]
        constructor
        · intro hcon
          cases hcon
        · intro hcon
          exact absurd hcon hcx
    · intro c d
      unfold bitSet
      rw [getCell_replicate]
      simp
    · intro e he
      cases he
  refine primLoop_master w h r fuel 2 _ _ _ _ _ g hinv ?_ ?_ hh0 hres
  · intro f hf
    rcases List.mem_map.1 hf with ⟨t2, ht2, rfl⟩
    exact ⟨List.mem_cons_self .., mem_neighborsFn_t ht2⟩
  · intro c hc t2 ht2
    rw [List.mem_singleton.1 hc]
    rw [List.mem_singleton.1 hc] at ht2
    exact Or.inr (List.mem_map.2 ⟨t2, ht2, rfl⟩)

/-! ## C1 and C5 for Wilson -/

theorem IsGrown.attachPath :
    ∀ (path : List Cell) {V : List Cell} {E : List (Cell × Cell)}, IsGrown V E →
    (∀ last, path.getLast? = some last → last ∈ V) →
    (∀ c ∈ path.dropLast, c ∉ V) → path.Nodup →
    IsGrown (path.dropLast ++ V) (pathEdges path ++ E) := by
  intro path
  induction path with
  | nil =>
    intro V E hg _ _ _
    exact hg
  | cons a t ih =>
    intro V E hg hlast hfresh hnodup
    match t with
    | [] => exact hg
    | b :: t2 =>
      have hgrown2 := ih hg (fun l hl => hlast l (by
          rw [List.getLast?_cons_cons]
          exact hl))
        (fun c hc => hfresh c (by
          rw [List.dropLast_cons₂]
          exact List.mem_cons_of_mem _ hc))
        (List.nodup_cons.1 hnodup).2
      have hb : b ∈ (b :: t2).dropLast ++ V := by
        match t2 with
        | [] =>
          refine List.mem_append.2 (Or.inr (hlast b ?_))
          rfl
        | c2 :: t3 =>
          refine List.mem_append.2 (Or.inl ?_)
          rw [List.dropLast_cons₂]
          exact List.mem_cons_self ..
      have ha : a ∉ (b :: t2).dropLast ++ V := by
        intro hcon
        rcases List.mem_append.1 hcon with h1 | h1
        · exact (List.nodup_cons.1 hnodup).1 (List.mem_of_mem_dropLast h1)
        · refine hfresh a ?_ h1
          rw [List.dropLast_cons₂]
          exact List.mem_cons_self ..
      have hstep := IsGrown.step a b hgrown2 hb ha
      have hdl : (a :: b :: t2).dropLast = a :: (b :: t2).dropLast := List.dropLast_cons₂ ..
      rw [hdl]
      exact hstep

theorem chainBit_iff_pathEdges {w h : Nat} :
    ∀ (path : List Cell) (c : Cell) (d : Dir),
    chainBit w h path c d ↔ ∃ c2, dirNext w h c d = some c2 ∧
      ((c, c2) ∈ pathEdges path ∨ (c2, c) ∈ pathEdges path) := by
  intro path
  induction path with
  | nil =>
    intro c d
    simp [chainBit, pathEdges]
  | cons a t ih =>
    intro c d
    match t with
    | [] => simp [chainBit, pathEdges]
    | b :: t2 =>
      show (c = a ∧ _) ∨ (c = b ∧ _) ∨ chainBit w h (b :: t2) c d ↔ _
      have hpe : pathEdges (a :: b :: t2) = (a, b) :: pathEdges (b :: t2) := rfl
      rw [hpe, ih]
      constructor
      · rintro (⟨rfl, hd⟩ | ⟨rfl, hd⟩ | ⟨c2, hd, hmem⟩)
        · exact ⟨b, hd, Or.inl (List.mem_cons_self ..)⟩
        · exact ⟨a, hd, Or.inr (List.mem_cons_self ..)⟩
        · refine ⟨c2, hd, ?_⟩
          rcases hmem with h1 | h1
          · exact Or.inl (List.mem_cons_of_mem _ h1)
          · exact Or.inr (List.mem_cons_of_mem _ h1)
      · rintro ⟨c2, hd, hmem⟩
        rcases hmem with h1 | h1
        · rcases List.mem_cons.1 h1 with heq | h2
          · rw [Prod.mk.injEq] at heq
            exact Or.inl ⟨heq.1, by rw [← heq.2]; exact hd⟩
          · exact Or.inr (Or.inr ⟨c2, hd, Or.inl h2⟩)
        · rcases List.mem_cons.1 h1 with heq | h2
          · rw [Prod.mk.injEq] at heq
            exact Or.inr (Or.inl ⟨heq.2, by rw [← heq.1]; exact hd⟩)
          · exact Or.inr (Or.inr ⟨c2, hd, Or.inr h2⟩)

theorem pathEdges_ok {w h : Nat} {pn : List (Cell × (Cell × Dir))} :
    ∀ (path : List Cell), ChainNext w h pn path →
    ∀ e ∈ pathEdges path, ∃ d, dirNext w h e.1 d = some e.2 := by
  intro path
  induction path with
  | nil =>
    intro _ e he
    cases he
  | cons a t ih =>
    intro hchain e he
    match t with
    | [] => cases he
    | b :: t2 =>
      obtain ⟨⟨d, hlk, hd⟩, hrest⟩ := hchain
      rcases List.mem_cons.1 he with rfl | h2
      · exact ⟨d, hd⟩
      · exact ih hrest e h2

theorem pathEdges_memV :
    ∀ (path : List Cell), ∀ e ∈ pathEdges path, e.1 ∈ path ∧ e.2 ∈ path := by
  intro path
  induction path with
  | nil =>
    intro e he
    cases he
  | cons a t ih =>
    intro e he
    match t with
    | [] => cases he
    | b :: t2 =>
      rcases List.mem_cons.1 he with rfl | h2
      · exact ⟨List.mem_cons_self .., List.mem_cons_of_mem _ (List.mem_cons_self ..)⟩
      · have := ih e h2
        exact ⟨List.mem_cons_of_mem _ this.1, List.mem_cons_of_mem _ this.2⟩

theorem wilsonCarve_char (w h : Nat) :
    ∀ (path : List Cell) (g : Grid) (flags : List (List Bool))
      (pn : List (Cell × (Cell × Dir))),
    Rect g w h → Rect flags w h →
    ChainNext w h pn path →
    (∀ c ∈ path, inBounds w h c) →
    ∃ g2 flags2, wilsonCarve g flags path pn = .ok (g2, flags2) ∧
      Rect g2 w h ∧ Rect flags2 w h ∧
      (∀ c d, bitSet g2 c d ↔ (bitSet g c d ∨ chainBit w h path c d)) ∧
      (∀ c : Cell, getB flags2 c.1 c.2 = true ↔
        (getB flags c.1 c.2 = true ∨ (2 ≤ path.length ∧ c ∈ path))) := by
  intro path
  induction path with
  | nil =>
    intro g flags pn hg hf _ _
    refine ⟨g, flags, rfl, hg, hf, ?_, ?_⟩
    · intro c d
      simp [chainBit]
    · intro c
      simp
  | cons a t ih =>
    intro g flags pn hg hf hchain hin
    match t with
    | [] =>
      refine ⟨g, flags, rfl, hg, hf, ?_, ?_⟩
      · intro c d
        simp [chainBit]
      · intro c
        simp
    | b :: t2 =>
      obtain ⟨⟨d0, hlk, hd0⟩, hrest⟩ := hchain
      have hain : inBounds w h a := hin a (List.mem_cons_self ..)
      have hbin : inBounds w h b := hin b (List.mem_cons_of_mem _ (List.mem_cons_self ..))
      have hba : b ≠ a := dirNext_ne hd0
      set g1 := orCell (orCell g a.1 a.2 (dirInt d0)) b.1 b.2 (dirInt (OPPOSITE d0)) with hg1def
      set f1 := setB (setB flags a.1 a.2) b.1 b.2 with hf1def
      have hg1r : Rect g1 w h := Rect_orCell (Rect_orCell hg ..) ..
      have hf1r : Rect f1 w h := Rect_setB (Rect_setB hf ..) ..
      obtain ⟨g2, flags2, hcarve, hg2r, hf2r, hbits, hmarks⟩ :=
        ih g1 f1 pn hg1r hf1r hrest (fun c hc => hin c (List.mem_cons_of_mem _ hc))
      refine ⟨g2, flags2, ?_, hg2r, hf2r, ?_, ?_⟩
      · show wilsonCarve g flags (a :: b :: t2) pn = .ok (g2, flags2)
        simp only [wilsonCarve]
        rw [hlk]
        exact hcarve
      · intro c d
        rw [hbits]
        have hbit1 : bitSet g1 c d ↔
            (bitSet g c d ∨ (c = a ∧ d = d0) ∨ (c = b ∧ d = OPPOSITE d0)) := by
          by_cases hca : c = a
          · subst hca
            have h1 : bitSet g1 c d ↔ bitSet (orCell g c.1 c.2 (dirInt d0)) c d := by
              rw [hg1def]
              exact bitSet_orCell_ne (fun hcon => hba hcon.symm) _ _
            rw [h1, bitSet_orCell_self hg hain]
            constructor
            · rintro (hb1 | rfl)
              · exact Or.inl hb1
              · exact Or.inr (Or.inl ⟨rfl, rfl⟩)
            · rintro (hb1 | ⟨_, rfl⟩ | ⟨hcon, _⟩)
              · exact Or.inl hb1
              · exact Or.inr rfl
              · exact absurd hcon.symm hba
          · by_cases hcb : c = b
            · subst hcb
              have h1 : bitSet g1 c d ↔
                  bitSet (orCell g a.1 a.2 (dirInt d0)) c d ∨ d = OPPOSITE d0 := by
                rw [hg1def]
                exact bitSet_orCell_self (Rect_orCell hg ..) hbin ..
              rw [h1, bitSet_orCell_ne hca]
              constructor
              · rintro (hb1 | rfl)
                · exact Or.inl hb1
                · exact Or.inr (Or.inr ⟨rfl, rfl⟩)
              · rintro (hb1 | ⟨hcon, _⟩ | ⟨_, rfl⟩)
                · exact Or.inl hb1
                · exact absurd hcon hca
                · exact Or.inr rfl
            · rw [hg1def, bitSet_orCell_ne hcb, bitSet_orCell_ne hca]
              constructor
              · intro hb1
                exact Or.inl hb1
              · rintro (hb1 | ⟨hcon, _⟩ | ⟨hcon, _⟩)
                · exact hb1
                · exact absurd hcon hca
                · exact absurd hcon hcb
        rw [hbit1]
        show _ ↔ _ ∨ ((c = a ∧ dirNext w h c d = some b) ∨ (c = b ∧ dirNext w h c d = some a)
          ∨ chainBit w h (b :: t2) c d)
        constructor
        · rintro ((hb1 | ⟨rfl, rfl⟩ | ⟨rfl, rfl⟩) | hchain2)
          · exact Or.inl hb1
          · exact Or.inr (Or.inl ⟨rfl, hd0⟩)
          · exact Or.inr (Or.inr (Or.inl ⟨rfl, dirNext_symm hain hd0⟩))
          · exact Or.inr (Or.inr (Or.inr hchain2))
        · rintro (hb1 | ⟨rfl, hd⟩ | ⟨rfl, hd⟩ | hchain2)
          · exact Or.inl (Or.inl hb1)
          · exact Or.inl (Or.inr (Or.inl ⟨rfl, dirNext_inj_dir hd hd0⟩))
          · exact Or.inl (Or.inr (Or.inr ⟨rfl, dirNext_inj_dir hd (dirNext_symm hain hd0)⟩))
          · exact Or.inr hchain2
      · intro c
        rw [hmarks]
        have hm1 : getB f1 c.1 c.2 = true ↔
            (getB flags c.1 c.2 = true ∨ c = a ∨ c = b) := by
          by_cases hcb : c = b
          · subst hcb
            rw [hf1def, getB_setB_self (Rect_setB hf ..) hbin.1 hbin.2]
            simp
          · have hneb : (b.1, b.2) ≠ (c.1, c.2) := by
              intro hcon
              rw [Prod.mk.injEq] at hcon
              exact hcb (Prod.ext hcon.1.symm hcon.2.symm)
            rw [hf1def, getB_setB_ne _ c.1 c.2 b.1 b.2 hneb]
            by_cases hca : c = a
            · subst hca
              rw [getB_setB_self hf hain.1 hain.2]
              simp
            · have hnea : (a.1, a.2) ≠ (c.1, c.2) := by
                intro hcon
                rw [Prod.mk.injEq] at hcon
                exact hca (Prod.ext hcon.1.symm hcon.2.symm)
              rw [getB_setB_ne _ c.1 c.2 a.1 a.2 hnea]
              constructor
              · intro h1
                exact Or.inl h1
              · rintro (h1 | rfl | rfl)
                · exact h1
                · exact absurd rfl hca
                · exact absurd rfl hcb
        rw [hm1]
        constructor
        · rintro ((h1 | rfl | rfl) | ⟨hlen, hmem⟩)
          · exact Or.inl h1
          · exact Or.inr ⟨by simp, List.mem_cons_self ..⟩
          · exact Or.inr ⟨by simp, List.mem_cons_of_mem _ (List.mem_cons_self ..)⟩
          · exact Or.inr ⟨by simp, List.mem_cons_of_mem _ hmem⟩
        · rintro (h1 | ⟨hlen, hmem⟩)
          · exact Or.inl (Or.inl h1)
          · rcases List.mem_cons.1 hmem with rfl | hmem2
            · exact Or.inl (Or.inr (Or.inl rfl))
            · rcases List.mem_cons.1 hmem2 with rfl | hmem3
              · exact Or.inl (Or.inr (Or.inr rfl))
              · have hpos : 0 < t2.length := List.length_pos.2 (List.ne_nil_of_mem hmem3)
                exact Or.inr ⟨by simp; omega, hmem2⟩

theorem pyChoice_mem {α : Type} {r : RS} {k : Nat} {l : List α} {a : α}
    (h : pyChoice r k l = .ok a) : a ∈ l := by
  cases l with
  | nil => cases h
  | cons b t =>
    simp only [pyChoice] at h
    cases Except.ok.inj h
    exact getD_mem _ _ _ (List.mem_cons_self ..)

theorem lookup_cons_eq {α β : Type} [BEq α] [LawfulBEq α] (k : α) (v : β)
    (t : List (α × β)) : List.lookup k ((k, v) :: t) = some v := by
  simp [List.lookup]

theorem lookup_cons_ne {α β : Type} [BEq α] [LawfulBEq α] (p : α × β) (t : List (α × β))
    (c : α) (hc : c ≠ p.1) : List.lookup c (p :: t) = List.lookup c t := by
  obtain ⟨k, v⟩ := p
  simp only [List.lookup]
  rw [show (c == k) = false from beq_eq_false_iff_ne.2 hc]

theorem lookup_alSet {α β : Type} [BEq α] [LawfulBEq α] (m : List (α × β)) (key c : α)
    (v : β) : List.lookup c (alSet m key v) = if c == key then some v else List.lookup c m := by
  unfold alSet
  simp only [List.lookup]
  cases c == key
  · rfl
  · rfl

theorem lookup_alSet' {α β : Type} [BEq α] [LawfulBEq α] [DecidableEq α]
    (m : List (α × β)) (key c : α) (v : β) :
    List.lookup c (alSet m key v) = if c = key then some v else List.lookup c m := by
  rw [lookup_alSet]
  by_cases hc : c = key
  · rw [if_pos hc, if_pos (beq_iff_eq.2 hc)]
  · rw [if_neg hc, if_neg (by
      intro hcon
      exact hc (beq_iff_eq.1 hcon))]

theorem lookup_alRemove {α β : Type} [BEq α] [LawfulBEq α] [DecidableEq α]
    (m : List (α × β)) (key c : α) :
    List.lookup c (alRemove m key) = if c = key then none else List.lookup c m := by
  induction m with
  | nil => simp [alRemove]
  | cons p t ih =>
    unfold alRemove at ih ⊢
    by_cases hp : p.1 = key
    · rw [show List.filter (fun q => decide (q.1 ≠ key)) (p :: t)
          = List.filter (fun q => decide (q.1 ≠ key)) t by
        simp [List.filter, hp]]
      rw [ih]
      by_cases hc : c = key
      · simp [hc]
      · rw [if_neg hc, if_neg hc, lookup_cons_ne _ _ _ (by rw [hp]; exact hc)]
    · rw [show List.filter (fun q => decide (q.1 ≠ key)) (p :: t)
          = p :: List.filter (fun q => decide (q.1 ≠ key)) t by
        simp [List.filter, hp]]
      by_cases hc : c = p.1
      · obtain ⟨k, v⟩ := p
        subst hc
        rw [if_neg (by exact hp)]
        rw [lookup_cons_eq, lookup_cons_eq]
      · rw [lookup_cons_ne _ _ _ hc, ih]
        by_cases hck : c = key
        · simp [hck]
        · rw [if_neg hck, if_neg hck, lookup_cons_ne _ _ _ hc]

theorem foldl_alRemove_lookup {β : Type} :
    ∀ (l : List Cell) (m : List (Cell × β)) (c : Cell),
    List.lookup c (l.foldl (fun m2 c2 => alRemove m2 c2) m)
      = if c ∈ l then none else List.lookup c m := by
  intro l
  induction l with
  | nil => simp
  | cons a t ih =>
    intro m c
    rw [List.foldl_cons, ih]
    by_cases hct : c ∈ t
    · simp [hct]
    · rw [if_neg hct, lookup_alRemove]
      by_cases hca : c = a
      · simp [hca]
      · rw [if_neg hca, if_neg (by
          intro hcon
          rcases List.mem_cons.1 hcon with h1 | h1
          · exact hca h1
          · exact hct h1)]

theorem ChainNext_congr {w h : Nat} {pn pn2 : List (Cell × (Cell × Dir))} :
    ∀ (path : List Cell),
    (∀ c ∈ path.dropLast, List.lookup c pn2 = List.lookup c pn) →
    ChainNext w h pn path → ChainNext w h pn2 path := by
  intro path
  induction path with
  | nil => intro _ _; trivial
  | cons a t ih =>
    intro hagree hchain
    match t with
    | [] => trivial
    | b :: t2 =>
      obtain ⟨⟨d, hlk, hd⟩, hrest⟩ := hchain
      refine ⟨⟨d, ?_, hd⟩, ?_⟩
      · rw [hagree a (by rw [List.dropLast_cons₂]; exact List.mem_cons_self ..)]
        exact hlk
      · exact ih (fun c hc => hagree c (by
          rw [List.dropLast_cons₂]
          exact List.mem_cons_of_mem _ hc)) hrest

theorem ChainNext_take {w h : Nat} {pn : List (Cell × (Cell × Dir))} :
    ∀ (path : List Cell) (n : Nat),
    ChainNext w h pn path → ChainNext w h pn (path.take n) := by
  intro path
  induction path with
  | nil => intro n _; rw [List.take_nil]; trivial
  | cons a t ih =>
    intro n hchain
    match t with
    | [] =>
      match n with
      | 0 => trivial
      | m + 1 =>
        rw [show List.take (m + 1) [a] = [a] from by simp]
        trivial
    | b :: t2 =>
      match n with
      | 0 => trivial
      | 1 => trivial
      | m + 2 =>
        obtain ⟨hpair, hrest⟩ := hchain
        exact ⟨hpair, ih (m + 1) hrest⟩

theorem getLast?_not_mem_dropLast {l : List Cell} (hnd : l.Nodup) {cur : Cell}
    (hl : l.getLast? = some cur) : cur ∉ l.dropLast := by
  have hne : l ≠ [] := by
    intro hcon
    rw [hcon] at hl
    cases hl
  have hdec := List.dropLast_concat_getLast hne
  have hcureq : l.getLast hne = cur := by
    have := List.getLast?_eq_getLast l hne
    rw [this] at hl
    exact Option.some.inj hl
  intro hcon
  rw [← hdec] at hnd
  have hdisj := (List.nodup_append.1 hnd).2.2
  exact hdisj hcon (by rw [hcureq]; exact List.mem_singleton.2 rfl)

theorem ChainNext_snoc {w h : Nat} {pn : List (Cell × (Cell × Dir))} (nxy : Cell) (d : Dir) :
    ∀ (path : List Cell) (cur : Cell), path.getLast? = some cur →
    cur ∉ path.dropLast →
    ChainNext w h pn path →
    dirNext w h cur d = some nxy →
    ChainNext w h (alSet pn cur (nxy, d)) (path ++ [nxy]) := by
  intro path
  induction path with
  | nil =>
    intro cur hl _ _ _
    cases hl
  | cons a t ih =>
    intro cur hlast hnd hchain hd
    match t with
    | [] =>
      have hac : a = cur := Option.some.inj hlast
      subst hac
      refine ⟨⟨d, ?_, hd⟩, trivial⟩
      rw [lookup_alSet' pn a a (nxy, d), if_pos rfl]
    | b :: t2 =>
      obtain ⟨⟨d0, hlk, hd0⟩, hrest⟩ := hchain
      have hanec : a ≠ cur := by
        intro hcon
        apply hnd
        rw [List.dropLast_cons₂, hcon]
        exact List.mem_cons_self ..
      refine ⟨⟨d0, ?_, hd0⟩, ?_⟩
      · rw [lookup_alSet' pn cur a (nxy, d), if_neg hanec]
        exact hlk
      · exact ih cur (by rw [List.getLast?_cons_cons] at hlast; exact hlast)
          (fun hcon => hnd (by rw [List.dropLast_cons₂]; exact List.mem_cons_of_mem _ hcon))
          hrest hd

theorem wilsonWalk_post (w h : Nat) (r : RS) (in_maze : List (List Bool)) :
    ∀ (fuel : Nat) (path : List Cell) (vw : List (Cell × Nat))
      (pn : List (Cell × (Cell × Dir))) (cur : Cell) (k : Nat)
      (res : List Cell × List (Cell × (Cell × Dir)) × Nat),
    path.getLast? = some cur →
    path.Nodup →
    ChainNext w h pn path →
    (∀ c ∈ path.dropLast, getB in_maze c.1 c.2 = false) →
    (∀ c ∈ path, inBounds w h c) →
    (∀ c i, List.lookup c vw = some i → path.get? i = some c) →
    (∀ c ∈ path, List.lookup c vw ≠ none) →
    wilsonWalk w h r fuel in_maze path vw pn cur k = .ok res →
    ∃ last, res.1.getLast? = some last ∧ getB in_maze last.1 last.2 = true ∧
      res.1.Nodup ∧ ChainNext w h res.2.1 res.1 ∧
      (∀ c ∈ res.1.dropLast, getB in_maze c.1 c.2 = false) ∧
      (∀ c ∈ res.1, inBounds w h c) := by
  intro fuel
  induction fuel with
  | zero =>
    intro path vw pn cur k res _ _ _ _ _ _ _ he
    cases he
  | succ n ih =>
    intro path vw pn cur k res hlast hnd hchain hfresh hinb hvwf hvwc he
    simp only [wilsonWalk] at he
    split at he
    · rename_i hflag
      cases Except.ok.inj he
      exact ⟨cur, hlast, hflag, hnd, hchain, hfresh, hinb⟩
    · rename_i hflag
      split at he
      · cases he
      · rename_i step hchoice
        have hmemstep := pyChoice_mem hchoice
        have hstep : dirNext w h cur step.2.2 = some (step.1, step.2.1) :=
          mem_neighborsFn_t hmemstep
        have hcurmem : cur ∈ path := List.mem_of_mem_getLast? hlast
        have hcurb : inBounds w h cur := hinb _ hcurmem
        have hnin : inBounds w h (step.1, step.2.1) := dirNext_inBounds hcurb hstep
        have hnecur : (step.1, step.2.1) ≠ cur := dirNext_ne hstep
        have hcurfalse : getB in_maze cur.1 cur.2 = false := by
          cases hb : getB in_maze cur.1 cur.2
          · rfl
          · exact absurd hb hflag
        split at he
        · rename_i L hlkL
          have hgetL : path.get? L = some (step.1, step.2.1) := hvwf _ _ hlkL
          have hL : L < path.length := (List.get?_eq_some.1 hgetL).fst
          have hcurget : path.get? (path.length - 1) = some cur := by
            rw [← List.getLast?_eq_get?]
            exact hlast
          have hlen1 : 1 ≤ path.length := by omega
          have hcurnotin : cur ∉ path.take (L + 1) := by
            intro hcon
            by_cases hcase : L + 1 ≤ path.length - 1
            · have hdrop : cur ∈ path.drop (L + 1) := by
                have hget := List.get?_drop path (L + 1) (path.length - 1 - (L + 1))
                rw [show L + 1 + (path.length - 1 - (L + 1)) = path.length - 1 by omega]
                  at hget
                rw [hcurget] at hget
                exact List.get?_mem hget
              have hnd2 := hnd
              rw [← List.take_append_drop (L + 1) path] at hnd2
              exact (List.nodup_append.1 hnd2).2.2 hcon hdrop
            · have hLeq : L = path.length - 1 := by omega
              rw [hLeq, hcurget] at hgetL
              exact hnecur (Option.some.inj hgetL).symm
          have hlast2 : (path.take (L + 1)).getLast? = some (step.1, step.2.1) := by
            rw [List.getLast?_eq_get?]
            have hlentake : (path.take (L + 1)).length = L + 1 := by
              rw [List.length_take]
              omega
            rw [hlentake]
            simp only [Nat.add_sub_cancel]
            rw [List.get?_take (by omega)]
            exact hgetL
          have hdisjtd : ∀ c, c ∈ path.take (L + 1) → c ∈ path.drop (L + 1) → False := by
            intro c h1 h2
            have hnd2 := hnd
            rw [← List.take_append_drop (L + 1) path] at hnd2
            exact (List.nodup_append.1 hnd2).2.2 h1 h2
          refine ih _ _ _ _ _ res hlast2 (hnd.sublist (List.take_sublist ..)) ?_ ?_ ?_ ?_ ?_ he
          · refine ChainNext_congr _ ?_ (ChainNext_take path (L + 1) hchain)
            intro c hc
            have hcne : c ≠ cur := by
              intro hcon
              rw [hcon] at hc
              exact hcurnotin (List.mem_of_mem_dropLast hc)
            rw [lookup_alSet' pn cur c _, if_neg hcne]
          · intro c hc
            have hdl : (path.take (L + 1)).dropLast = path.take L := by
              rw [List.dropLast_eq_take, List.take_take, List.length_take]
              congr 1
              omega
            rw [hdl] at hc
            rcases List.mem_iff_get?.1 hc with ⟨j, hj⟩
            have hjlen : j < (path.take L).length := (List.get?_eq_some.1 hj).fst
            rw [List.length_take] at hjlen
            have hjL : j < L := by omega
            have hgetj : path.get? j = some c := by
              rw [← List.get?_take hjL]
              exact hj
            have hjlt : j < path.length - 1 := by omega
            have hmem2 : (path.take (path.length - 1)).get? j = some c := by
              rw [List.get?_take hjlt]
              exact hgetj
            exact hfresh c (by
              rw [List.dropLast_eq_take]
              exact List.get?_mem hmem2)
          · intro c hc
            exact hinb c (List.mem_of_mem_take hc)
          · intro c i hlk
            rw [foldl_alRemove_lookup] at hlk
            split at hlk
            · cases hlk
            · rename_i hcnotdrop
              have hget := hvwf _ _ hlk
              have hi : i < path.length := (List.get?_eq_some.1 hget).fst
              have hile : i < L + 1 := by
                by_contra hcon
                apply hcnotdrop
                have hgd := List.get?_drop path (L + 1) (i - (L + 1))
                rw [show L + 1 + (i - (L + 1)) = i by omega] at hgd
                rw [hget] at hgd
                exact List.get?_mem hgd
              rw [List.get?_take hile]
              exact hget
          · intro c hc
            rw [foldl_alRemove_lookup]
            rw [if_neg (fun hcon => hdisjtd c hc hcon)]
            exact hvwc c (List.mem_of_mem_take hc)
        · rename_i hlknone
          have hnotin : (step.1, step.2.1) ∉ path := by
            intro hcon
            exact hvwc _ hcon hlknone
          have hlast2 : (path ++ [(step.1, step.2.1)]).getLast? = some (step.1, step.2.1) :=
            List.getLast?_concat ..
          have hnd2 : (path ++ [(step.1, step.2.1)]).Nodup := by
            rw [List.nodup_append]
            refine ⟨hnd, List.nodup_singleton _, ?_⟩
            intro a ha hamem
            rw [List.mem_singleton.1 hamem] at ha
            exact hnotin ha
          refine ih _ _ _ _ _ res hlast2 hnd2 ?_ ?_ ?_ ?_ ?_ he
          · exact ChainNext_snoc _ _ path cur hlast (getLast?_not_mem_dropLast hnd hlast)
              hchain hstep
          · intro c hc
            rw [List.dropLast_concat] at hc
            have hne : path ≠ [] := by
              intro hcon
              rw [hcon] at hlast
              cases hlast
            have hdec := List.dropLast_concat_getLast hne
            have hcureq : path.getLast hne = cur := by
              have := List.getLast?_eq_getLast path hne
              rw [this] at hlast
              exact Option.some.inj hlast
            rw [← hdec] at hc
            rcases List.mem_append.1 hc with h1 | h1
            · exact hfresh c h1
            · rw [List.mem_singleton.1 h1, hcureq]
              exact hcurfalse
          · intro c hc
            rcases List.mem_append.1 hc with h1 | h1
            · exact hinb c h1
            · rw [List.mem_singleton.1 h1]
              exact hnin
          · intro c i hlk
            rw [lookup_alSet'] at hlk
            split at hlk
            · rename_i hceq
              cases Option.some.inj hlk
              rw [hceq]
              rw [List.get?_append_right (le_refl _)]
              simp
            · have hget := hvwf _ _ hlk
              have hi : i < path.length := (List.get?_eq_some.1 hget).fst
              rw [List.get?_append hi]
              exact hget
          · intro c hc
            rw [lookup_alSet']
            split
            · intro hcon
              cases hcon
            · rename_i hcne
              rcases List.mem_append.1 hc with h1 | h1
              · exact hvwc c h1
              · exact absurd (List.mem_singleton.1 h1) hcne

theorem mem_remaining_cells {w h : Nat} {in_maze : List (List Bool)} {c : Cell} :
    c ∈ remaining_cells w h in_maze ↔ inBounds w h c ∧ getB in_maze c.1 c.2 = false := by
  unfold remaining_cells inBounds
  simp only [List.mem_flatMap, List.mem_filterMap, List.mem_range]
  constructor
  · rintro ⟨y, hy, x, hx, hif⟩
    split at hif
    · cases hif
    · rename_i hg
      cases Option.some.inj hif
      refine ⟨⟨hx, hy⟩, ?_⟩
      cases hb : getB in_maze x y
      · rfl
      · exact absurd hb hg
  · rintro ⟨⟨hx, hy⟩, hflag⟩
    refine ⟨c.2, hy, c.1, hx, ?_⟩
    rw [if_neg (by rw [hflag]; simp)]

theorem wilsonOuter_master (w h : Nat) (r : RS) :
    ∀ (fuel k : Nat) (grid : Grid) (in_maze : List (List Bool)) (V : List Cell)
      (E : List (Cell × Cell)) (g2 : Grid),
    GInv w h grid in_maze V E → 0 < h →
    wilsonOuter w h r fuel grid in_maze k = .ok g2 →
    PerfectOut w h g2 := by
  intro fuel
  induction fuel with
  | zero =>
    intro k grid in_maze V E g2 _ _ he
    cases he
  | succ n ih =>
    intro k grid in_maze V E g2 inv hh he
    simp only [wilsonOuter] at he
    split at he
    · rename_i hpool
      cases Except.ok.inj he
      refine inv.perfect ?_ hh
      intro c hc
      rw [← inv.brep]
      cases hb : getB in_maze c.1 c.2
      · exfalso
        have : c ∈ remaining_cells w h in_maze := mem_remaining_cells.2 ⟨hc, hb⟩
        rw [hpool] at this
        cases this
      · rfl
    · rename_i pool0 poolRest hpool
      split at he
      · cases he
      · rename_i start hchoice
        have hstartmem : start ∈ remaining_cells w h in_maze := by
          rw [hpool]
          exact pyChoice_mem hchoice
        obtain ⟨hsb, hsflag⟩ := mem_remaining_cells.1 hstartmem
        split at he
        · cases he
        · rename_i resw hwalk
          obtain ⟨last, hlastw, hlastmaze, hndw, hchainw, hfreshw, hinbw⟩ :=
            wilsonWalk_post w h r in_maze n [start] [(start, 0)] [] start (k + 1) resw
              rfl (List.nodup_singleton _) trivial (by intro c hc; cases hc)
              (by
                intro c hc
                rw [List.mem_singleton.1 hc]
                exact hsb)
              (by
                intro c i hlk
                by_cases hcs : c = start
                · subst hcs
                  rw [lookup_cons_eq] at hlk
                  cases Option.some.inj hlk
                  rfl
                · rw [lookup_cons_ne _ _ _ hcs] at hlk
                  cases hlk)
              (by
                intro c hc
                rw [List.mem_singleton.1 hc, lookup_cons_eq]
                intro hcon
                cases hcon)
              hwalk
          obtain ⟨g3, flags3, hcarveok, hg3r, hf3r, hbits, hmarks⟩ :=
            wilsonCarve_char w h resw.1 grid in_maze resw.2.1 inv.rectG inv.rectF
              hchainw hinbw
          split at he
          · rename_i e2 hcarve
            rw [hcarveok] at hcarve
            cases hcarve
          · rename_i gi hcarve
            rw [hcarveok] at hcarve
            cases Except.ok.inj hcarve
            have hlastV : ∀ l, resw.1.getLast? = some l → l ∈ V := by
              intro l hl
              rw [hlastw] at hl
              cases Option.some.inj hl
              exact (inv.brep _).1 hlastmaze
            have hfreshV : ∀ c ∈ resw.1.dropLast, c ∉ V := by
              intro c hc hcon
              rw [← inv.brep] at hcon
              rw [hfreshw c hc] at hcon
              cases hcon
            have hresne : resw.1 ≠ [] := by
              intro hcon
              rw [hcon] at hlastw
              cases hlastw
            have hdecomp := List.dropLast_concat_getLast hresne
            have hlasteq : resw.1.getLast hresne = last := by
              have := List.getLast?_eq_getLast resw.1 hresne
              rw [this] at hlastw
              exact Option.some.inj hlastw
            have inv2 : GInv w h g3 flags3 (resw.1.dropLast ++ V)
                (pathEdges resw.1 ++ E) := by
              refine ⟨hg3r, hf3r,
                IsGrown.attachPath resw.1 inv.grown hlastV hfreshV hndw, ?_, ?_, ?_, ?_⟩
              · intro c hc
                rcases List.mem_append.1 hc with h1 | h1
                · exact hinbw c (List.mem_of_mem_dropLast h1)
                · exact inv.vbound c h1
              · intro c
                rw [hmarks]
                constructor
                · rintro (h1 | ⟨hlen2, hmem⟩)
                  · exact List.mem_append.2 (Or.inr ((inv.brep c).1 h1))
                  · rw [← hdecomp] at hmem
                    rcases List.mem_append.1 hmem with h2 | h2
                    · exact List.mem_append.2 (Or.inl h2)
                    · rw [List.mem_singleton.1 h2, hlasteq]
                      exact List.mem_append.2 (Or.inr (hlastV last hlastw))
                · intro hc
                  rcases List.mem_append.1 hc with h1 | h1
                  · refine Or.inr ⟨?_, List.mem_of_mem_dropLast h1⟩
                    have hpos : 0 < resw.1.dropLast.length :=
                      List.length_pos.2 (List.ne_nil_of_mem h1)
                    rw [List.length_dropLast] at hpos
                    omega
                  · exact Or.inl ((inv.brep c).2 h1)
              · intro c d
                rw [hbits, inv.erep, chainBit_iff_pathEdges]
                constructor
                · rintro (⟨c2, hd, hpair⟩ | ⟨c2, hd, hpair⟩)
                  · refine ⟨c2, hd, ?_⟩
                    rcases hpair with h1 | h1
                    · exact Or.inl (List.mem_append.2 (Or.inr h1))
                    · exact Or.inr (List.mem_append.2 (Or.inr h1))
                  · refine ⟨c2, hd, ?_⟩
                    rcases hpair with h1 | h1
                    · exact Or.inl (List.mem_append.2 (Or.inl h1))
                    · exact Or.inr (List.mem_append.2 (Or.inl h1))
                · rintro ⟨c2, hd, hpair⟩
                  rcases hpair with h1 | h1
                  · rcases List.mem_append.1 h1 with h2 | h2
                    · exact Or.inr ⟨c2, hd, Or.inl h2⟩
                    · exact Or.inl ⟨c2, hd, Or.inl h2⟩
                  · rcases List.mem_append.1 h1 with h2 | h2
                    · exact Or.inr ⟨c2, hd, Or.inr h2⟩
                    · exact Or.inl ⟨c2, hd, Or.inr h2⟩
              · intro e heE
                rcases List.mem_append.1 heE with h1 | h1
                · exact pathEdges_ok resw.1 hchainw e h1
                · exact inv.eok e h1
            exact ih _ _ _ _ _ g2 inv2 hh he

/-- C1/C5 workhorse for `generate_maze_wilson`. -/
theorem generate_maze_wilson_perfect (width height : Int) (r : RS) (fuel : Nat) (g : Grid)
    (hw : 1 ≤ width) (hh : 1 ≤ height)
    (hres : generate_maze_wilson width height r fuel = .ok g) :
    PerfectOut width.toNat height.toNat g := by
  unfold generate_maze_wilson at hres
  rw [if_neg (by omega)] at hres
  set w := width.toNat with hwdef
  set h := height.toNat with hhdef
  have hw0 : 0 < w := by omega
  have hh0 : 0 < h := by omega
  set x0 := randrange r 0 w with hx0
  set y0 := randrange r 1 h with hy0
  have hx0b : x0 < w := Nat.mod_lt _ hw0
  have hy0b : y0 < h := Nat.mod_lt _ hh0
  have hinv : GInv w h (List.replicate h (List.replicate w 0))
      (setB (List.replicate h (List.replicate w false)) x0 y0) [(x0, y0)] [] := by
    refine ⟨Rect_replicate 0 w h, Rect_setB (Rect_replicate false w h) x0 y0,
      IsGrown.root _, ?_, ?_, ?_, ?_⟩
    · intro c hc
      rw [List.mem_singleton.1 hc]
      exact ⟨hx0b, hy0b⟩
    · intro c
      by_cases hcx : c = (x0, y0)
      · subst hcx
        rw [getB_setB_self (Rect_replicate false w h) hx0b hy0b]
        simp
      · rw [getB_setB_ne _ c.1 c.2 x0 y0 (by
          intro hcon
          rw [Prod.mk.injEq] at hcon
          exact hcx (Prod.ext hcon.1.symm hcon.2.symm))]
        rw [getB_replicate]
        simp only [List.mem_singleton]
        constructor
        · intro hcon
          cases hcon
        · intro hcon
          exact absurd hcon hcx
    · intro c d
      unfold bitSet
      rw [getCell_replicate]
      simp
    · intro e he
      cases he
  exact wilsonOuter_master w h r fuel 2 _ _ _ _ g hinv hh0 hres

/-- C1: for every `width, height ≥ 1` and every decision stream (hence
every seed), each generator that returns a grid returns one whose passage
graph — an edge between adjacent cells iff the direction bit is set — is
connected and has exactly `width*height - 1` edges, counted by the
repository's own `to_edges`. -/
theorem C1_perfect_maze (width height : Int) (r : RS) (fuel : Nat) (g : Grid)
    (hw : 1 ≤ width) (hh : 1 ≤ height) :
    (generate_maze_dfs width height r fuel = .ok g ∨
      generate_maze_prim width height r fuel = .ok g ∨
      generate_maze_wilson width height r fuel = .ok g) →
    (∀ a b, inBounds width.toNat height.toNat a → inBounds width.toNat height.toNat b →
      passReach g width.toNat height.toNat a b) ∧
    (to_edges g).length = width.toNat * height.toNat - 1 := by
  intro hres
  have hperf : PerfectOut width.toNat height.toNat g := by
    rcases hres with h1 | h1 | h1
    · exact generate_maze_dfs_perfect width height r fuel g hw hh h1
    · exact generate_maze_prim_perfect width height r fuel g hw hh h1
    · exact generate_maze_wilson_perfect width height r fuel g hw hh h1
  obtain ⟨_, _, hconn, hcount⟩ := hperf
  exact ⟨hconn, by omega⟩

theorem C1_perfect_maze_witness :
    ((1 : Int) ≤ 2 ∧ (1 : Int) ≤ 2 ∧
      generate_maze_dfs 2 2 (fun _ => 0) 100 = .ok [[2, 2], [9, 5]]) ∧
    ((∀ a b, inBounds (2 : Int).toNat (2 : Int).toNat a →
        inBounds (2 : Int).toNat (2 : Int).toNat b →
        passReach [[2, 2], [9, 5]] (2 : Int).toNat (2 : Int).toNat a b) ∧
      (to_edges [[2, 2], [9, 5]]).length = (2 : Int).toNat * (2 : Int).toNat - 1) :=
  ⟨⟨by decide, by decide, rfl⟩,
    C1_perfect_maze 2 2 (fun _ => 0) 100 [[2, 2], [9, 5]] (by decide) (by decide)
      (Or.inl rfl)⟩

/-- C5: every grid produced by any of the three generators satisfies
passage symmetry: each set direction bit points to an in-bounds neighbour
carrying the opposite bit. -/
theorem C5_passage_symmetry (width height : Int) (r : RS) (fuel : Nat) (g : Grid)
    (hw : 1 ≤ width) (hh : 1 ≤ height) :
    (generate_maze_dfs width height r fuel = .ok g ∨
      generate_maze_prim width height r fuel = .ok g ∨
      generate_maze_wilson width height r fuel = .ok g) →
    ∀ c d, bitSet g c d →
      ∃ c2, dirNext width.toNat height.toNat c d = some c2 ∧
        inBounds width.toNat height.toNat c2 ∧ bitSet g c2 (OPPOSITE d) := by
  intro hres
  have hperf : PerfectOut width.toNat height.toNat g := by
    rcases hres with h1 | h1 | h1
    · exact generate_maze_dfs_perfect width height r fuel g hw hh h1
    · exact generate_maze_prim_perfect width height r fuel g hw hh h1
    · exact generate_maze_wilson_perfect width height r fuel g hw hh h1
  exact hperf.2.1

theorem C5_passage_symmetry_witness :
    ((1 : Int) ≤ 2 ∧ (1 : Int) ≤ 2 ∧
      generate_maze_dfs 2 2 (fun _ => 0) 100 = .ok [[2, 2], [9, 5]]) ∧
    (∀ c d, bitSet [[2, 2], [9, 5]] c d →
      ∃ c2, dirNext (2 : Int).toNat (2 : Int).toNat c d = some c2 ∧
        inBounds (2 : Int).toNat (2 : Int).toNat c2 ∧
        bitSet [[2, 2], [9, 5]] c2 (OPPOSITE d)) :=
  ⟨⟨by decide, by decide, rfl⟩,
    C5_passage_symmetry 2 2 (fun _ => 0) 100 [[2, 2], [9, 5]] (by decide) (by decide)
      (Or.inl rfl)⟩

/-! ### Priority-queue order and heappush -/

theorem pqLeB_iff (a b : PQE) : pqLeB a b = true ↔
    (a.1 < b.1 ∨ (a.1 = b.1 ∧ (a.2.1 < b.2.1 ∨ (a.2.1 = b.2.1 ∧ a.2.2 ≤ b.2.2)))) := by
  simp [pqLeB]

theorem pqLeB_fst {a b : PQE} (h : pqLeB a b = true) : a.1 ≤ b.1 := by
  rw [pqLeB_iff] at h
  omega

theorem pqLeB_total (a b : PQE) : pqLeB a b = true ∨ pqLeB b a = true := by
  rw [pqLeB_iff, pqLeB_iff]
  omega

theorem pqLeB_trans {a b c : PQE} (h1 : pqLeB a b = true) (h2 : pqLeB b c = true) :
    pqLeB a c = true := by
  rw [pqLeB_iff] at h1 h2 ⊢
  omega

theorem pqLeB_refl (a : PQE) : pqLeB a a = true := by
  rw [pqLeB_iff]
  omega

theorem heappush_perm (pq : List PQE) (e : PQE) : (heappush pq e).Perm (e :: pq) := by
  induction pq with
  | nil => exact List.Perm.refl _
  | cons b t ih =>
    simp only [heappush]
    cases hle : pqLeB e b
    · simp only [Bool.false_eq_true, if_false]
      exact (List.Perm.cons b ih).trans (List.Perm.swap e b t)
    · simp only [if_true]
      exact List.Perm.refl _

theorem mem_heappush {pq : List PQE} {e a : PQE} :
    a ∈ heappush pq e ↔ a = e ∨ a ∈ pq := by
  rw [(heappush_perm pq e).mem_iff, List.mem_cons]

theorem length_heappush (pq : List PQE) (e : PQE) :
    (heappush pq e).length = pq.length + 1 := by
  rw [(heappush_perm pq e).length_eq, List.length_cons]

theorem nodup_heappush {pq : List PQE} {e : PQE} (hnd : pq.Nodup) (he : e ∉ pq) :
    (heappush pq e).Nodup := by
  exact ((List.nodup_cons.2 ⟨he, hnd⟩).perm (heappush_perm pq e).symm)

theorem sorted_heappush {pq : List PQE} (hs : pqSorted pq) (e : PQE) :
    pqSorted (heappush pq e) := by
  induction pq with
  | nil =>
    simp [heappush, pqSorted]
  | cons b t ih =>
    rw [pqSorted, List.pairwise_cons] at hs
    simp only [heappush]
    cases hle : pqLeB e b
    · simp only [Bool.false_eq_true, if_false]
      rw [pqSorted, List.pairwise_cons]
      refine ⟨?_, ih hs.2⟩
      intro x hx
      rcases mem_heappush.1 hx with h1 | h1
      · rw [h1]
        rcases pqLeB_total e b with h2 | h2
        · rw [h2] at hle; cases hle
        · exact h2
      · exact hs.1 x h1
    · simp only [if_true]
      rw [pqSorted, List.pairwise_cons]
      refine ⟨?_, List.pairwise_cons.2 hs⟩
      intro x hx
      rcases List.mem_cons.1 hx with h1 | h1
      · subst h1; exact hle
      · exact pqLeB_trans hle (hs.1 x h1)

/-! ### Association-list keys -/

theorem lookup_some_mem_keys {α β : Type} [BEq α] [LawfulBEq α] {m : List (α × β)}
    {c : α} {v : β} (h : List.lookup c m = some v) : c ∈ m.map Prod.fst := by
  induction m with
  | nil => simp [List.lookup] at h
  | cons p t ih =>
    by_cases hc : c = p.1
    · simp [hc]
    · rw [lookup_cons_ne p t c hc] at h
      simp only [List.map_cons, List.mem_cons]
      exact Or.inr (ih h)

/-! ### Solver graph basics -/

theorem sAdj_ne {grid : Grid} {w h : Nat} {c c2 : ICell} (hadj : sAdj grid w h c c2) :
    c2 ≠ c := by
  obtain ⟨_, _, d, _, hc2⟩ := hadj
  subst hc2
  intro hcon
  rw [Prod.mk.injEq] at hcon
  cases d <;> simp [DX, DY] at hcon <;> omega

theorem pyGet_ok {α : Type} (l : List α) (i : Int) (a : α) (h0 : 0 ≤ i)
    (h1 : i < (l.length : Int)) : pyGet l i = .ok (l.getD i.toNat a) := by
  rw [pyGet, dif_pos ⟨h0, h1⟩]
  congr 1
  rw [getD_eq_get l i.toNat a (by omega)]

theorem pyGet2_ok {grid : Grid} {w h : Nat} (hg : Rect grid w h) {x y : Int}
    (hb : 0 ≤ x ∧ x < (w : Int) ∧ 0 ≤ y ∧ y < (h : Int)) :
    pyGet2 grid x y = .ok (getCell grid x.toNat y.toNat) := by
  have hy : y.toNat < h := by omega
  have hrow := rect_row hg hy
  have hgl : (grid.length : Int) = (h : Int) := by rw [hg.1]
  have h1 : pyGet grid y = .ok (grid.getD y.toNat []) :=
    pyGet_ok grid y [] (by omega) (by omega)
  have hrl : ((grid.getD y.toNat []).length : Int) = (w : Int) := by rw [hrow.2]
  unfold pyGet2
  rw [h1]
  exact pyGet_ok _ x 0 (by omega) (by omega)

/-! ### The cover lemma: any unsettled reachable cell is represented -/

theorem dinv_cover {grid : Grid} {w h : Nat} {start endc : ICell} {pq : List PQE}
    {dist : List (ICell × Nat)} {prev : List (ICell × Option ICell)} {visited : List ICell}
    (inv : DInv grid w h start endc pq dist prev visited) :
    ∀ {target : ICell} {m : Nat}, SReachN grid w h start target m → target ∉ visited →
      ∃ e ∈ pq, e.1 ≤ m := by
  intro target m hreach
  induction hreach with
  | refl =>
    intro hnv
    exact ⟨(0, start), inv.represented start 0 inv.distStart hnv, Nat.le_refl 0⟩
  | step hab hadj ih =>
    rename_i b c n
    intro hnv
    by_cases hbv : b ∈ visited
    · obtain ⟨du, hdu, hmin⟩ := inv.settled b hbv
      obtain ⟨dv, du', hdv, hdu', hle⟩ := inv.frontier b hbv c hadj
      have hdu2 : du' = du := by
        rw [hdu] at hdu'
        exact (Option.some.inj hdu').symm
      have hmn : du ≤ n := hmin n hab
      refine ⟨(dv, c), inv.represented c dv hdv hnv, ?_⟩
      simp only
      omega
    · obtain ⟨e, he, hle⟩ := ih hbv
      exact ⟨e, he, by omega⟩

theorem dinv_head_min {grid : Grid} {w h : Nat} {start endc : ICell} {d : Nat} {c : ICell}
    {pqRest : List PQE} {dist : List (ICell × Nat)} {prev : List (ICell × Option ICell)}
    {visited : List ICell}
    (inv : DInv grid w h start endc ((d, c) :: pqRest) dist prev visited)
    (hnv : c ∉ visited) :
    List.lookup c dist = some d ∧ ∀ m, SReachN grid w h start c m → d ≤ m := by
  obtain ⟨dv, hdv, hle⟩ := inv.inQueue (d, c) (List.mem_cons_self _ _)
  have hrep : (dv, c) ∈ (d, c) :: pqRest := inv.represented c dv hdv hnv
  have hdge : d ≤ dv := by
    rcases List.mem_cons.1 hrep with h1 | h1
    · rw [Prod.mk.injEq] at h1
      omega
    · exact pqLeB_fst ((List.pairwise_cons.1 inv.sorted).1 _ h1)
  have hdveq : dv = d := by omega
  subst hdveq
  refine ⟨hdv, ?_⟩
  intro m hm
  obtain ⟨e, he, hem⟩ := dinv_cover inv hm hnv
  rcases List.mem_cons.1 he with h1 | h1
  · subst h1
    exact hem
  · have h2 := pqLeB_fst ((List.pairwise_cons.1 inv.sorted).1 e h1)
    omega

theorem dinv_skip {grid : Grid} {w h : Nat} {start endc : ICell} {d : Nat} {c : ICell}
    {pqRest : List PQE} {dist : List (ICell × Nat)} {prev : List (ICell × Option ICell)}
    {visited : List ICell}
    (inv : DInv grid w h start endc ((d, c) :: pqRest) dist prev visited)
    (hcv : c ∈ visited) :
    DInv grid w h start endc pqRest dist prev visited := by
  obtain ⟨core, hfr⟩ := inv
  refine ⟨⟨(List.pairwise_cons.1 core.sorted).2, (List.nodup_cons.1 core.pqNodup).2,
    core.distStart, core.distInB, core.reached,
    fun e he => core.inQueue e (List.mem_cons_of_mem _ he),
    ?_, core.settled,
    fun e he hv => core.stale e (List.mem_cons_of_mem _ he) hv,
    core.prevLink, core.prevKeys, core.visNodup, core.visDist, core.endNotVis⟩, hfr⟩
  intro c2 dv hdv hnv
  rcases List.mem_cons.1 (core.represented c2 dv hdv hnv) with h1 | h1
  · rw [Prod.mk.injEq] at h1
    exact absurd (by rw [h1.2]; exact hcv) hnv
  · exact h1

theorem dinv_skip_iff {grid : Grid} {w h : Nat} {start endc : ICell} {d dv : Nat}
    {c : ICell} {pqRest : List PQE} {dist : List (ICell × Nat)}
    {prev : List (ICell × Option ICell)} {visited : List ICell}
    (inv : DInv grid w h start endc ((d, c) :: pqRest) dist prev visited)
    (hdv : List.lookup c dist = some dv) :
    c ∈ visited ↔ dv < d := by
  constructor
  · intro hcv
    obtain ⟨dv', hdv', hlt⟩ := inv.stale (d, c) (List.mem_cons_self _ _) hcv
    rw [hdv] at hdv'
    cases Option.some.inj hdv'
    exact hlt
  · intro hlt
    by_contra hnv
    obtain ⟨hd, _⟩ := dinv_head_min inv hnv
    rw [hdv] at hd
    cases Option.some.inj hd
    omega

theorem except_bind_ok {e a b : Type} (x : a) (k : a → Except e b) :
    (Except.ok x >>= k) = k x := rfl

theorem except_bind_err {e a b : Type} (err : e) (k : a → Except e b) :
    ((Except.error err : Except e a) >>= k : Except e b) = Except.error err := rfl

theorem relaxDir_spec {grid : Grid} {w h : Nat} {start endc : ICell} {x y : Int} {d : Nat}
    {dist : List (ICell × Nat)} {prev : List (ICell × Option ICell)} {pq : List PQE}
    {visited : List ICell} (hg : Rect grid w h) (dd : Dir)
    (core : DCore grid w h start endc pq dist prev ((x, y) :: visited))
    (oldF : ∀ u ∈ visited, ∀ v, sAdj grid w h u v → ∃ dv du,
      List.lookup v dist = some dv ∧ List.lookup u dist = some du ∧ dv ≤ du + 1)
    (hxyd : List.lookup ((x, y) : ICell) dist = some d) :
    ∃ dist2 prev2 pq2,
      relaxDir grid w h x y d (dist, prev, pq) dd = .ok (dist2, prev2, pq2) ∧
      DCore grid w h start endc pq2 dist2 prev2 ((x, y) :: visited) ∧
      (∀ u ∈ visited, ∀ v, sAdj grid w h u v → ∃ dv du,
        List.lookup v dist2 = some dv ∧ List.lookup u dist2 = some du ∧ dv ≤ du + 1) ∧
      List.lookup ((x, y) : ICell) dist2 = some d ∧
      (getCell grid x.toNat y.toNat &&& dirInt dd ≠ 0 →
        inBI w h (x + DX dd, y + DY dd) →
        ∃ dv, List.lookup ((x + DX dd, y + DY dd) : ICell) dist2 = some dv ∧ dv ≤ d + 1) ∧
      (∀ c dv, List.lookup c dist = some dv →
        ∃ dv2, List.lookup c dist2 = some dv2 ∧ dv2 ≤ dv) ∧
      pq2.length ≤ pq.length + 1 := by
  have hxyin : inBI w h (x, y) := core.distInB _ _ hxyd
  obtain ⟨hx0, hx1, hy0, hy1⟩ := hxyin
  unfold relaxDir
  simp only [pyGet2_ok hg ⟨hx0, hx1, hy0, hy1⟩]
  by_cases hbit : getCell grid x.toNat y.toNat &&& dirInt dd ≠ 0
  · rw [if_pos hbit]
    try dsimp only
    by_cases hin : 0 ≤ x + DX dd ∧ x + DX dd < (w : Int) ∧ 0 ≤ y + DY dd ∧ y + DY dd < (h : Int)
    · rw [if_pos hin]
      try dsimp only
      have key : (∀ v, List.lookup ((x + DX dd, y + DY dd) : ICell) dist = some v →
            d + 1 < v) →
          DCore grid w h start endc (heappush pq (d + 1, (x + DX dd, y + DY dd)))
              (alSet dist (x + DX dd, y + DY dd) (d + 1))
              (alSet prev (x + DX dd, y + DY dd) (some (x, y))) ((x, y) :: visited) ∧
            (∀ u ∈ visited, ∀ v, sAdj grid w h u v → ∃ dv du,
              List.lookup v (alSet dist (x + DX dd, y + DY dd) (d + 1)) = some dv ∧
                List.lookup u (alSet dist (x + DX dd, y + DY dd) (d + 1)) = some du ∧
                dv ≤ du + 1) ∧
            List.lookup ((x, y) : ICell) (alSet dist (x + DX dd, y + DY dd) (d + 1)) =
              some d ∧
            (∃ dv, List.lookup ((x + DX dd, y + DY dd) : ICell)
                (alSet dist (x + DX dd, y + DY dd) (d + 1)) = some dv ∧ dv ≤ d + 1) ∧
            (∀ c dv, List.lookup c dist = some dv → ∃ dv2,
              List.lookup c (alSet dist (x + DX dd, y + DY dd) (d + 1)) = some dv2 ∧
                dv2 ≤ dv) := by
        intro hv
        have hadj : sAdj grid w h (x, y) (x + DX dd, y + DY dd) :=
          ⟨⟨hx0, hx1, hy0, hy1⟩, hin, dd, hbit, rfl⟩
        have htne : ((x + DX dd, y + DY dd) : ICell) ≠ (x, y) := sAdj_ne hadj
        have htreach : SReachN grid w h start (x + DX dd, y + DY dd) (d + 1) :=
          SReachN.step (core.reached _ _ hxyd) hadj
        have htnv : ((x + DX dd, y + DY dd) : ICell) ∉ (x, y) :: visited := by
          intro hmem
          rcases List.mem_cons.1 hmem with h1 | h1
          · exact htne h1
          · obtain ⟨dvt, hdvt, hmin⟩ := core.settled _ (List.mem_cons_of_mem _ h1)
            have h2 := hmin (d + 1) htreach
            have h3 := hv dvt hdvt
            omega
        have hnotin : ((d + 1, (x + DX dd, y + DY dd)) : PQE) ∉ pq := by
          intro hmem
          obtain ⟨dvt, hdvt, hle⟩ := core.inQueue _ hmem
          have h3 := hv dvt hdvt
          simp only at hle
          omega
        have htstart : ((x + DX dd, y + DY dd) : ICell) ≠ start := by
          intro hcon
          have := hv 0 (by rw [hcon]; exact core.distStart)
          omega
        refine ⟨⟨sorted_heappush core.sorted _, nodup_heappush core.pqNodup hnotin,
          ?_, ?_, ?_, ?_, ?_, ?_, ?_, ?_, ?_, core.visNodup, ?_, core.endNotVis⟩,
          ?_, ?_, ?_, ?_⟩
        · rw [lookup_alSet', if_neg (fun hc => htstart hc.symm)]
          exact core.distStart
        · intro c dv hdv
          rw [lookup_alSet'] at hdv
          by_cases hc : c = ((x + DX dd, y + DY dd) : ICell)
          · rw [hc]
            exact hin
          · rw [if_neg hc] at hdv
            exact core.distInB c dv hdv
        · intro c dv hdv
          rw [lookup_alSet'] at hdv
          by_cases hc : c = ((x + DX dd, y + DY dd) : ICell)
          · rw [if_pos hc] at hdv
            cases Option.some.inj hdv
            rw [hc]
            exact htreach
          · rw [if_neg hc] at hdv
            exact core.reached c dv hdv
        · intro e he
          rcases mem_heappush.1 he with h1 | h1
          · rw [h1]
            exact ⟨d + 1, by rw [lookup_alSet', if_pos rfl], Nat.le_refl _⟩
          · obtain ⟨dv, hdv, hle⟩ := core.inQueue e h1
            by_cases hc : e.2 = ((x + DX dd, y + DY dd) : ICell)
            · refine ⟨d + 1, by rw [lookup_alSet', if_pos hc], ?_⟩
              rw [hc] at hdv
              have := hv dv hdv
              omega
            · exact ⟨dv, by rw [lookup_alSet', if_neg hc]; exact hdv, hle⟩
        · intro c dv hdv hnv
          rw [lookup_alSet'] at hdv
          by_cases hc : c = ((x + DX dd, y + DY dd) : ICell)
          · rw [if_pos hc] at hdv
            cases Option.some.inj hdv
            rw [hc]
            exact mem_heappush.2 (Or.inl rfl)
          · rw [if_neg hc] at hdv
            exact mem_heappush.2 (Or.inr (core.represented c dv hdv hnv))
        · intro u hu
          obtain ⟨du, hdu, hmin⟩ := core.settled u hu
          have hune : u ≠ ((x + DX dd, y + DY dd) : ICell) := fun hc => htnv (hc ▸ hu)
          exact ⟨du, by rw [lookup_alSet', if_neg hune]; exact hdu, hmin⟩
        · intro e he hev
          rcases mem_heappush.1 he with h1 | h1
          · rw [h1] at hev
            exact absurd hev htnv
          · obtain ⟨dv, hdv, hlt⟩ := core.stale e h1 hev
            by_cases hc : e.2 = ((x + DX dd, y + DY dd) : ICell)
            · rw [hc] at hev
              exact absurd hev htnv
            · exact ⟨dv, by rw [lookup_alSet', if_neg hc]; exact hdv, hlt⟩
        · intro c dv hdv
          rw [lookup_alSet'] at hdv
          by_cases hc : c = ((x + DX dd, y + DY dd) : ICell)
          · rw [if_pos hc] at hdv
            cases Option.some.inj hdv
            rw [hc]
            right
            refine ⟨(x, y), d, by rw [lookup_alSet', if_pos rfl], hadj, ?_, rfl,
              List.mem_cons_self _ _⟩
            rw [lookup_alSet', if_neg (fun hc2 => htne hc2.symm)]
            exact hxyd
          · rw [if_neg hc] at hdv
            rcases core.prevLink c dv hdv with ⟨h1, h2, h3⟩ | ⟨p, dp, h1, h2, h3, h4, h5⟩
            · left
              exact ⟨h1, h2, by rw [lookup_alSet', if_neg hc]; exact h3⟩
            · right
              have hpne : p ≠ ((x + DX dd, y + DY dd) : ICell) :=
                fun hcpt => htnv (hcpt ▸ h5)
              exact ⟨p, dp, by rw [lookup_alSet', if_neg hc]; exact h1, h2,
                by rw [lookup_alSet', if_neg hpne]; exact h3, h4, h5⟩
        · intro c
          by_cases hc : c = ((x + DX dd, y + DY dd) : ICell)
          · rw [lookup_alSet', if_pos hc, lookup_alSet', if_pos hc]
            simp
          · rw [lookup_alSet', if_neg hc, lookup_alSet', if_neg hc]
            exact core.prevKeys c
        · intro u hu
          have hune : u ≠ ((x + DX dd, y + DY dd) : ICell) := fun hc => htnv (hc ▸ hu)
          rw [lookup_alSet', if_neg hune]
          exact core.visDist u hu
        · intro u hu v hadjv
          obtain ⟨dv, du, h1, h2, h3⟩ := oldF u hu v hadjv
          have hune : u ≠ ((x + DX dd, y + DY dd) : ICell) :=
            fun hc => htnv (hc ▸ List.mem_cons_of_mem _ hu)
          by_cases hvc : v = ((x + DX dd, y + DY dd) : ICell)
          · refine ⟨d + 1, du, by rw [lookup_alSet', if_pos hvc],
              by rw [lookup_alSet', if_neg hune]; exact h2, ?_⟩
            rw [hvc] at h1
            have := hv dv h1
            omega
          · exact ⟨dv, du, by rw [lookup_alSet', if_neg hvc]; exact h1,
              by rw [lookup_alSet', if_neg hune]; exact h2, h3⟩
        · rw [lookup_alSet', if_neg (fun hc => htne hc.symm)]
          exact hxyd
        · exact ⟨d + 1, by rw [lookup_alSet', if_pos rfl], Nat.le_refl _⟩
        · intro c dv hdv
          by_cases hc : c = ((x + DX dd, y + DY dd) : ICell)
          · refine ⟨d + 1, by rw [lookup_alSet', if_pos hc], ?_⟩
            rw [hc] at hdv
            have := hv dv hdv
            omega
          · exact ⟨dv, by rw [lookup_alSet', if_neg hc]; exact hdv, Nat.le_refl dv⟩
      cases hl : List.lookup ((x + DX dd, y + DY dd) : ICell) dist with
      | none =>
        obtain ⟨k1, k2, k3, k4, k5⟩ := key (fun v h0 => by rw [hl] at h0; cases h0)
        exact ⟨_, _, _, rfl, k1, k2, k3, fun _ _ => k4, k5,
          by rw [length_heappush]⟩
      | some v =>
        try dsimp only
        by_cases hlt : d + 1 < v
        · rw [if_pos hlt]
          obtain ⟨k1, k2, k3, k4, k5⟩ := key (fun v' h0 => by
            rw [hl] at h0
            cases Option.some.inj h0
            exact hlt)
          exact ⟨_, _, _, rfl, k1, k2, k3, fun _ _ => k4, k5,
            by rw [length_heappush]⟩
        · rw [if_neg hlt]
          exact ⟨dist, prev, pq, rfl, core, oldF, hxyd,
            fun _ _ => ⟨v, hl, by omega⟩,
            fun c dv hdv => ⟨dv, hdv, Nat.le_refl dv⟩, Nat.le_succ _⟩
    · rw [if_neg hin]
      exact ⟨dist, prev, pq, rfl, core, oldF, hxyd, fun _ hb => absurd hb hin,
        fun c dv hdv => ⟨dv, hdv, Nat.le_refl dv⟩, Nat.le_succ _⟩
  · rw [if_neg hbit]
    exact ⟨dist, prev, pq, rfl, core, oldF, hxyd, fun hb _ => absurd hb hbit,
      fun c dv hdv => ⟨dv, hdv, Nat.le_refl dv⟩, Nat.le_succ _⟩

theorem expand_spec {grid : Grid} {w h : Nat} {start endc : ICell} {x y : Int} {d : Nat}
    {pqRest : List PQE} {dist : List (ICell × Nat)} {prev : List (ICell × Option ICell)}
    {visited : List ICell} (hg : Rect grid w h)
    (inv : DInv grid w h start endc ((d, (x, y)) :: pqRest) dist prev visited)
    (hnv : ((x, y) : ICell) ∉ visited) (hne : ((x, y) : ICell) ≠ endc) :
    ∃ dist2 prev2 pq2,
      [Dir.N, Dir.S, Dir.E, Dir.W].foldlM (relaxDir grid w h x y d)
        (dist, prev, pqRest) = .ok (dist2, prev2, pq2) ∧
      DInv grid w h start endc pq2 dist2 prev2 ((x, y) :: visited) ∧
      pq2.length ≤ pqRest.length + 4 := by
  obtain ⟨hxyd0, hxymin⟩ := dinv_head_min inv hnv
  have core0 : DCore grid w h start endc pqRest dist prev ((x, y) :: visited) := by
    refine ⟨(List.pairwise_cons.1 inv.sorted).2, (List.nodup_cons.1 inv.pqNodup).2,
      inv.distStart, inv.distInB, inv.reached,
      fun e he => inv.inQueue e (List.mem_cons_of_mem _ he), ?_, ?_, ?_, ?_,
      inv.prevKeys, List.nodup_cons.2 ⟨hnv, inv.visNodup⟩, ?_, ?_⟩
    · intro c dv hdv hnv2
      have hc1 : c ≠ ((x, y) : ICell) := fun hc => hnv2 (hc ▸ List.mem_cons_self _ _)
      have hc2 : c ∉ visited := fun hc => hnv2 (List.mem_cons_of_mem _ hc)
      rcases List.mem_cons.1 (inv.represented c dv hdv hc2) with h1 | h1
      · rw [Prod.mk.injEq] at h1
        exact absurd h1.2 hc1
      · exact h1
    · intro u hu
      rcases List.mem_cons.1 hu with h1 | h1
      · rw [h1]
        exact ⟨d, hxyd0, hxymin⟩
      · exact inv.settled u h1
    · intro e he hev
      rcases List.mem_cons.1 hev with h1 | h1
      · by_cases hde : e.1 = d
        · have hehead : e = (d, (x, y)) := by
            rw [Prod.ext_iff]
            exact ⟨hde, h1⟩
          rw [hehead] at he
          exact absurd he (List.nodup_cons.1 inv.pqNodup).1
        · have hle := pqLeB_fst ((List.pairwise_cons.1 inv.sorted).1 e he)
          refine ⟨d, by rw [h1]; exact hxyd0, by omega⟩
      · exact inv.stale e (List.mem_cons_of_mem _ he) h1
    · intro c dv hdv
      rcases inv.prevLink c dv hdv with ⟨h1, h2, h3⟩ | ⟨p, dp, h1, h2, h3, h4, h5⟩
      · exact Or.inl ⟨h1, h2, h3⟩
      · exact Or.inr ⟨p, dp, h1, h2, h3, h4, List.mem_cons_of_mem _ h5⟩
    · intro u hu
      rcases List.mem_cons.1 hu with h1 | h1
      · rw [h1, hxyd0]
        rfl
      · exact inv.visDist u h1
    · intro hcon
      rcases List.mem_cons.1 hcon with h1 | h1
      · exact hne h1.symm
      · exact inv.endNotVis h1
  obtain ⟨d1, p1, q1, he1, c1, f1, hx1, dn1, m1, l1⟩ :=
    relaxDir_spec hg Dir.N core0 inv.frontier hxyd0
  obtain ⟨d2, p2, q2, he2, c2, f2, hx2, dn2, m2, l2⟩ := relaxDir_spec hg Dir.S c1 f1 hx1
  obtain ⟨d3, p3, q3, he3, c3, f3, hx3, dn3, m3, l3⟩ := relaxDir_spec hg Dir.E c2 f2 hx2
  obtain ⟨d4, p4, q4, he4, c4, f4, hx4, dn4, m4, l4⟩ := relaxDir_spec hg Dir.W c3 f3 hx3
  have prop2 : ∀ c dv, List.lookup c d1 = some dv →
      ∃ dv2, List.lookup c d4 = some dv2 ∧ dv2 ≤ dv := by
    intro c dv hdv
    obtain ⟨a2, ha2, hb2⟩ := m2 c dv hdv
    obtain ⟨a3, ha3, hb3⟩ := m3 c a2 ha2
    obtain ⟨a4, ha4, hb4⟩ := m4 c a3 ha3
    exact ⟨a4, ha4, by omega⟩
  have prop3 : ∀ c dv, List.lookup c d2 = some dv →
      ∃ dv2, List.lookup c d4 = some dv2 ∧ dv2 ≤ dv := by
    intro c dv hdv
    obtain ⟨a3, ha3, hb3⟩ := m3 c dv hdv
    obtain ⟨a4, ha4, hb4⟩ := m4 c a3 ha3
    exact ⟨a4, ha4, by omega⟩
  refine ⟨d4, p4, q4, ?_, ⟨c4, ?_⟩, by omega⟩
  · simp only [List.foldlM_cons, List.foldlM_nil, he1, except_bind_ok, he2, he3, he4]
    rfl
  · intro u hu v hadjv
    rcases List.mem_cons.1 hu with h1 | h1
    · rw [h1] at hadjv
      obtain ⟨hbin, htin, dd, hbit, hveq⟩ := hadjv
      subst hveq
      cases dd
      · obtain ⟨dv, hdv, hle⟩ := dn1 hbit htin
        obtain ⟨dv4, hdv4, hle4⟩ := prop2 _ _ hdv
        exact ⟨dv4, d, hdv4, by rw [h1]; exact hx4, by omega⟩
      · obtain ⟨dv, hdv, hle⟩ := dn2 hbit htin
        obtain ⟨dv4, hdv4, hle4⟩ := prop3 _ _ hdv
        exact ⟨dv4, d, hdv4, by rw [h1]; exact hx4, by omega⟩
      · obtain ⟨dv, hdv, hle⟩ := dn4 hbit htin
        exact ⟨dv, d, hdv, by rw [h1]; exact hx4, by omega⟩
      · obtain ⟨dv, hdv, hle⟩ := dn3 hbit htin
        obtain ⟨dv4, hdv4, hle4⟩ := m4 _ _ hdv
        exact ⟨dv4, d, hdv4, by rw [h1]; exact hx4, by omega⟩
    · exact f4 u h1 v hadjv

theorem visited_bound {grid : Grid} {w h : Nat} {start endc : ICell} {pq : List PQE}
    {dist : List (ICell × Nat)} {prev : List (ICell × Option ICell)} {visited : List ICell}
    (core : DCore grid w h start endc pq dist prev visited) :
    visited.length ≤ w * h := by
  have hsub : visited ⊆ (allCells w h).map iCell := by
    intro c hc
    obtain ⟨dv, hdv⟩ := Option.isSome_iff_exists.1 (core.visDist c hc)
    obtain ⟨h0, h1, h2, h3⟩ := core.distInB c dv hdv
    obtain ⟨a, b⟩ := c
    rw [List.mem_map]
    refine ⟨(a.toNat, b.toNat), mem_allCells.2 ⟨by omega, by omega⟩, ?_⟩
    simp only [iCell]
    rw [Prod.mk.injEq]
    exact ⟨by omega, by omega⟩
  have hper := List.Subperm.length_le (List.subperm_of_subset core.visNodup hsub)
  rw [List.length_map, allCells_length] at hper
  exact hper

theorem dijkstraLoop_master {grid : Grid} {w h : Nat} {start endc : ICell}
    (hg : Rect grid w h) :
    ∀ fuel pq dist prev visited,
      DInv grid w h start endc pq dist prev visited →
      pq.length + 5 * (w * h - visited.length) + 1 ≤ fuel →
      ∃ dist2 prev2 visited2,
        dijkstraLoop grid w h endc fuel pq dist prev visited =
          .ok (dist2, prev2, visited2) ∧
        (∀ c dv, List.lookup c dist2 = some dv → SReachN grid w h start c dv) ∧
        List.lookup start dist2 = some 0 ∧
        (∀ c dv, List.lookup c dist2 = some dv →
          (c = start ∧ dv = 0 ∧ List.lookup c prev2 = some none) ∨
          (∃ p dp, List.lookup c prev2 = some (some p) ∧ sAdj grid w h p c ∧
            List.lookup p dist2 = some dp ∧ dv = dp + 1)) ∧
        (∀ c, (List.lookup c prev2).isSome ↔ (List.lookup c dist2).isSome) ∧
        ((∃ dv, List.lookup endc dist2 = some dv ∧
            ∀ m, SReachN grid w h start endc m → dv ≤ m) ∨
          ∀ m, ¬ SReachN grid w h start endc m) := by
  intro fuel
  induction fuel with
  | zero =>
    intro pq dist prev visited _ hfuel
    omega
  | succ f ih =>
    intro pq dist prev visited inv hfuel
    simp only [dijkstraLoop]
    cases pq with
    | nil =>
      refine ⟨dist, prev, visited, rfl, inv.reached, inv.distStart, ?_, inv.prevKeys, ?_⟩
      · intro c dv hdv
        rcases inv.prevLink c dv hdv with ⟨h1, h2, h3⟩ | ⟨p, dp, h1, h2, h3, h4, _⟩
        · exact Or.inl ⟨h1, h2, h3⟩
        · exact Or.inr ⟨p, dp, h1, h2, h3, h4⟩
      · refine Or.inr ?_
        intro m hm
        obtain ⟨e, he, _⟩ := dinv_cover inv hm inv.endNotVis
        exact absurd he (List.not_mem_nil e)
    | cons head pqRest =>
      obtain ⟨dcur, xy⟩ := head
      dsimp only
      by_cases hend : xy = endc
      · rw [if_pos hend]
        obtain ⟨hdv, hmin⟩ := by
          rw [hend] at inv
          exact dinv_head_min inv inv.endNotVis
        refine ⟨dist, prev, visited, rfl, inv.reached, inv.distStart, ?_, inv.prevKeys,
          Or.inl ⟨dcur, hdv, hmin⟩⟩
        intro c dv hdv2
        rcases inv.prevLink c dv hdv2 with ⟨h1, h2, h3⟩ | ⟨p, dp, h1, h2, h3, h4, _⟩
        · exact Or.inl ⟨h1, h2, h3⟩
        · exact Or.inr ⟨p, dp, h1, h2, h3, h4⟩
      · rw [if_neg hend]
        by_cases hvis : xy ∈ visited
        · rw [if_pos hvis]
          exact ih pqRest dist prev visited (dinv_skip inv hvis)
            (by simp only [List.length_cons] at hfuel; omega)
        · rw [if_neg hvis]
          obtain ⟨x, y⟩ := xy
          obtain ⟨d2, p2, q2, hfold, inv2, hlen⟩ := expand_spec hg inv hvis hend
          dsimp only
          rw [hfold]
          have hbound : ((x, y) :: visited).length ≤ w * h := visited_bound inv2.toDCore
          refine ih q2 d2 p2 (((x, y) : ICell) :: visited) inv2 ?_
          simp only [List.length_cons] at hfuel hbound ⊢
          omega

theorem sChain_snoc {grid : Grid} {w h : Nat} {q : List ICell} {p c : ICell}
    (hch : sChain grid w h q) (hl : q.getLast? = some p) (hadj : sAdj grid w h p c) :
    sChain grid w h (q ++ [c]) := by
  induction q with
  | nil => cases hl
  | cons a t ih =>
    cases t with
    | nil =>
      cases Option.some.inj hl
      exact ⟨hadj, trivial⟩
    | cons b t2 =>
      obtain ⟨hab, hrest⟩ := hch
      rw [List.getLast?_cons_cons] at hl
      exact ⟨hab, ih hrest hl⟩

theorem reconstruct_chain {grid : Grid} {w h : Nat} {start : ICell}
    {dist : List (ICell × Nat)} {prev : List (ICell × Option ICell)}
    (hPL : ∀ c dv, List.lookup c dist = some dv →
      (c = start ∧ dv = 0 ∧ List.lookup c prev = some none) ∨
      (∃ p dp, List.lookup c prev = some (some p) ∧ sAdj grid w h p c ∧
        List.lookup p dist = some dp ∧ dv = dp + 1)) :
    ∀ dv c, List.lookup c dist = some dv →
      ∃ q : List ICell,
        q.head? = some start ∧ q.getLast? = some c ∧ sChain grid w h q ∧
        q.length = dv + 1 ∧
        (∀ i cell, q.get? i = some cell → List.lookup cell dist = some i) ∧
        (∀ f acc, dv + 1 ≤ f → reconstructGet prev f c acc = .ok (q ++ acc)) ∧
        (∀ f acc, dv + 1 ≤ f → reconstructIdx prev f c acc = .ok (q ++ acc)) := by
  intro dv
  induction dv with
  | zero =>
    intro c hdv
    rcases hPL c 0 hdv with ⟨hc, _, hpc⟩ | ⟨p, dp, _, _, _, hdveq⟩
    · refine ⟨[c], by rw [hc]; rfl, rfl, trivial, rfl, ?_, ?_, ?_⟩
      · intro i cell hcell
        cases i with
        | zero =>
          cases Option.some.inj hcell
          exact hdv
        | succ j => cases hcell
      · intro f acc hf
        cases f with
        | zero => omega
        | succ f2 =>
          simp only [reconstructGet]
          rw [hpc]
          rfl
      · intro f acc hf
        cases f with
        | zero => omega
        | succ f2 =>
          simp only [reconstructIdx]
          rw [hpc]
          rfl
    · omega
  | succ dp ih =>
    intro c hdv
    rcases hPL c (dp + 1) hdv with ⟨_, h0, _⟩ | ⟨p, dp', hpc, hadj, hpd, hdveq⟩
    · omega
    · have hdp : dp' = dp := by omega
      subst hdp
      obtain ⟨q0, hh, hl, hch, hlen, hidx, hrg, hri⟩ := ih p hpd
      have hq0ne : q0 ≠ [] := by
        intro hcon
        rw [hcon] at hlen
        simp at hlen
      refine ⟨q0 ++ [c], ?_, List.getLast?_concat _, sChain_snoc hch hl hadj, ?_, ?_, ?_, ?_⟩
      · cases q0 with
        | nil => exact absurd rfl hq0ne
        | cons a t => exact hh
      · rw [List.length_append, hlen]
        rfl
      · intro i cell hcell
        by_cases hi : i < q0.length
        · rw [List.get?_append hi] at hcell
          exact hidx i cell hcell
        · rw [List.get?_append_right (by omega)] at hcell
          by_cases hieq : i = q0.length
          · rw [hieq, Nat.sub_self] at hcell
            cases Option.some.inj hcell
            rw [hieq, hlen]
            exact hdv
          · rw [show i - q0.length = (i - q0.length - 1) + 1 from by omega] at hcell
            cases hcell
      · intro f acc hf
        cases f with
        | zero => omega
        | succ f2 =>
          simp only [reconstructGet]
          rw [hpc]
          show reconstructGet prev f2 p (c :: acc) = _
          rw [hrg f2 (c :: acc) (by omega)]
          rw [List.append_assoc]
          rfl
      · intro f acc hf
        cases f with
        | zero => omega
        | succ f2 =>
          simp only [reconstructIdx]
          rw [hpc]
          show reconstructIdx prev f2 p (c :: acc) = _
          rw [hri f2 (c :: acc) (by omega)]
          rw [List.append_assoc]
          rfl

theorem lookup_singleton {α β : Type} [BEq α] [LawfulBEq α] [DecidableEq α]
    (k : α) (v : β) (c : α) :
    List.lookup c [(k, v)] = if c = k then some v else none := by
  by_cases hc : c = k
  · rw [if_pos hc, hc, lookup_cons_eq]
  · rw [if_neg hc, lookup_cons_ne _ _ _ hc]
    rfl

theorem dinv_init (grid : Grid) {w h : Nat} {start : ICell} (endc : ICell)
    (hstart : inBI w h start) :
    DInv grid w h start endc [(0, start)] [(start, 0)] [(start, none)] [] := by
  refine ⟨⟨List.pairwise_singleton _ _, List.nodup_singleton _, lookup_cons_eq _ _ _,
    ?_, ?_, ?_, ?_, ?_, ?_, ?_, ?_, List.nodup_nil, ?_, List.not_mem_nil _⟩, ?_⟩
  · intro c dv hdv
    rw [lookup_singleton] at hdv
    by_cases hc : c = start
    · rw [hc]
      exact hstart
    · rw [if_neg hc] at hdv
      cases hdv
  · intro c dv hdv
    rw [lookup_singleton] at hdv
    by_cases hc : c = start
    · rw [if_pos hc] at hdv
      cases Option.some.inj hdv
      rw [hc]
      exact SReachN.refl start
    · rw [if_neg hc] at hdv
      cases hdv
  · intro e he
    rcases List.mem_cons.1 he with h1 | h1
    · rw [h1]
      exact ⟨0, lookup_cons_eq _ _ _, Nat.le_refl 0⟩
    · exact absurd h1 (List.not_mem_nil e)
  · intro c dv hdv _
    rw [lookup_singleton] at hdv
    by_cases hc : c = start
    · rw [if_pos hc] at hdv
      cases Option.some.inj hdv
      rw [hc]
      exact List.mem_cons_self _ _
    · rw [if_neg hc] at hdv
      cases hdv
  · intro c hc
    exact absurd hc (List.not_mem_nil c)
  · intro e _ hev
    exact absurd hev (List.not_mem_nil _)
  · intro c dv hdv
    rw [lookup_singleton] at hdv
    by_cases hc : c = start
    · rw [if_pos hc] at hdv
      cases Option.some.inj hdv
      exact Or.inl ⟨hc, rfl, by rw [hc, lookup_cons_eq]⟩
    · rw [if_neg hc] at hdv
      cases hdv
  · intro c
    rw [lookup_singleton, lookup_singleton]
    by_cases hc : c = start
    · rw [if_pos hc, if_pos hc]
      rfl
    · rw [if_neg hc, if_neg hc]
      rfl
  · intro c hc
    exact absurd hc (List.not_mem_nil c)
  · intro u hu
    exact absurd hu (List.not_mem_nil u)

theorem solveLoop_lockstep {grid : Grid} {w h : Nat} {start endc : ICell}
    (hg : Rect grid w h) :
    ∀ fuel pq dist prev visited,
      DInv grid w h start endc pq dist prev visited →
      solveLoop grid w h endc fuel pq dist prev =
        Except.map (fun st => (st.1, st.2.1))
          (dijkstraLoop grid w h endc fuel pq dist prev visited) := by
  intro fuel
  induction fuel with
  | zero =>
    intro pq dist prev visited _
    rfl
  | succ f ih =>
    intro pq dist prev visited inv
    simp only [solveLoop, dijkstraLoop]
    cases pq with
    | nil => rfl
    | cons head pqRest =>
      obtain ⟨dcur, xy⟩ := head
      dsimp only
      by_cases hend : xy = endc
      · simp only [if_pos hend]
        rfl
      · simp only [if_neg hend]
        obtain ⟨dv, hdv, _⟩ := inv.inQueue (dcur, xy) (List.mem_cons_self _ _)
        rw [hdv]
        dsimp only
        by_cases hvis : xy ∈ visited
        · have hlt : dv < dcur := (dinv_skip_iff inv hdv).1 hvis
          rw [if_pos hlt, if_pos hvis]
          exact ih pqRest dist prev visited (dinv_skip inv hvis)
        · have hnlt : ¬ dv < dcur := fun hc => hvis ((dinv_skip_iff inv hdv).2 hc)
          rw [if_neg hnlt, if_neg hvis]
          obtain ⟨x, y⟩ := xy
          obtain ⟨d2, p2, q2, hfold, inv2, _⟩ := expand_spec hg inv hvis hend
          dsimp only at hfold ⊢
          rw [hfold]
          exact ih q2 d2 p2 (((x, y) : ICell) :: visited) inv2

theorem solve_both_spec {grid : Grid} {w h : Nat} {start endc : ICell} {fuel n : Nat}
    (hg : Rect grid w h) (hstart : inBI w h start)
    (hfuel : 5 * (w * h) + 2 ≤ fuel) (hr : SReachN grid w h start endc n) :
    ∃ q, dijkstra_solve grid start endc fuel = .ok q ∧
      solve_maze_dijkstra grid start endc fuel = .ok (some q) ∧
      q.head? = some start ∧ q.getLast? = some endc ∧ sChain grid w h q ∧ q.Nodup ∧
      SReachN grid w h start endc (q.length - 1) ∧
      (∀ m, SReachN grid w h start endc m → q.length - 1 ≤ m) := by
  have hh0 : 0 < h := by
    obtain ⟨_, _, h2, h3⟩ := hstart
    omega
  have hlen : grid.length = h := hg.1
  have hrow := rect_row hg hh0
  have hget : pyGet grid 0 = .ok (grid.getD 0 []) :=
    pyGet_ok grid 0 [] (by omega) (by rw [hlen]; exact_mod_cast hh0)
  obtain ⟨dist2, prev2, visited2, hrun, hreach2, hstart2, hPL2, hpk2, hend2⟩ :=
    dijkstraLoop_master hg fuel [(0, start)] [(start, 0)] [(start, none)] []
      (dinv_init grid endc hstart)
      (by simp only [List.length_cons, List.length_nil]; omega)
  rcases hend2 with ⟨dv, hdv, hmin⟩ | hunr
  · obtain ⟨q, hqh, hql, hqc, hqlen, hqidx, hqget, hqidx2⟩ := reconstruct_chain hPL2 dv endc hdv
    have hnd : q.Nodup := by
      rw [List.nodup_iff_injective_get]
      intro i j heq
      obtain ⟨i, hi⟩ := i
      obtain ⟨j, hj⟩ := j
      have l1 := hqidx i _ (List.get?_eq_get hi)
      have l2 := hqidx j _ (List.get?_eq_get hj)
      rw [heq] at l1
      rw [l2] at l1
      have hij := Option.some.inj l1
      exact Fin.ext (show i = j by omega)
    have hsubk : q ⊆ prev2.map Prod.fst := by
      intro cell hcell
      obtain ⟨i, hi⟩ := List.mem_iff_get?.1 hcell
      have hld := hqidx i cell hi
      have hsome : (List.lookup cell prev2).isSome := (hpk2 cell).2 (by rw [hld]; rfl)
      obtain ⟨pv, hpv⟩ := Option.isSome_iff_exists.1 hsome
      exact lookup_some_mem_keys hpv
    have hqle : q.length ≤ prev2.length := by
      have hper := List.Subperm.length_le (List.subperm_of_subset hnd hsubk)
      rw [List.length_map] at hper
      exact hper
    have hrecon := hqget (prev2.length + 1) [] (by omega)
    rw [List.append_nil] at hrecon
    have hrecon2 := hqidx2 (prev2.length + 1) [] (by omega)
    rw [List.append_nil] at hrecon2
    have hd : dijkstra_solve grid start endc fuel = .ok q := by
      simp only [dijkstra_solve, hget, Int.toNat_zero]
      rw [hrow.2, hlen]
      simp only [hrun]
      exact hrecon
    obtain ⟨pv, hpv⟩ := Option.isSome_iff_exists.1 ((hpk2 endc).2 (by rw [hdv]; rfl))
    have hs : solve_maze_dijkstra grid start endc fuel = .ok (some q) := by
      simp only [solve_maze_dijkstra, hget, Int.toNat_zero]
      rw [hrow.2, hlen]
      rw [solveLoop_lockstep hg fuel [(0, start)] [(start, 0)] [(start, none)] [] (dinv_init grid endc hstart)]
      simp only [hrun, Except.map]
      rw [hpv]
      simp only [Option.isNone_some, Bool.false_eq_true, if_false]
      rw [hrecon2]
    have hlq : q.length - 1 = dv := by omega
    refine ⟨q, hd, hs, hqh, hql, hqc, hnd, hlq ▸ hreach2 endc dv hdv, ?_⟩
    intro m hm
    have := hmin m hm
    omega
  · exact absurd hr (hunr n)

theorem solve_both_unreach {grid : Grid} {w h : Nat} {start endc : ICell} {fuel : Nat}
    (hg : Rect grid w h) (hstart : inBI w h start)
    (hfuel : 5 * (w * h) + 2 ≤ fuel) (hnr : ∀ m, ¬ SReachN grid w h start endc m) :
    dijkstra_solve grid start endc fuel = .ok [endc] ∧
      solve_maze_dijkstra grid start endc fuel = .ok none := by
  have hh0 : 0 < h := by
    obtain ⟨_, _, h2, h3⟩ := hstart
    omega
  have hlen : grid.length = h := hg.1
  have hrow := rect_row hg hh0
  have hget : pyGet grid 0 = .ok (grid.getD 0 []) :=
    pyGet_ok grid 0 [] (by omega) (by rw [hlen]; exact_mod_cast hh0)
  obtain ⟨dist2, prev2, visited2, hrun, hreach2, hstart2, hPL2, hpk2, hend2⟩ :=
    dijkstraLoop_master hg fuel [(0, start)] [(start, 0)] [(start, none)] []
      (dinv_init grid endc hstart)
      (by simp only [List.length_cons, List.length_nil]; omega)
  have hdnone : List.lookup endc dist2 = none := by
    cases hcase : List.lookup endc dist2 with
    | none => rfl
    | some dv => exact absurd (hreach2 endc dv hcase) (hnr dv)
  have hpnone : List.lookup endc prev2 = none := by
    cases hcase : List.lookup endc prev2 with
    | none => rfl
    | some pv =>
      have hsome := (hpk2 endc).1 (by rw [hcase]; rfl)
      rw [hdnone] at hsome
      cases hsome
  constructor
  · simp only [dijkstra_solve, hget, Int.toNat_zero]
    rw [hrow.2, hlen]
    simp only [hrun]
    show reconstructGet prev2 (prev2.length + 1) endc [] = _
    simp only [reconstructGet]
    rw [hpnone]
  · simp only [solve_maze_dijkstra, hget, Int.toNat_zero]
    rw [hrow.2, hlen]
    rw [solveLoop_lockstep hg fuel [(0, start)] [(start, 0)] [(start, none)] [] (dinv_init grid endc hstart)]
    simp only [hrun, Except.map]
    rw [hpnone]
    rfl

theorem sreach_demo : SReachN [[2, 2], [9, 5]] 2 2 (0, 0) (1, 1) 2 :=
  SReachN.step
    (SReachN.step (SReachN.refl (0, 0))
      (show sAdj [[2, 2], [9, 5]] 2 2 (0, 0) (0, 1) from
        ⟨by unfold inBI; decide, by unfold inBI; decide, Dir.S, by decide, by decide⟩))
    (show sAdj [[2, 2], [9, 5]] 2 2 (0, 1) (1, 1) from
      ⟨by unfold inBI; decide, by unfold inBI; decide, Dir.E, by decide, by decide⟩)

/-- C2: on a rectangular grid with symmetric passage masks, for every
in-bounds start and end with end reachable from start, both solvers return a
path that begins at start, ends at end, whose consecutive cells are joined
by carved passages, and whose edge count is the minimum number of steps from
start to end; when the grid has exactly one simple path between any two
cells (a perfect maze) the returned path is that unique simple path. -/
theorem C2_shortest_path (grid : Grid) (w h : Nat) (start endc : ICell) (fuel n : Nat)
    (hg : Rect grid w h)
    (hsym : ∀ c d, bitSet grid c d →
      ∃ c2, dirNext w h c d = some c2 ∧ inBounds w h c2 ∧ bitSet grid c2 (OPPOSITE d))
    (hstart : inBI w h start) (hend : inBI w h endc)
    (hr : SReachN grid w h start endc n)
    (hfuel : 5 * (w * h) + 2 ≤ fuel) :
    ∃ q, dijkstra_solve grid start endc fuel = .ok q ∧
      solve_maze_dijkstra grid start endc fuel = .ok (some q) ∧
      q.head? = some start ∧ q.getLast? = some endc ∧ sChain grid w h q ∧
      SReachN grid w h start endc (q.length - 1) ∧
      (∀ m, SReachN grid w h start endc m → q.length - 1 ≤ m) ∧
      (UniquePathProp grid w h →
        ∀ q2, sChain grid w h q2 ∧ q2.head? = some start ∧ q2.getLast? = some endc ∧
          q2.Nodup → q2 = q) := by
  obtain ⟨q, hd, hs, hqh, hql, hqc, hnd, hre, hmin⟩ := solve_both_spec hg hstart hfuel hr
  refine ⟨q, hd, hs, hqh, hql, hqc, hre, hmin, ?_⟩
  intro huniq q2 hq2
  obtain ⟨P, hP, hPu⟩ := huniq start endc hstart hend
  rw [hPu q2 hq2, hPu q ⟨hqc, hqh, hql, hnd⟩]

theorem C2_shortest_path_witness :
    (Rect [[2, 2], [9, 5]] 2 2 ∧
      (∀ c d, bitSet [[2, 2], [9, 5]] c d →
        ∃ c2, dirNext 2 2 c d = some c2 ∧ inBounds 2 2 c2 ∧
          bitSet [[2, 2], [9, 5]] c2 (OPPOSITE d)) ∧
      inBI 2 2 ((0, 0) : ICell) ∧ inBI 2 2 ((1, 1) : ICell) ∧
      SReachN [[2, 2], [9, 5]] 2 2 (0, 0) (1, 1) 2 ∧ 5 * (2 * 2) + 2 ≤ 100) ∧
    (∃ q, dijkstra_solve [[2, 2], [9, 5]] (0, 0) (1, 1) 100 = .ok q ∧
      solve_maze_dijkstra [[2, 2], [9, 5]] (0, 0) (1, 1) 100 = .ok (some q) ∧
      q.head? = some ((0, 0) : ICell) ∧ q.getLast? = some ((1, 1) : ICell) ∧
      sChain [[2, 2], [9, 5]] 2 2 q ∧
      SReachN [[2, 2], [9, 5]] 2 2 (0, 0) (1, 1) (q.length - 1) ∧
      (∀ m, SReachN [[2, 2], [9, 5]] 2 2 (0, 0) (1, 1) m → q.length - 1 ≤ m) ∧
      (UniquePathProp [[2, 2], [9, 5]] 2 2 →
        ∀ q2, sChain [[2, 2], [9, 5]] 2 2 q2 ∧ q2.head? = some ((0, 0) : ICell) ∧
          q2.getLast? = some ((1, 1) : ICell) ∧ q2.Nodup → q2 = q)) :=
  ⟨⟨by unfold Rect; decide,
    (generate_maze_dfs_perfect 2 2 (fun _ => 0) 100 [[2, 2], [9, 5]]
      (by decide) (by decide) rfl).2.1,
    by unfold inBI; decide, by unfold inBI; decide, sreach_demo, by decide⟩,
    C2_shortest_path [[2, 2], [9, 5]] 2 2 (0, 0) (1, 1) 100 2 (by unfold Rect; decide)
      ((generate_maze_dfs_perfect 2 2 (fun _ => 0) 100 [[2, 2], [9, 5]]
        (by decide) (by decide) rfl).2.1)
      (by unfold inBI; decide) (by unfold inBI; decide) sreach_demo (by decide)⟩

/-- C10: on a rectangular non-empty grid, for every in-bounds start and end
with end reachable from start along set direction bits, the two solver
implementations return exactly the same path: dijkstra_solve returns it and
solve_maze_dijkstra returns it wrapped in its Some. -/
theorem C10_solver_equivalence (grid : Grid) (w h : Nat) (start endc : ICell)
    (fuel n : Nat) (hg : Rect grid w h) (hstart : inBI w h start)
    (hr : SReachN grid w h start endc n) (hfuel : 5 * (w * h) + 2 ≤ fuel) :
    ∃ q, dijkstra_solve grid start endc fuel = .ok q ∧
      solve_maze_dijkstra grid start endc fuel = .ok (some q) := by
  obtain ⟨q, hd, hs, _⟩ := solve_both_spec hg hstart hfuel hr
  exact ⟨q, hd, hs⟩

theorem C10_solver_equivalence_witness :
    (Rect [[2, 2], [9, 5]] 2 2 ∧ inBI 2 2 ((0, 0) : ICell) ∧
      SReachN [[2, 2], [9, 5]] 2 2 (0, 0) (1, 1) 2 ∧ 5 * (2 * 2) + 2 ≤ 100) ∧
    (∃ q, dijkstra_solve [[2, 2], [9, 5]] (0, 0) (1, 1) 100 = .ok q ∧
      solve_maze_dijkstra [[2, 2], [9, 5]] (0, 0) (1, 1) 100 = .ok (some q)) :=
  ⟨⟨by unfold Rect; decide, by unfold inBI; decide, sreach_demo, by decide⟩,
    C10_solver_equivalence [[2, 2], [9, 5]] 2 2 (0, 0) (1, 1) 100 2
      (by unfold Rect; decide) (by unfold inBI; decide) sreach_demo (by decide)⟩

/-- C3 (amended): when the end is never reached by the search, the backup
solver solve_maze_dijkstra returns the defined no-path result None, while
dijkstra_solve returns the malformed single-element list containing only the
end; neither solver crashes or dereferences an absent predecessor. -/
theorem C3_amended (grid : Grid) (w h : Nat) (start endc : ICell) (fuel : Nat)
    (hg : Rect grid w h) (hstart : inBI w h start)
    (hnr : ∀ m, ¬ SReachN grid w h start endc m)
    (hfuel : 5 * (w * h) + 2 ≤ fuel) :
    dijkstra_solve grid start endc fuel = .ok [endc] ∧
      solve_maze_dijkstra grid start endc fuel = .ok none :=
  solve_both_unreach hg hstart hfuel hnr

theorem C3_amended_witness :
    (Rect [[0, 0]] 2 1 ∧ inBI 2 1 ((0, 0) : ICell) ∧
      (∀ m, ¬ SReachN [[0, 0]] 2 1 (0, 0) (1, 0) m) ∧ 5 * (2 * 1) + 2 ≤ 100) ∧
    (dijkstra_solve [[0, 0]] (0, 0) (1, 0) 100 = .ok [(1, 0)] ∧
      solve_maze_dijkstra [[0, 0]] (0, 0) (1, 0) 100 = .ok none) := by
  have hnostep : ∀ b c : ICell, ¬ sAdj [[0, 0]] 2 1 b c := by
    intro b c hadj
    obtain ⟨_, _, d, hbit, _⟩ := hadj
    have hz : getCell [[0, 0]] b.1.toNat b.2.toNat = 0 := by
      show (([[0, 0]] : Grid).getD b.2.toNat []).getD b.1.toNat 0 = 0
      cases hy : b.2.toNat with
      | zero =>
        cases hx : b.1.toNat with
        | zero => rfl
        | succ x2 =>
          cases x2 with
          | zero => rfl
          | succ x3 => rfl
      | succ y2 => rfl
    exact hbit (by rw [hz]; exact Nat.zero_and _)
  have hconst : ∀ (m : Nat) (a b : ICell), SReachN [[0, 0]] 2 1 a b m → a = b := by
    intro m a b hm
    induction hm with
    | refl => rfl
    | step hab hadj ih => exact absurd hadj (hnostep _ _)
  have hnr : ∀ m, ¬ SReachN [[0, 0]] 2 1 (0, 0) (1, 0) m := by
    intro m hm
    have heq := hconst m _ _ hm
    rw [Prod.mk.injEq] at heq
    omega
  exact ⟨⟨by unfold Rect; decide, by unfold inBI; decide, hnr, by decide⟩,
    C3_amended [[0, 0]] 2 1 (0, 0) (1, 0) 100 (by unfold Rect; decide)
      (by unfold inBI; decide) hnr (by decide)⟩
